import Mathlib

/-!
Verification of the order-preserving row encoding engine of
`crates/polars-row/src/encode.rs`.

The development shallowly embeds the two-pass algorithm of `encode.rs`:
the width-computation pass (`get_encoder`, `list_num_column_bytes`,
`fixed_size`) and the materialization pass (`encode_array`,
`encode_flat_array`, `encode_validity`, `convert_columns_amortized`).
Columns are modelled by the inductive `Arr`, write activity of the
materializer by an explicit write log of `(position, byte)` pairs.

The leaf byte transforms (`crate::fixed::{boolean, numeric}`,
`crate::variable::{binary, utf8, no_order}`), the `RowWidths`
accumulator and the `RowEncodingOptions` sentinel/token constants live
in source files of the repository that are not part of the reviewed
sources; those definitions are modelled from the specification and are
marked `Modelled from the spec:` in their doc comments.
-/

/-! ## Byte-wise lexicographic comparison -/

/-- Three-way comparison of natural numbers (explicit, so that it
unfolds predictably). -/
def cmpNat (a b : Nat) : Ordering :=
  if a < b then .lt else if b < a then .gt else .eq

/-- Lexicographic three-way comparison of byte strings; this is the
byte-wise comparison that consumers apply to encoded rows (the order of
Rust byte slices): a proper leading part compares below any extension. -/
def lexCmp : List Nat → List Nat → Ordering
  | [], [] => .eq
  | [], _ :: _ => .lt
  | _ :: _, [] => .gt
  | a :: as, b :: bs => (cmpNat a b).then (lexCmp as bs)

/-- `x` compares strictly below `y` byte-wise. -/
def lexLt (x y : List Nat) : Prop := lexCmp x y = .lt

instance (x y : List Nat) : Decidable (lexLt x y) := by
  unfold lexLt; infer_instance

/-! ## Bit-flip (descending order) machinery -/

/-- Complement of one byte, as used for descending-order columns
(flip all bits of the encoded value). -/
def flipByte (b : Nat) : Nat := 255 - b

/-- Complement every byte of an encoded value. -/
def mapFlip (l : List Nat) : List Nat := l.map flipByte

/-- `x` is a strict byte-wise leading part of `y`. -/
def strictPre : List Nat → List Nat → Prop
  | [], [] => False
  | [], _ :: _ => True
  | _ :: _, [] => False
  | a :: as, b :: bs => a = b ∧ strictPre as bs

/-! ## Block-chunked variable-length encoding

Modelled from the spec: in ordered mode, a variable-length byte string
is encoded "using a length formula that accounts for block-chunked
escaping so that prefix relationships between unequal-length strings
still compare correctly byte-wise".  The model chunks the data into
32-byte blocks; every full block with more data to follow is terminated
by the continuation byte `255`, and the final block is padded with `0`
and terminated by the count of meaningful bytes in it. -/

/-- One ordered-mode block chain for the data bytes of a string. -/
def encChunks (s : List Nat) : List Nat :=
  if s.length ≤ 32 then s ++ List.replicate (32 - s.length) 0 ++ [s.length]
  else s.take 32 ++ 255 :: encChunks (s.drop 32)
termination_by s.length
decreasing_by simp; omega

/-- Number of 32-byte blocks the data bytes of a string occupy. -/
def numBlocks (l : Nat) : Nat :=
  if l ≤ 32 then 1 else 1 + numBlocks (l - 32)

/-! ## Big-endian fixed-width byte encoding -/

/-- `w` big-endian base-256 digits of `v` (the most significant digit
first), as used by the order-preserving fixed-width transforms. -/
def beBytes : Nat → Nat → List Nat
  | 0, _ => []
  | w + 1, v => v / 256 ^ w :: beBytes w (v % 256 ^ w)

/-! ## Encoding options, sentinels and tokens

`RowEncodingOptions` lives in `crates/polars-row/src/row.rs`, which is
not among the reviewed sources.  Modelled from the spec: per-column
flags are ascending/descending, nulls-first/nulls-last, "no-order" mode
and a nested-context flag; the null sentinel is determined by the null
placement alone (placement is independent of direction), and the
ascending tokens/sentinels of non-null values lie strictly between the
two null sentinels, as do their descending (bit-flipped) images. -/

structure ROpts where
  descending : Bool
  nullsLast : Bool
  noOrder : Bool
  nestedFlag : Bool
deriving DecidableEq

/-- Modelled from the spec: ordered mode is the absence of the
"no-order" flag. -/
def ROpts.isOrdered (o : ROpts) : Bool := !o.noOrder

/-- Modelled from the spec: recursion into a nested child sets the
inner nesting flag, keeping direction/null-placement/mode flags. -/
def ROpts.intoNested (o : ROpts) : ROpts := { o with nestedFlag := true }

/-- Modelled from the spec: the null sentinel byte depends only on the
null placement: `0` for nulls-first, `255` for nulls-last. -/
def ROpts.nullSentinel (o : ROpts) : Nat := if o.nullsLast then 255 else 0

/-- Modelled from the spec: the list null sentinel is the null
sentinel. -/
def ROpts.listNullSentinel (o : ROpts) : Nat := o.nullSentinel

/-- Modelled from the spec: the per-element continuation token of list
rows (bit-flipped for descending columns). -/
def ROpts.listContinuationToken (o : ROpts) : Nat :=
  if o.descending then flipByte 2 else 2

/-- Modelled from the spec: the termination token closing a valid list
row (bit-flipped for descending columns). -/
def ROpts.listTerminationToken (o : ROpts) : Nat :=
  if o.descending then flipByte 1 else 1

/-- Apply the descending bit-flip to the value bytes when requested. -/
def descApply (o : ROpts) (l : List Nat) : List Nat :=
  if o.descending then mapFlip l else l

/-! ## Leaf encoders (pass 2 byte transforms)

These model `crate::fixed::{boolean, numeric}` and
`crate::variable::{utf8, binary, no_order}`, none of which are among
the reviewed sources. -/

/-- Modelled from the spec: "booleans write one of {false-byte,
true-byte} possibly bit-flipped for descending order"; a null boolean
writes the null sentinel (booleans occupy a single byte). -/
def boolBytes (o : ROpts) : Option Bool → List Nat
  | none => [o.nullSentinel]
  | some b => descApply o [if b then 3 else 2]

/-- Modelled from the spec: an unsigned integer writes one validity
byte (`1`) and its big-endian bytes, bit-flipped for descending; a null
writes the null sentinel followed by zero filler of the same width. -/
def uintBytes (o : ROpts) (w : Nat) : Option Nat → List Nat
  | none => o.nullSentinel :: List.replicate w 0
  | some v => 1 :: descApply o (beBytes w v)

/-- The two's-complement sign-bit flip: shift a signed value into the
unsigned range so that unsigned comparison is order-equivalent. -/
def intShift (w : Nat) (v : Int) : Nat := (v + 2 ^ (8 * w - 1)).toNat

/-- Modelled from the spec: a signed integer applies the
"two's complement sign-bit flip", then encodes like an unsigned one. -/
def intBytes (o : ROpts) (w : Nat) : Option Int → List Nat
  | none => o.nullSentinel :: List.replicate w 0
  | some v => 1 :: descApply o (beBytes w (intShift w v))

/-- The "IEEE-754 sign/mantissa transform" on a `8*w`-bit float bit
pattern: set the sign bit for nonnegative patterns, complement all bits
for negative patterns, so that unsigned order equals total order. -/
def floatKey (w : Nat) (bits : Nat) : Nat :=
  if bits < 2 ^ (8 * w - 1) then bits + 2 ^ (8 * w - 1)
  else 2 ^ (8 * w) - 1 - bits

/-- Modelled from the spec: floats write one validity byte and the
big-endian bytes of the sign/mantissa transform of their bit pattern,
bit-flipped for descending. -/
def floatBytes (o : ROpts) (w : Nat) : Option Nat → List Nat
  | none => o.nullSentinel :: List.replicate w 0
  | some bits => 1 :: descApply o (beBytes w (floatKey w bits))

/-- Modelled from the spec: in ordered mode a string/binary value
writes a non-null marker byte followed by its block-chunked escape
chain, everything except a null sentinel bit-flipped for descending;
in "no-order" mode it writes a constant-size header (a non-null tag and
the big-endian length) followed by the raw bytes.  A null writes a
single null-sentinel byte in both modes. -/
def strBytes (o : ROpts) : Option (List Nat) → List Nat
  | none => [o.nullSentinel]
  | some s =>
    if o.noOrder then 1 :: (beBytes 4 s.length ++ s)
    else descApply o (2 :: encChunks s)

/-- Modelled from the spec: the pass-1 width formula of a
string/binary value, computed from the value's length alone
(`len_from_item` / `encoded_len_from_len`). -/
def strLenFromLen (o : ROpts) : Option Nat → Nat
  | none => 1
  | some l => if o.noOrder then 5 + l else 1 + 33 * numBlocks l

/-! ## Leaf values and their semantic order -/

/-- One supported leaf value: booleans, unsigned/signed integers of any
byte width `w`, floats of byte width `w` represented by their bit
pattern, and strings/binaries as raw byte lists. -/
inductive LeafVal
  | vBool (b : Bool)
  | vUInt (w : Nat) (v : Nat)
  | vInt (w : Nat) (v : Int)
  | vFloat (w : Nat) (bits : Nat)
  | vStr (s : List Nat)
deriving DecidableEq

/-- Well-formedness: values fit their width, string bytes are bytes. -/
def LeafVal.wf : LeafVal → Prop
  | .vBool _ => True
  | .vUInt w v => v < 256 ^ w
  | .vInt w v => 1 ≤ w ∧ -(2 ^ (8 * w - 1) : Int) ≤ v ∧ v < 2 ^ (8 * w - 1)
  | .vFloat w bits => 1 ≤ w ∧ bits < 256 ^ w
  | .vStr s => ∀ b ∈ s, b ≤ 255

/-- Two leaf values of the same leaf type (and width). -/
def sameTy : LeafVal → LeafVal → Prop
  | .vBool _, .vBool _ => True
  | .vUInt w _, .vUInt w' _ => w = w'
  | .vInt w _, .vInt w' _ => w = w'
  | .vFloat w _, .vFloat w' _ => w = w'
  | .vStr _, .vStr _ => True
  | _, _ => False

/-- Modelled from the spec: the semantic order on `8*w`-bit float bit
patterns is the IEEE-754 total order ("negative values sort before
positive and bit patterns compare correctly"), which covers `NaN`
payloads and distinguishes `-0.0 < +0.0`. -/
def floatTotalLt (w a b : Nat) : Prop :=
  (a < 2 ^ (8 * w - 1) ∧ b < 2 ^ (8 * w - 1) ∧ a < b) ∨
    (2 ^ (8 * w - 1) ≤ a ∧ 2 ^ (8 * w - 1) ≤ b ∧ b < a) ∨
    (2 ^ (8 * w - 1) ≤ a ∧ b < 2 ^ (8 * w - 1))

/-- The semantic "compares below" relation of two same-typed leaf
values (the ascending comparison of the original typed values). -/
def semLt : LeafVal → LeafVal → Prop
  | .vBool a, .vBool b => a = false ∧ b = true
  | .vUInt _ a, .vUInt _ b => a < b
  | .vInt _ a, .vInt _ b => a < b
  | .vFloat w a, .vFloat _ b => floatTotalLt w a b
  | .vStr a, .vStr b => lexLt a b
  | _, _ => False

/-- The bytes a single (non-null) leaf value contributes to its row. -/
def leafBytes (o : ROpts) : LeafVal → List Nat
  | .vBool b => boolBytes o (some b)
  | .vUInt w v => uintBytes o w (some v)
  | .vInt w v => intBytes o w (some v)
  | .vFloat w bits => floatBytes o w (some bits)
  | .vStr s => strBytes o (some s)


/-! ## Columnar model

`Arr` models one physical Arrow column as consumed by `encode.rs`,
restricted to the supported physical representations: null, boolean,
fixed-width unsigned/signed integers, floats (by bit pattern),
variable-length strings/binaries (raw byte lists), 32/64-bit-offset
lists (with dense offsets, kept as per-row lengths), fixed-size lists
and structs.  Validity is an optional per-row bitmap, as in Arrow. -/

inductive Arr
  | nullArr (len : Nat)
  | boolArr (vs : List (Option Bool))
  | uintArr (w : Nat) (vs : List (Option Nat))
  | intArr (w : Nat) (vs : List (Option Int))
  | floatArr (w : Nat) (vs : List (Option Nat))
  | strArr (vs : List (Option (List Nat)))
  | listArr (is64 : Bool) (lens : List Nat) (validity : Option (List Bool)) (child : Arr)
  | fslArr (len width : Nat) (validity : Option (List Bool)) (child : Arr)
  | structArr (len : Nat) (validity : Option (List Bool)) (children : List Arr)

def Arr.numRows : Arr → Nat
  | .nullArr n => n
  | .boolArr vs => vs.length
  | .uintArr _ vs => vs.length
  | .intArr _ vs => vs.length
  | .floatArr _ vs => vs.length
  | .strArr vs => vs.length
  | .listArr _ lens _ _ => lens.length
  | .fslArr len _ _ _ => len
  | .structArr len _ _ => len

/-- An absent validity bitmap means every row is valid; the `None`
match arms of the source are the all-valid loops. -/
def validList (n : Nat) : Option (List Bool) → List Bool
  | none => List.replicate n true
  | some v => v

mutual

/-- Structural well-formedness: validity bitmaps have the row count of
their array, a list's child rows are exactly covered by the per-row
lengths (dense offsets), a fixed-size list's child has `len * width`
rows (the `debug_assert_eq!` of `get_encoder`), and each struct field
has the struct's row count. -/
def Arr.wfShape : Arr → Prop
  | .nullArr _ => True
  | .boolArr _ => True
  | .uintArr _ _ => True
  | .intArr _ _ => True
  | .floatArr _ _ => True
  | .strArr _ => True
  | .listArr _ lens validity child =>
      (∀ v ∈ validity, v.length = lens.length) ∧
        child.numRows = lens.sum ∧ child.wfShape
  | .fslArr len width validity child =>
      (∀ v ∈ validity, v.length = len) ∧
        child.numRows = len * width ∧ child.wfShape
  | .structArr len validity children =>
      (∀ v ∈ validity, v.length = len) ∧ wfShapeFields len children

def wfShapeFields (n : Nat) : List Arr → Prop
  | [] => True
  | c :: cs => c.numRows = n ∧ c.wfShape ∧ wfShapeFields n cs

end

/-- Whether row `i` of a column is null. -/
def Arr.isNullAt : Arr → Nat → Bool
  | .nullArr _, _ => true
  | .boolArr vs, i => (vs.getD i none).isNone
  | .uintArr _ vs, i => (vs.getD i none).isNone
  | .intArr _ vs, i => (vs.getD i none).isNone
  | .floatArr _ vs, i => (vs.getD i none).isNone
  | .strArr vs, i => (vs.getD i none).isNone
  | .listArr _ lens validity _, i => !(validList lens.length validity).getD i true
  | .fslArr len _ validity _, i => !(validList len validity).getD i true
  | .structArr len validity _, i => !(validList len validity).getD i true

/-! ## Pass 1: width computation

Mirrors `get_encoder` / `list_num_column_bytes`: each column
contributes per-row byte widths to the shared accumulator, and list
columns fold the widths of the masked-out elements of null rows into
the running masked-out maximum width. -/

/-- Sum of the `k` child widths starting at child index `off` (the
`offset..offset+length` summation loop of `list_num_column_bytes`). -/
def sliceSum (cw : List Nat) (off k : Nat) : Nat := ((cw.drop off).take k).sum

/-- Maximum of the `k` child widths starting at child index `off` (the
masked-out fold of `list_num_column_bytes` for a null row). -/
def sliceMax (cw : List Nat) (off k : Nat) : Nat :=
  ((cw.drop off).take k).foldl max 0

/-- Per-row widths of a list column: a valid row of length `len` costs
one continuation token per element plus its elements' widths plus one
terminating byte; a null row costs a single sentinel byte. -/
def listRowWidthsGo (cw : List Nat) : Nat → List (Nat × Bool) → List Nat
  | _, [] => []
  | off, (len, valid) :: rows =>
      (if valid then 1 + len + sliceSum cw off len else 1) ::
        listRowWidthsGo cw (off + len) rows

/-- The masked-out maximum accumulated over the (conceptually absent)
elements of the null rows of a list column. -/
def listMaskedGo (cw : List Nat) : Nat → Nat → List (Nat × Bool) → Nat
  | _, acc, [] => acc
  | off, acc, (len, valid) :: rows =>
      listMaskedGo cw (off + len)
        (if valid then acc else max acc (sliceMax cw off len)) rows

mutual

/-- The per-row byte widths one column adds to the accumulator
(`get_encoder`'s width contribution).  Fixed-size columns contribute a
constant width; for fixed-size lists and structs the fixed-size fast
path and the general path contribute the same per-row value, so a
single formula covers both. -/
def colWidths (o : ROpts) : Arr → List Nat
  | .nullArr n => List.replicate n 0
  | .boolArr vs => List.replicate vs.length 1
  | .uintArr w vs => List.replicate vs.length (1 + w)
  | .intArr w vs => List.replicate vs.length (1 + w)
  | .floatArr w vs => List.replicate vs.length (1 + w)
  | .strArr vs => vs.map (fun v => strLenFromLen o (v.map List.length))
  | .listArr _ lens validity child =>
      listRowWidthsGo (colWidths o.intoNested child) 0
        (lens.zip (validList lens.length validity))
  | .fslArr len width _ child =>
      (List.range len).map
        (fun i => 1 + sliceSum (colWidths o.intoNested child) (i * width) width)
  | .structArr len _ children => structWidths o (List.replicate len 1) children

/-- Struct fields add their widths on top of the struct's one validity
byte, sharing the row accumulator. -/
def structWidths (o : ROpts) (acc : List Nat) : List Arr → List Nat
  | [] => acc
  | c :: cs =>
      structWidths o (List.zipWith (· + ·) acc (colWidths o.intoNested c)) cs

end

mutual

/-- The largest masked-out width this column's subtree ever folds into
the shared masked-out maximum (list null rows with elements). -/
def colMasked (o : ROpts) : Arr → Nat
  | .listArr _ lens validity child =>
      max (colMasked o.intoNested child)
        (listMaskedGo (colWidths o.intoNested child) 0 0
          (lens.zip (validList lens.length validity)))
  | .fslArr _ _ _ child => colMasked o.intoNested child
  | .structArr _ _ children => fieldsMasked o children
  | _ => 0

def fieldsMasked (o : ROpts) : List Arr → Nat
  | [] => 0
  | c :: cs => max (colMasked o.intoNested c) (fieldsMasked o cs)

end

/-! ## Reference per-row bytes

`rowBytesArr` is the compositional description of the bytes each row of
a column ends up holding in the shared buffer; the materializer theorem
relates the imperative write log to it. -/

/-- The single validity byte of nested columns (`encode_validity`):
`1` when valid, the null sentinel otherwise. -/
def validityByte (o : ROpts) (v : Bool) : Nat := if v then 1 else o.nullSentinel

/-- Per-row bytes of a list column: a valid row interleaves one
continuation token before each element's encoding and appends one
termination token; a null row is a single sentinel byte. -/
def listRowPatGo (cont term sentinel : Nat) (cb : List (List Nat)) :
    Nat → List (Nat × Bool) → List (List Nat)
  | _, [] => []
  | off, (len, valid) :: rows =>
      (if valid then
        ((cb.drop off).take len).flatMap (fun b => cont :: b) ++ [term]
      else [sentinel]) :: listRowPatGo cont term sentinel cb (off + len) rows

mutual

def rowBytesArr (o : ROpts) : Arr → List (List Nat)
  | .nullArr n => List.replicate n []
  | .boolArr vs => vs.map (boolBytes o)
  | .uintArr w vs => vs.map (uintBytes o w)
  | .intArr w vs => vs.map (intBytes o w)
  | .floatArr w vs => vs.map (floatBytes o w)
  | .strArr vs => vs.map (strBytes o)
  | .listArr _ lens validity child =>
      listRowPatGo o.listContinuationToken o.listTerminationToken
        o.listNullSentinel (rowBytesArr o.intoNested child) 0
        (lens.zip (validList lens.length validity))
  | .fslArr len width validity child =>
      List.zipWith
        (fun i v => validityByte o v ::
          (((rowBytesArr o.intoNested child).drop (i * width)).take width).flatMap id)
        (List.range len) (validList len validity)
  | .structArr len validity children =>
      structRowBytes o
        ((validList len validity).map (fun v => [validityByte o v])) children

def structRowBytes (o : ROpts) (acc : List (List Nat)) : List Arr → List (List Nat)
  | [] => acc
  | c :: cs =>
      structRowBytes o (List.zipWith (· ++ ·) acc (rowBytesArr o.intoNested c)) cs

end

/-! ## Pass 2: the materializer

`encodeArr` mirrors `encode_array` / `encode_flat_array` /
`encode_validity`: writes are recorded as an explicit `(position,
byte)` log into the shared buffer, and the per-row cursor list is
advanced in place exactly as the `offsets` slice is in the source. -/

/-- The writes of a byte string laid out from position `s`. -/
def enumFrom (s : Nat) : List Nat → List (Nat × Nat)
  | [] => []
  | b :: bs => (s, b) :: enumFrom (s + 1) bs

/-- Flat-leaf materialization: row `i`'s bytes are written at
consecutive positions from its cursor, which advances by their count. -/
def writeRows : List Nat → List (List Nat) → List (Nat × Nat) × List Nat
  | s :: ofs, b :: rbs =>
      let r := writeRows ofs rbs
      (enumFrom s b ++ r.1, (s + b.length) :: r.2)
  | _, _ => ([], [])

/-- `encode_validity`: one byte per row, each cursor advances by one. -/
def validityWrites (o : ROpts) : List Nat → List Bool → List (Nat × Nat) × List Nat
  | s :: ofs, v :: vs =>
      let r := validityWrites o ofs vs
      ((s, validityByte o v) :: r.1, (s + 1) :: r.2)
  | _, _ => ([], [])

/-- One valid list row: a continuation token before each element, a
fresh child cursor after each token, and a termination token at the
end.  Returns (token writes, final cursor, per-element child cursors). -/
def listValidRow (cont term : Nat) : Nat → List Nat → List (Nat × Nat) × Nat × List Nat
  | s, [] => ([(s, term)], s + 1, [])
  | s, w :: ws =>
      let r := listValidRow cont term (s + 1 + w) ws
      ((s, cont) :: r.1, r.2.1, (s + 1) :: r.2.2)

/-- The token/sentinel writes of all rows of a list column, together
with the updated row cursors and the child cursors (masked-out element
cursors are redirected to `maskOfs`). -/
def listRowsGo (o : ROpts) (maskOfs : Nat) (cw : List Nat) :
    Nat → List Nat → List (Nat × Bool) → List (Nat × Nat) × List Nat × List Nat
  | _, _, [] => ([], [], [])
  | _, [], _ :: _ => ([], [], [])
  | off, s :: ofs, (len, valid) :: rows =>
      let rest := listRowsGo o maskOfs cw (off + len) ofs rows
      if valid then
        let r := listValidRow o.listContinuationToken o.listTerminationToken s
          ((cw.drop off).take len)
        (r.1 ++ rest.1, r.2.1 :: rest.2.1, r.2.2 ++ rest.2.2)
      else
        ((s, o.listNullSentinel) :: rest.1, (s + 1) :: rest.2.1,
          List.replicate len maskOfs ++ rest.2.2)

/-- The child cursors of one fixed-size-list row: `width` slots
starting right after the validity byte, each advanced by the child's
width. -/
def fslRowGo (s : Nat) : List Nat → List Nat
  | [] => []
  | w :: ws => s :: fslRowGo (s + w) ws

/-- The flattened child cursors of all fixed-size-list rows. -/
def fslOffsetsGo (cw : List Nat) (width : Nat) : Nat → List Nat → List Nat
  | _, [] => []
  | i, s :: ofs =>
      fslRowGo s ((cw.drop (i * width)).take width) ++
        fslOffsetsGo cw width (i + 1) ofs

/-- After the child materialized, each fixed-size-list row cursor is
restored to the advanced cursor of its last child slot
(`child_offsets[(i + 1) * width - 1]`). -/
def fslRestore (width : Nat) (childOfsFinal : List Nat) (n : Nat) : List Nat :=
  (List.range n).map (fun i => childOfsFinal.getD ((i + 1) * width - 1) 0)

mutual

/-- The materializer.  Returns the write log and the advanced cursors,
or `none` for the panic of `encode_array`'s list branch, which
downcasts the stored array to `ListArray<i64>` and `unwrap`s — a
32-bit-offset list panics there. -/
def encodeArr (o : ROpts) (maskOfs : Nat) :
    Arr → List Nat → Option (List (Nat × Nat) × List Nat)
  | .nullArr _, ofs => some ([], ofs)
  | .boolArr vs, ofs => some (writeRows ofs (vs.map (boolBytes o)))
  | .uintArr w vs, ofs => some (writeRows ofs (vs.map (uintBytes o w)))
  | .intArr w vs, ofs => some (writeRows ofs (vs.map (intBytes o w)))
  | .floatArr w vs, ofs => some (writeRows ofs (vs.map (floatBytes o w)))
  | .strArr vs, ofs => some (writeRows ofs (vs.map (strBytes o)))
  | .listArr is64 lens validity child, ofs =>
      if is64 then
        let r := listRowsGo o maskOfs (colWidths o.intoNested child) 0 ofs
          (lens.zip (validList lens.length validity))
        match encodeArr o.intoNested maskOfs child r.2.2 with
        | none => none
        | some (clog, _) => some (r.1 ++ clog, r.2.1)
      else none
  | .fslArr len width validity child, ofs =>
      let r := validityWrites o ofs (validList len validity)
      if width = 0 then some r
      else
        match encodeArr o.intoNested maskOfs child
          (fslOffsetsGo (colWidths o.intoNested child) width 0 r.2) with
        | none => none
        | some (clog, childOfs) =>
            some (r.1 ++ clog, fslRestore width childOfs len)
  | .structArr len validity children, ofs =>
      let r := validityWrites o ofs (validList len validity)
      match encodeFields o maskOfs children r.2 with
      | none => none
      | some (clog, ofs2) => some (r.1 ++ clog, ofs2)

/-- Struct fields materialize sequentially over the same shared
cursors. -/
def encodeFields (o : ROpts) (maskOfs : Nat) :
    List Arr → List Nat → Option (List (Nat × Nat) × List Nat)
  | [], ofs => some ([], ofs)
  | c :: cs, ofs =>
      match encodeArr o.intoNested maskOfs c ofs with
      | none => none
      | some (lg, ofs1) =>
          match encodeFields o maskOfs cs ofs1 with
          | none => none
          | some (lgs, ofs2) => some (lg ++ lgs, ofs2)

end

/-! ## Output assembly (`convert_columns_amortized`) -/

/-- Accumulated per-row widths of all columns (`RowWidths::push`). -/
def sumWidths (n : Nat) : List (Arr × ROpts) → List Nat
  | [] => List.replicate n 0
  | (c, o) :: cols => List.zipWith (· + ·) (colWidths o c) (sumWidths n cols)

/-- The masked-out maximum across the whole call. -/
def maskMaxCols : List (Arr × ROpts) → Nat
  | [] => 0
  | (c, o) :: cols => max (colMasked o c) (maskMaxCols cols)

/-- Exclusive prefix sums: the initial row cursors
(`extend_with_offsets`). -/
def starts (s : Nat) : List Nat → List Nat
  | [] => []
  | w :: ws => s :: starts (s + w) ws

/-- All columns materialize in order over the shared cursors. -/
def encodeColumns (maskOfs : Nat) :
    List (Arr × ROpts) → List Nat → Option (List (Nat × Nat) × List Nat)
  | [], ofs => some ([], ofs)
  | (c, o) :: cols, ofs =>
      match encodeArr o maskOfs c ofs with
      | none => none
      | some (lg, ofs1) =>
          match encodeColumns maskOfs cols ofs1 with
          | none => none
          | some (lgs, ofs2) => some (lg ++ lgs, ofs2)

/-- Replay the write log onto a buffer. -/
def applyWrites (buf : List Nat) (log : List (Nat × Nat)) : List Nat :=
  log.foldl (fun b e => b.set e.1 e.2) buf

/-- The `RowsEncoded` output, with the write log and sizes kept for the
statements about the materialization pass. -/
structure ConvResult where
  values : List Nat
  offsets : List Nat
  log : List (Nat × Nat)
  total : Nat
  maskMax : Nat
deriving DecidableEq

/-- `convert_columns_amortized`: compute all widths and the masked-out
maximum, allocate `total + maskMax` bytes (modelled as a zero-filled
buffer standing for uninitialized memory), place the masked-out scratch
offset at `total`, materialize every column, and truncate the buffer to
`total` (`out.set_len(total_num_bytes)`).  The offsets vector starts
with an extra `0` and doubles as the cursor array, so after
materialization it is the final row-boundary sequence. -/
def convertColumns (n : Nat) (cols : List (Arr × ROpts)) : Option ConvResult :=
  let widths := sumWidths n cols
  let mm := maskMaxCols cols
  let total := widths.sum
  match encodeColumns total cols (starts 0 widths) with
  | none => none
  | some (log, ofsFinal) =>
      some { values := (applyWrites (List.replicate (total + mm) 0) log).take total
             offsets := 0 :: ofsFinal
             log := log
             total := total
             maskMax := mm }

/-- The writes of per-row byte strings laid out from the given
cursors. -/
def segs : List Nat → List (List Nat) → List (Nat × Nat)
  | s :: ofs, b :: rbs => enumFrom s b ++ segs ofs rbs
  | _, _ => []

/-- The materializer contract: it succeeds, advances every cursor by
exactly its row's byte count, and its write log is — up to order — the
per-row segments plus masked-out writes confined to the scratch
region. -/
def EncSpec (maskOfs maskBound : Nat) (ofs : List Nat) (rb : List (List Nat))
    (res : Option (List (Nat × Nat) × List Nat)) : Prop :=
  ∃ log newOfs m, res = some (log, newOfs) ∧
    newOfs = List.zipWith (fun s b => s + b.length) ofs rb ∧
    log.Perm (segs ofs rb ++ m) ∧
    ∀ e ∈ m, maskOfs ≤ e.1 ∧ e.1 < maskOfs + maskBound

/-- Number of logged writes landing in `[lo, hi)`. -/
def posCount (log : List (Nat × Nat)) (lo hi : Nat) : Nat :=
  (log.filter (fun e => lo ≤ e.1 && e.1 < hi)).length


/-! ## Data types and the encoder-plan dispatch (`fixed_size`,
`get_encoder`, `encode_flat_array`)

`Dtype` mirrors the `ArrowDataType` constructors `encode.rs`
dispatches on; `RowCtx` mirrors `RowEncodingContext` (the categorical /
decimal / struct side-channel context). -/

inductive Dtype
  | dNull | dBool
  | dUInt8 | dUInt16 | dUInt32 | dUInt64
  | dInt8 | dInt16 | dInt32 | dInt64 | dInt128
  | dFloat32 | dFloat64
  | dUtf8 | dLargeUtf8 | dUtf8View
  | dBinary | dLargeBinary | dBinaryView
  | dList (inner : Dtype) | dLargeList (inner : Dtype)
  | dFixedSizeList (inner : Dtype) (width : Nat)
  | dStruct (fields : List Dtype)
  | dFixedSizeBinary (w : Nat)
  | dTimestamp | dDate32 | dDate64 | dTime32 | dTime64
  | dDuration | dInterval
  | dDictionary | dDecimal | dDecimal32 | dDecimal64 | dDecimal256
  | dUnion | dMap | dExtension | dUnknown

inductive RowCtx
  | catCtx (isEnum : Bool)
  | decimalCtx (precision : Nat)
  | structCtx (fields : List (Option RowCtx))

/-- `FixedLengthEncoding::ENCODED_LEN` of a `w`-byte fixed-width
value.  Modelled from the spec: the "type-specific constant" is one
validity byte plus the value's data bytes. -/
def encLen (w : Nat) : Nat := 1 + w

/-- `decimal::len_from_precision`.  Modelled from the spec: a constant
per-row width determined by the decimal precision; only its constancy
matters to the statements below. -/
def decLenFromPrecision (p : Nat) : Nat := 1 + p

/-- The up-front categorical check of `fixed_size`: an ordered,
non-enum categorical column is not fixed-size. -/
def catGuard (o : ROpts) (dict : Option RowCtx) : Bool :=
  match dict with
  | some (.catCtx isEnum) => !isEnum && o.isOrdered
  | _ => false

mutual

/-- `fixed_size` (encode.rs:927-983): the constant per-row width of a
type, or `none` when the type takes the variable-length path.  An
ordered, non-enum categorical column is rejected up front; the arms
the source marks `unreachable!()` (`Int128`/`Struct` under an
impossible context) are rendered as `none` here and are outside every
statement below. -/
def fixedSize (dtype : Dtype) (o : ROpts) (dict : Option RowCtx) : Option Nat :=
  if catGuard o dict then none
  else match dtype with
    | .dNull => some 0
    | .dBool => some 1
    | .dUInt8 => some (encLen 1)
    | .dUInt16 => some (encLen 2)
    | .dUInt32 => some (encLen 4)
    | .dUInt64 => some (encLen 8)
    | .dInt8 => some (encLen 1)
    | .dInt16 => some (encLen 2)
    | .dInt32 => some (encLen 4)
    | .dInt64 => some (encLen 8)
    | .dInt128 =>
        match dict with
        | none => some (encLen 16)
        | some (.decimalCtx p) => some (decLenFromPrecision p)
        | _ => none
    | .dFloat32 => some (encLen 4)
    | .dFloat64 => some (encLen 8)
    | .dFixedSizeList inner width =>
        match fixedSize inner o dict with
        | some s => some (1 + width * s)
        | none => none
    | .dStruct fields =>
        match dict with
        | none =>
            match fixedSizeFieldsNone fields o with
            | some sum => some (1 + sum)
            | none => none
        | some (.structCtx dicts) =>
            match fixedSizeFields fields dicts o with
            | some sum => some (1 + sum)
            | none => none
        | _ => none
    | _ => none

/-- Struct field sum with no context: every field queried with no
context. -/
def fixedSizeFieldsNone : List Dtype → ROpts → Option Nat
  | [], _ => some 0
  | f :: fs, o =>
      match fixedSize f o none, fixedSizeFieldsNone fs o with
      | some s, some rest => some (s + rest)
      | _, _ => none

/-- Struct field sum zipped with per-field contexts (the
`fs.iter().zip(dicts)` loop; the zip truncates at the shorter list). -/
def fixedSizeFields : List Dtype → List (Option RowCtx) → ROpts → Option Nat
  | [], _, _ => some 0
  | _ :: _, [], _ => some 0
  | f :: fs, d :: ds, o =>
      match fixedSize f o d, fixedSizeFields fs ds o with
      | some s, some rest => some (s + rest)
      | _, _ => none

end

/-- The outcome of building an encoder for a column of a given type:
it either builds, or panics (`unreachable!()` / `todo!()` / failed
`unwrap`).  `errValue` stands for a recoverable error result; the
dispatch never produces one (its Rust signature has no error type). -/
inductive BuildOutcome
  | built
  | panicked
  | errValue
deriving DecidableEq

mutual

/-- `get_encoder` (encode.rs:251-541) as its build outcome.  The
fixed-size fast path recurses into fixed-size-list and struct children
(which, being fixed-size themselves, always build); the categorical
path intercepts `UInt8/16/32` keys (the `assert!` there holds whenever
this branch is reached with a `none` fixed size); every remaining
dtype follows the main match, whose unsupported arms panic. -/
def getEncoderOutcome (dtype : Dtype) (o : ROpts) (dict : Option RowCtx) :
    BuildOutcome :=
  if (fixedSize dtype o dict).isSome then fixedPathOutcome dtype o dict
  else if (match dict with | some (.catCtx _) => true | _ => false) &&
      (match dtype with
        | .dUInt8 => true | .dUInt16 => true | .dUInt32 => true
        | _ => false)
  then .built
  else mainOutcome dtype o dict
termination_by (sizeOf dtype, 3)

/-- The nested-children recursion of the fixed-size fast path
(encode.rs:264-318). -/
def fixedPathOutcome (dtype : Dtype) (o : ROpts) (dict : Option RowCtx) :
    BuildOutcome :=
  match dtype with
  | .dFixedSizeList inner _ => getEncoderOutcome inner o.intoNested dict
  | .dStruct fields =>
      match dict with
      | none => fieldsOutcome fields o.intoNested
      | some (.structCtx dicts) => fieldsOutcomeDicts fields dicts o
      | _ => .panicked
  | _ => .built
termination_by (sizeOf dtype, 2)

/-- The main `match dtype` of `get_encoder` (encode.rs:385-540):
nested types recurse with nested options, variable-length leaves
build, and every other dtype is `unreachable!()`. -/
def mainOutcome (dtype : Dtype) (o : ROpts) (dict : Option RowCtx) :
    BuildOutcome :=
  match dtype with
  | .dFixedSizeList inner _ => getEncoderOutcome inner o.intoNested dict
  | .dStruct fields =>
      match dict with
      | none => fieldsOutcome fields o.intoNested
      | some (.structCtx dicts) => fieldsOutcomeDicts fields dicts o.intoNested
      | _ => .panicked
  | .dList inner => getEncoderOutcome inner o.intoNested dict
  | .dLargeList inner => getEncoderOutcome inner o.intoNested dict
  | .dBinaryView => .built
  | .dBinary => .built
  | .dLargeBinary => .built
  | .dUtf8View => .built
  | .dUtf8 => .built
  | .dLargeUtf8 => .built
  | _ => .panicked
termination_by (sizeOf dtype, 2)

/-- Struct children built in order with no context. -/
def fieldsOutcome : List Dtype → ROpts → BuildOutcome
  | [], _ => .built
  | f :: fs, o =>
      match getEncoderOutcome f o none with
      | .built => fieldsOutcome fs o
      | r => r
termination_by fs _ => (sizeOf fs, 3)

/-- Struct children built in order zipped with per-field contexts. -/
def fieldsOutcomeDicts : List Dtype → List (Option RowCtx) → ROpts → BuildOutcome
  | [], _, _ => .built
  | _ :: _, [], _ => .built
  | f :: fs, d :: ds, o =>
      match getEncoderOutcome f o d with
      | .built => fieldsOutcomeDicts fs ds o
      | r => r
termination_by fs _ _ => (sizeOf fs, 3)

end


/-! ## Offset-width and top-level well-formedness side conditions -/

mutual

/-- Every list node of the column stores 64-bit offsets.  The list
branch of `encode_array` downcasts the stored array to
`ListArray<i64>` and `unwrap`s, so only such columns materialize. -/
def Arr.all64 : Arr → Bool
  | .listArr is64 _ _ child => is64 && Arr.all64 child
  | .fslArr _ _ _ child => Arr.all64 child
  | .structArr _ _ children => fieldsAll64 children
  | _ => true

def fieldsAll64 : List Arr → Bool
  | [] => true
  | c :: cs => Arr.all64 c && fieldsAll64 cs

end

/-- Well-formedness of a full column set: every column has `n` rows, a
well-formed shape and 64-bit list offsets. -/
def colsWf (n : Nat) : List (Arr × ROpts) → Prop
  | [] => True
  | (c, _) :: cols => c.numRows = n ∧ c.wfShape ∧ c.all64 = true ∧ colsWf n cols

/-- The reference per-row bytes of the whole column set: each row is
the concatenation of its per-column bytes, in column order. -/
def colsRowBytes (n : Nat) : List (Arr × ROpts) → List (List Nat)
  | [] => List.replicate n []
  | (c, o) :: cols =>
      List.zipWith (· ++ ·) (rowBytesArr o c) (colsRowBytes n cols)


/-! ## Theorems -/
theorem cmpNat_eq_iff {a b : Nat} : cmpNat a b = .eq ↔ a = b := by
  unfold cmpNat
  split <;> [skip; split] <;> simp <;> omega

theorem cmpNat_lt_iff {a b : Nat} : cmpNat a b = .lt ↔ a < b := by
  unfold cmpNat
  split <;> [skip; split] <;> simp <;> omega

theorem cmpNat_gt_iff {a b : Nat} : cmpNat a b = .gt ↔ b < a := by
  unfold cmpNat
  split <;> [skip; split] <;> simp <;> omega

theorem cmpNat_self (a : Nat) : cmpNat a a = .eq := by
  simp [cmpNat_eq_iff]

theorem cmpNat_swap (a b : Nat) : cmpNat b a = (cmpNat a b).swap := by
  unfold cmpNat
  split
  · have : ¬ a < b := by omega
    simp [this, Ordering.swap]
  · split
    · simp [Ordering.swap]
    · have h1 : ¬ a < b := by omega
      have h2 : ¬ b < a := by omega
      simp [h1, h2, Ordering.swap]

theorem lexCmp_swap (x y : List Nat) : lexCmp y x = (lexCmp x y).swap := by
  induction x generalizing y with
  | nil => cases y <;> rfl
  | cons a as ih =>
    cases y with
    | nil => rfl
    | cons b bs =>
      simp only [lexCmp]
      rw [cmpNat_swap, ih bs]
      rcases cmpNat a b with _ | _ | _ <;> simp [Ordering.then, Ordering.swap]

theorem lexCmp_eq_iff {x y : List Nat} : lexCmp x y = .eq ↔ x = y := by
  induction x generalizing y with
  | nil => cases y <;> simp [lexCmp]
  | cons a as ih =>
    cases y with
    | nil => simp [lexCmp]
    | cons b bs =>
      simp only [lexCmp]
      rcases h : cmpNat a b with _ | _ | _
      · have := cmpNat_lt_iff.mp h
        simp [Ordering.then]
        intro hab; omega
      · have := cmpNat_eq_iff.mp h
        simp [Ordering.then, ih, this]
      · have := cmpNat_gt_iff.mp h
        simp [Ordering.then]
        intro hab; omega

theorem lexCmp_cons_same (a : Nat) (x y : List Nat) :
    lexCmp (a :: x) (a :: y) = lexCmp x y := by
  simp [lexCmp, cmpNat_self, Ordering.then]

theorem lexLt_iff_gt_swap {x y : List Nat} : lexLt x y ↔ lexCmp y x = .gt := by
  rw [lexCmp_swap]
  unfold lexLt
  rcases lexCmp x y with _ | _ | _ <;> simp [Ordering.swap]

theorem lexCmp_append_of_length_eq {p q : List Nat} (h : p.length = q.length)
    (u v : List Nat) :
    lexCmp (p ++ u) (q ++ v) = (lexCmp p q).then (lexCmp u v) := by
  induction p generalizing q with
  | nil =>
    cases q with
    | nil => simp [lexCmp, Ordering.then]
    | cons b bs => simp at h
  | cons a as ih =>
    cases q with
    | nil => simp at h
    | cons b bs =>
      simp only [List.length_cons, Nat.succ_inj] at h
      simp only [List.cons_append, lexCmp]
      rcases cmpNat a b with _ | _ | _ <;> simp [Ordering.then, ih h]

theorem lexCmp_take_drop (k : Nat) (s t : List Nat) :
    lexCmp s t = (lexCmp (s.take k) (t.take k)).then (lexCmp (s.drop k) (t.drop k)) := by
  induction k generalizing s t with
  | zero => simp [lexCmp, Ordering.then]
  | succ k ih =>
    cases s with
    | nil =>
      cases t with
      | nil => simp [lexCmp, Ordering.then]
      | cons b bs => simp [lexCmp, Ordering.then]
    | cons a as =>
      cases t with
      | nil => simp [lexCmp, Ordering.then]
      | cons b bs =>
        simp only [List.take_succ_cons, List.drop_succ_cons, lexCmp, ih as bs]
        rcases cmpNat a b with _ | _ | _ <;> simp [Ordering.then]

theorem cmpNat_flip {a b : Nat} (ha : a ≤ 255) (hb : b ≤ 255) :
    cmpNat (flipByte a) (flipByte b) = (cmpNat a b).swap := by
  unfold cmpNat flipByte
  split
  · have h1 : ¬ a < b := by omega
    have h2 : b < a := by omega
    simp [h1, h2, Ordering.swap]
  · split
    · have h2 : a < b := by omega
      simp [h2, Ordering.swap]
    · have h1 : ¬ a < b := by omega
      have h2 : ¬ b < a := by omega
      simp [h1, h2, Ordering.swap]

theorem lexCmp_mapFlip {x y : List Nat} (hx : ∀ a ∈ x, a ≤ 255)
    (hy : ∀ a ∈ y, a ≤ 255) (hxy : ¬ strictPre x y) (hyx : ¬ strictPre y x) :
    lexCmp (mapFlip x) (mapFlip y) = (lexCmp x y).swap := by
  induction x generalizing y with
  | nil =>
    cases y with
    | nil => rfl
    | cons b bs => exact absurd trivial hxy
  | cons a as ih =>
    cases y with
    | nil => exact absurd trivial hyx
    | cons b bs =>
      simp only [mapFlip, List.map_cons, lexCmp]
      rw [cmpNat_flip (hx a (by simp)) (hy b (by simp))]
      rcases hc : cmpNat a b with _ | _ | _
      · simp [Ordering.then, Ordering.swap]
      · have hab : a = b := cmpNat_eq_iff.mp hc
        have := ih (fun v hv => hx v (by simp [hv]))
          (fun v hv => hy v (by simp [hv]))
          (fun hp => hxy ⟨hab, hp⟩) (fun hp => hyx ⟨hab.symm, hp⟩)
        simpa [Ordering.then, mapFlip] using this
      · simp [Ordering.then, Ordering.swap]

theorem flipByte_le (b : Nat) : flipByte b ≤ 255 := by
  unfold flipByte; omega

theorem encChunks_length (s : List Nat) :
    (encChunks s).length = 33 * numBlocks s.length := by
  rw [encChunks, numBlocks]
  split
  · simp; omega
  · rename_i h
    have ih := encChunks_length (s.drop 32)
    simp [ih]
    rw [Nat.min_eq_left (by omega)]
    omega
termination_by s.length
decreasing_by simp; omega

theorem ordThen_assoc (x y z : Ordering) :
    (x.then y).then z = x.then (y.then z) := by
  rcases x with _ | _ | _ <;> rfl

theorem lexCmp_zeroPad_lt {u : List Nat} {m m' : Nat} (h : m < m') :
    lexCmp (List.replicate u.length 0 ++ [m]) (u ++ [m']) = .lt := by
  induction u with
  | nil =>
    simp only [List.length_nil, List.replicate_zero, List.nil_append, lexCmp]
    simp [cmpNat_lt_iff.mpr h, Ordering.then]
  | cons b u' ih =>
    simp only [List.length_cons, List.replicate_succ, List.cons_append, lexCmp]
    rcases hb : cmpNat 0 b with _ | _ | _
    · simp [Ordering.then]
    · simp [Ordering.then, ih]
    · exact absurd (cmpNat_gt_iff.mp hb) (by omega)

theorem lexCmp_zeroPad_gt {u : List Nat} {m m' : Nat} (h : m < m') :
    lexCmp (u ++ [m']) (List.replicate u.length 0 ++ [m]) = .gt := by
  rw [lexCmp_swap, lexCmp_zeroPad_lt h]; rfl

theorem lexCmp_block (B : Nat) : ∀ (n : Nat) (s t : List Nat),
    s.length ≤ B → t.length ≤ B →
    lexCmp (s ++ List.replicate (B - s.length) 0 ++ [n + s.length])
      (t ++ List.replicate (B - t.length) 0 ++ [n + t.length]) = lexCmp s t := by
  induction B with
  | zero =>
    intro n s t hs ht
    have hs0 : s = [] := List.eq_nil_of_length_eq_zero (by omega)
    have ht0 : t = [] := List.eq_nil_of_length_eq_zero (by omega)
    subst hs0; subst ht0
    exact lexCmp_eq_iff.mpr rfl
  | succ B ih =>
    intro n s t hs ht
    cases s with
    | nil =>
      cases t with
      | nil => exact lexCmp_eq_iff.mpr rfl
      | cons b t' =>
        show lexCmp (List.replicate (B + 1) 0 ++ [n + 0])
          ((b :: t') ++ List.replicate (B + 1 - (t'.length + 1)) 0
            ++ [n + (t'.length + 1)]) = _
        have e1 : B + 1 - (t'.length + 1) = B - t'.length := by omega
        have e2 : n + (t'.length + 1) = n + 1 + t'.length := by omega
        rw [e1, e2]
        simp only [List.replicate_succ, List.cons_append, lexCmp]
        rcases hb : cmpNat 0 b with _ | _ | _
        · simp [Ordering.then, lexCmp]
        · -- b = 0: the left side is all zeros followed by a smaller
          -- final byte.
          have ht' : t'.length ≤ B := by
            simp only [List.length_cons] at ht; omega
          have hz := @lexCmp_zeroPad_lt
            (t' ++ List.replicate (B - t'.length) 0) (n + 0)
            (n + 1 + t'.length) (by omega)
          have hlen : (t' ++ List.replicate (B - t'.length) 0).length = B := by
            simp only [List.length_append, List.length_replicate]
            omega
          rw [hlen] at hz
          exact hz
        · exact absurd (cmpNat_gt_iff.mp hb) (by omega)
    | cons a s' =>
      cases t with
      | nil =>
        show lexCmp ((a :: s') ++ List.replicate (B + 1 - (s'.length + 1)) 0
            ++ [n + (s'.length + 1)])
          (List.replicate (B + 1) 0 ++ [n + 0]) = _
        have e1 : B + 1 - (s'.length + 1) = B - s'.length := by omega
        have e2 : n + (s'.length + 1) = n + 1 + s'.length := by omega
        rw [e1, e2]
        simp only [List.replicate_succ, List.cons_append, lexCmp]
        rcases hb : cmpNat a 0 with _ | _ | _
        · exact absurd (cmpNat_lt_iff.mp hb) (by omega)
        · have hs' : s'.length ≤ B := by
            simp only [List.length_cons] at hs; omega
          have hz := @lexCmp_zeroPad_gt
            (s' ++ List.replicate (B - s'.length) 0) (n + 0)
            (n + 1 + s'.length) (by omega)
          have hlen : (s' ++ List.replicate (B - s'.length) 0).length = B := by
            simp only [List.length_append, List.length_replicate]
            omega
          rw [hlen] at hz
          exact hz
        · simp [Ordering.then, lexCmp]
      | cons b t' =>
        show lexCmp ((a :: s') ++ List.replicate (B + 1 - (s'.length + 1)) 0
            ++ [n + (s'.length + 1)])
          ((b :: t') ++ List.replicate (B + 1 - (t'.length + 1)) 0
            ++ [n + (t'.length + 1)]) = _
        have e1 : B + 1 - (s'.length + 1) = B - s'.length := by omega
        have e2 : n + (s'.length + 1) = n + 1 + s'.length := by omega
        have e3 : B + 1 - (t'.length + 1) = B - t'.length := by omega
        have e4 : n + (t'.length + 1) = n + 1 + t'.length := by omega
        rw [e1, e2, e3, e4]
        simp only [List.cons_append, lexCmp]
        exact congrArg (cmpNat a b).then
          (ih (n + 1) s' t' (by simpa using hs) (by simpa using ht))

theorem lexCmp_replicate_zero_ne_gt (u : List Nat) :
    lexCmp (List.replicate u.length 0) u ≠ .gt := by
  induction u with
  | nil => simp [lexCmp]
  | cons b u' ih =>
    simp only [List.length_cons, List.replicate_succ, lexCmp]
    rcases hb : cmpNat 0 b with _ | _ | _
    · simp [Ordering.then]
    · simpa [Ordering.then] using ih
    · exact absurd (cmpNat_gt_iff.mp hb) (by omega)

theorem lexCmp_pad_take (B : Nat) : ∀ (s t : List Nat), s.length ≤ B → B < t.length →
    lexCmp s t = (lexCmp (s ++ List.replicate (B - s.length) 0) (t.take B)).then .lt := by
  induction B with
  | zero =>
    intro s t hs ht
    have hs0 : s = [] := List.eq_nil_of_length_eq_zero (by omega)
    subst hs0
    cases t with
    | nil => simp at ht
    | cons b t' => rfl
  | succ B ih =>
    intro s t hs ht
    cases t with
    | nil => simp at ht
    | cons b t' =>
      have ht' : B < t'.length := by
        simp only [List.length_cons] at ht; omega
      cases s with
      | nil =>
        show lexCmp [] (b :: t') = _
        have htake : (List.take B t').length = B := by
          rw [List.length_take]; omega
        simp only [List.nil_append, Nat.sub_zero, List.replicate_succ,
          List.take_succ_cons, lexCmp]
        rcases hb : cmpNat 0 b with _ | _ | _
        · simp [Ordering.then]
        · have h0 := lexCmp_replicate_zero_ne_gt (List.take B t')
          rw [htake] at h0
          rcases hv : lexCmp (List.replicate B 0) (List.take B t') with _ | _ | _ <;>
            simp [Ordering.then, hv] at h0 ⊢
        · exact absurd (cmpNat_gt_iff.mp hb) (by omega)
      | cons a s' =>
        have hs' : s'.length ≤ B := by
          simp only [List.length_cons] at hs; omega
        show (cmpNat a b).then (lexCmp s' t') = _
        have e1 : (a :: s').length = s'.length + 1 := rfl
        rw [e1]
        have e2 : B + 1 - (s'.length + 1) = B - s'.length := by omega
        rw [e2]
        simp only [List.cons_append, List.take_succ_cons, lexCmp, ordThen_assoc]
        exact congrArg (cmpNat a b).then (ih s' t' hs' ht')

theorem encChunks_cmp_aux {s t : List Nat} (hs : s.length ≤ 32) (ht : 32 < t.length) :
    lexCmp (encChunks s) (encChunks t) = lexCmp s t := by
  unfold encChunks
  rw [if_pos hs, if_neg (show ¬ t.length ≤ 32 by omega)]
  have hp : (s ++ List.replicate (32 - s.length) 0).length = (t.take 32).length := by
    simp only [List.length_append, List.length_replicate, List.length_take]
    omega
  rw [lexCmp_append_of_length_eq hp [s.length] (255 :: encChunks (t.drop 32))]
  have h5 : cmpNat s.length 255 = .lt := cmpNat_lt_iff.mpr (by omega)
  have h6 : lexCmp [s.length] (255 :: encChunks (t.drop 32)) = .lt := by
    simp [lexCmp, h5, Ordering.then]
  rw [h6]
  exact (lexCmp_pad_take 32 s t hs ht).symm

theorem ordSwap_swap (o : Ordering) : o.swap.swap = o := by
  rcases o with _ | _ | _ <;> rfl

theorem encChunks_cmp (s t : List Nat) :
    lexCmp (encChunks s) (encChunks t) = lexCmp s t := by
  by_cases hs : s.length ≤ 32
  · by_cases ht : t.length ≤ 32
    · have h := lexCmp_block 32 0 s t hs ht
      unfold encChunks
      rw [if_pos hs, if_pos ht]
      simpa using h
    · exact encChunks_cmp_aux hs (by omega)
  · by_cases ht : t.length ≤ 32
    · calc lexCmp (encChunks s) (encChunks t)
          = (lexCmp (encChunks t) (encChunks s)).swap := by rw [lexCmp_swap]
        _ = (lexCmp t s).swap := by rw [encChunks_cmp_aux ht (by omega)]
        _ = (lexCmp s t).swap.swap := by rw [lexCmp_swap]
        _ = lexCmp s t := ordSwap_swap _
    · have hrec := encChunks_cmp (s.drop 32) (t.drop 32)
      unfold encChunks
      rw [if_neg hs, if_neg ht]
      have hp : (s.take 32).length = (t.take 32).length := by
        simp only [List.length_take]
        omega
      rw [lexCmp_append_of_length_eq hp (255 :: encChunks (s.drop 32))
        (255 :: encChunks (t.drop 32))]
      rw [lexCmp_cons_same, hrec]
      exact (lexCmp_take_drop 32 s t).symm
termination_by s.length
decreasing_by simp; omega

theorem strictPre_length {x y : List Nat} (h : strictPre x y) :
    x.length < y.length := by
  induction x generalizing y with
  | nil =>
    cases y with
    | nil => exact absurd h (by simp [strictPre])
    | cons b bs => simp
  | cons a as ih =>
    cases y with
    | nil => exact absurd h (by simp [strictPre])
    | cons b bs =>
      have := ih h.2
      simp only [List.length_cons]
      omega

theorem strictPre_append_split {p q u v : List Nat} (hl : p.length = q.length)
    (h : strictPre (p ++ u) (q ++ v)) : p = q ∧ strictPre u v := by
  induction p generalizing q with
  | nil =>
    cases q with
    | nil => exact ⟨rfl, h⟩
    | cons b bs => simp at hl
  | cons a as ih =>
    cases q with
    | nil => simp at hl
    | cons b bs =>
      simp only [List.length_cons, Nat.succ_inj] at hl
      obtain ⟨hab, hrest⟩ := h
      obtain ⟨he, hp⟩ := ih hl hrest
      exact ⟨by rw [hab, he], hp⟩

theorem numBlocks_pos (l : Nat) : 1 ≤ numBlocks l := by
  unfold numBlocks
  split <;> omega

theorem encChunks_not_strictPre (s t : List Nat) :
    ¬ strictPre (encChunks s) (encChunks t) := by
  intro h
  by_cases hs : s.length ≤ 32
  · by_cases ht : t.length ≤ 32
    · have hlen := strictPre_length h
      rw [encChunks_length, encChunks_length] at hlen
      have h1 : numBlocks s.length = 1 := by
        unfold numBlocks; rw [if_pos hs]
      have h2 : numBlocks t.length = 1 := by
        unfold numBlocks; rw [if_pos ht]
      rw [h1, h2] at hlen
      omega
    · unfold encChunks at h
      rw [if_pos hs, if_neg ht] at h
      have hl : (s ++ List.replicate (32 - s.length) 0).length = (t.take 32).length := by
        simp only [List.length_append, List.length_replicate, List.length_take]
        omega
      obtain ⟨-, h2⟩ := strictPre_append_split hl h
      obtain ⟨h3, -⟩ := h2
      omega
  · have hst := strictPre_length h
    rw [encChunks_length, encChunks_length] at hst
    by_cases ht : t.length ≤ 32
    · have h2 : numBlocks t.length = 1 := by
        unfold numBlocks; rw [if_pos ht]
      have h1 := numBlocks_pos s.length
      rw [h2] at hst
      omega
    · unfold encChunks at h
      rw [if_neg hs, if_neg ht] at h
      have hl : (s.take 32).length = (t.take 32).length := by
        simp only [List.length_take]; omega
      obtain ⟨-, h2⟩ := strictPre_append_split hl h
      exact encChunks_not_strictPre (s.drop 32) (t.drop 32) h2.2
termination_by s.length
decreasing_by simp; omega

theorem encChunks_bytes_le {s : List Nat} (hb : ∀ b ∈ s, b ≤ 255) :
    ∀ b ∈ encChunks s, b ≤ 255 := by
  intro b hmem
  unfold encChunks at hmem
  split at hmem
  · simp only [List.append_assoc, List.mem_append, List.mem_replicate,
      List.mem_singleton] at hmem
    rcases hmem with h | h | h
    · exact hb b h
    · omega
    · omega
  · simp only [List.mem_append, List.mem_cons] at hmem
    rcases hmem with h | h | h
    · exact hb b (List.mem_of_mem_take h)
    · omega
    · exact encChunks_bytes_le (fun v hv => hb v (List.mem_of_mem_drop hv)) b h
termination_by s.length
decreasing_by simp; omega

theorem encChunks_cmp_flip {s t : List Nat} (hs : ∀ b ∈ s, b ≤ 255)
    (ht : ∀ b ∈ t, b ≤ 255) :
    lexCmp (mapFlip (encChunks s)) (mapFlip (encChunks t)) = (lexCmp s t).swap := by
  rw [lexCmp_mapFlip (encChunks_bytes_le hs) (encChunks_bytes_le ht)
    (encChunks_not_strictPre s t) (encChunks_not_strictPre t s)]
  rw [encChunks_cmp]

theorem beBytes_length (w v : Nat) : (beBytes w v).length = w := by
  induction w generalizing v with
  | zero => rfl
  | succ w ih => simp [beBytes, ih]

theorem beBytes_le {w v : Nat} (h : v < 256 ^ w) :
    ∀ b ∈ beBytes w v, b ≤ 255 := by
  induction w generalizing v with
  | zero => simp [beBytes]
  | succ w ih =>
    intro b hb
    simp only [beBytes, List.mem_cons] at hb
    rcases hb with hb | hb
    · subst hb
      have h2 : v < 256 ^ w * 256 := by rw [← pow_succ]; exact h
      have := Nat.div_lt_of_lt_mul h2
      omega
    · exact ih (Nat.mod_lt _ (Nat.pos_pow_of_pos w (by omega))) b hb

theorem div_mod_order {M a b : Nat} (hM : 0 < M) :
    a < b ↔ (a / M < b / M ∨ (a / M = b / M ∧ a % M < b % M)) := by
  have ha := Nat.div_add_mod a M
  have hb := Nat.div_add_mod b M
  have hma := Nat.mod_lt a hM
  have hmb := Nat.mod_lt b hM
  constructor
  · intro h
    by_cases hq : a / M < b / M
    · exact Or.inl hq
    · right
      have h2 : a / M ≤ b / M := Nat.div_le_div_right (le_of_lt h)
      have heq : a / M = b / M := by omega
      refine ⟨heq, ?_⟩
      rw [heq] at ha
      omega
  · intro h
    rcases h with h | ⟨heq, h⟩
    · have hs : a / M + 1 ≤ b / M := h
      have hle : M * (a / M + 1) ≤ M * (b / M) := Nat.mul_le_mul_left M hs
      have hms : M * (a / M + 1) = M * (a / M) + M := Nat.mul_succ M _
      omega
    · rw [heq] at ha
      omega

theorem beBytes_cmp {w a b : Nat} (ha : a < 256 ^ w) (hb : b < 256 ^ w) :
    lexCmp (beBytes w a) (beBytes w b) = cmpNat a b := by
  induction w generalizing a b with
  | zero =>
    have ha0 : a = 0 := by simpa using ha
    have hb0 : b = 0 := by simpa using hb
    subst ha0; subst hb0
    simp [beBytes, lexCmp, cmpNat_self]
  | succ w ih =>
    have hp : 0 < 256 ^ w := Nat.pos_pow_of_pos w (by omega)
    simp only [beBytes, lexCmp]
    rw [ih (Nat.mod_lt _ hp) (Nat.mod_lt _ hp)]
    rcases Nat.lt_trichotomy (a / 256 ^ w) (b / 256 ^ w) with hq | hq | hq
    · rw [cmpNat_lt_iff.mpr hq]
      have : a < b := (div_mod_order hp).mpr (Or.inl hq)
      rw [cmpNat_lt_iff.mpr this]
      rfl
    · rw [cmpNat_eq_iff.mpr hq]
      have hiff : a < b ↔ a % 256 ^ w < b % 256 ^ w := by
        rw [div_mod_order hp]
        constructor
        · rintro (h | ⟨-, h⟩)
          · omega
          · exact h
        · exact fun h => Or.inr ⟨hq, h⟩
      have hiffr : b < a ↔ b % 256 ^ w < a % 256 ^ w := by
        rw [div_mod_order hp]
        constructor
        · rintro (h | ⟨-, h⟩)
          · omega
          · exact h
        · exact fun h => Or.inr ⟨hq.symm, h⟩
      show Ordering.eq.then (cmpNat (a % 256 ^ w) (b % 256 ^ w)) = cmpNat a b
      unfold cmpNat
      rcases Nat.lt_trichotomy (a % 256 ^ w) (b % 256 ^ w) with hm | hm | hm
      · have h1 : a < b := hiff.mpr hm
        simp [hm, h1, Ordering.then]
      · have h1 : ¬ a < b := by rw [hiff]; omega
        have h2 : ¬ b < a := by rw [hiffr]; omega
        have h3 : ¬ a % 256 ^ w < b % 256 ^ w := by omega
        have h4 : ¬ b % 256 ^ w < a % 256 ^ w := by omega
        simp [h1, h2, h3, h4, Ordering.then]
      · have h1 : b < a := hiffr.mpr hm
        have h2 : ¬ a < b := by omega
        have h3 : ¬ a % 256 ^ w < b % 256 ^ w := by omega
        simp [h1, h2, h3, hm, Ordering.then]
    · rw [cmpNat_gt_iff.mpr hq]
      have : b < a := (div_mod_order hp).mpr (Or.inl hq)
      have h2 : ¬ a < b := by omega
      rw [show cmpNat a b = .gt from cmpNat_gt_iff.mpr this]
      rfl

theorem lexCmp_mapFlip_eqlen {x y : List Nat} (hl : x.length = y.length)
    (hx : ∀ a ∈ x, a ≤ 255) (hy : ∀ a ∈ y, a ≤ 255) :
    lexCmp (mapFlip x) (mapFlip y) = (lexCmp x y).swap :=
  lexCmp_mapFlip hx hy (fun h => by have := strictPre_length h; omega)
    (fun h => by have := strictPre_length h; omega)

theorem descApply_length (o : ROpts) (l : List Nat) :
    (descApply o l).length = l.length := by
  unfold descApply mapFlip
  split <;> simp

theorem strBytes_length (o : ROpts) (v : Option (List Nat)) :
    (strBytes o v).length = strLenFromLen o (v.map List.length) := by
  cases v with
  | none => rfl
  | some s =>
    by_cases h : o.noOrder
    · simp [strBytes, strLenFromLen, h, beBytes_length]
      omega
    · simp [strBytes, strLenFromLen, h, descApply_length, encChunks_length]
      omega

theorem pow256_eq {w : Nat} (hw : 1 ≤ w) :
    (256 : Nat) ^ w = 2 * 2 ^ (8 * w - 1) := by
  have h8 : 8 * w - 1 + 1 = 8 * w := by omega
  calc (256 : Nat) ^ w = (2 ^ 8) ^ w := by norm_num
    _ = 2 ^ (8 * w) := by rw [← pow_mul]
    _ = 2 ^ (8 * w - 1 + 1) := by rw [h8]
    _ = 2 * 2 ^ (8 * w - 1) := by rw [pow_succ]; ring

theorem ordSwap_eq_lt {o : Ordering} : o.swap = .lt ↔ o = .gt := by
  rcases o with _ | _ | _ <;> simp [Ordering.swap]

theorem intShift_lt_iff {w : Nat} {va vb : Int}
    (ha : -(2 ^ (8 * w - 1) : Int) ≤ va) (hb : -(2 ^ (8 * w - 1) : Int) ≤ vb) :
    intShift w va < intShift w vb ↔ va < vb := by
  unfold intShift
  omega

theorem intShift_lt {w : Nat} {v : Int} (hw : 1 ≤ w)
    (h1 : -(2 ^ (8 * w - 1) : Int) ≤ v) (h2 : v < 2 ^ (8 * w - 1)) :
    intShift w v < 256 ^ w := by
  unfold intShift
  rw [pow256_eq hw]
  have hc : ((2 ^ (8 * w - 1) : Nat) : Int) = (2 : Int) ^ (8 * w - 1) := by
    push_cast
    ring
  omega

theorem floatKey_lt {w : Nat} {bits : Nat} (hw : 1 ≤ w) (h : bits < 256 ^ w) :
    floatKey w bits < 256 ^ w := by
  unfold floatKey
  have hfull := pow256_eq hw
  have h256 : (2 : Nat) ^ (8 * w) = 256 ^ w := by
    rw [pow_mul]
    norm_num
  split <;> omega

theorem floatKey_lt_iff {w a b : Nat} (hw : 1 ≤ w) (ha : a < 256 ^ w)
    (hb : b < 256 ^ w) : floatKey w a < floatKey w b ↔ floatTotalLt w a b := by
  unfold floatKey floatTotalLt
  have hfull := pow256_eq hw
  have h256 : (2 : Nat) ^ (8 * w) = 256 ^ w := by
    rw [pow_mul]
    norm_num
  split <;> split <;> omega

theorem descApply_eq_true {o : ROpts} (hd : o.descending = true)
    (l : List Nat) : descApply o l = mapFlip l := by
  simp [descApply, hd]

theorem descApply_eq_false {o : ROpts} (hd : o.descending = false)
    (l : List Nat) : descApply o l = l := by
  simp [descApply, hd]

theorem uintBytes_lt_iff (o : ROpts) {w va vb : Nat} (ha : va < 256 ^ w)
    (hb : vb < 256 ^ w) :
    lexLt (uintBytes o w (some va)) (uintBytes o w (some vb)) ↔
      (if o.descending then vb < va else va < vb) := by
  show lexLt (1 :: descApply o (beBytes w va)) (1 :: descApply o (beBytes w vb)) ↔ _
  unfold lexLt
  cases hd : o.descending
  · rw [descApply_eq_false hd, descApply_eq_false hd, lexCmp_cons_same]
    rw [beBytes_cmp ha hb]
    simp [cmpNat_lt_iff]
  · rw [descApply_eq_true hd, descApply_eq_true hd, lexCmp_cons_same]
    rw [lexCmp_mapFlip_eqlen (by rw [beBytes_length, beBytes_length])
      (beBytes_le ha) (beBytes_le hb)]
    rw [beBytes_cmp ha hb]
    simp [ordSwap_eq_lt, cmpNat_gt_iff]

theorem strBytes_lt_iff (o : ROpts) {sa sb : List Nat} (ha : ∀ v ∈ sa, v ≤ 255)
    (hb : ∀ v ∈ sb, v ≤ 255) (hord : o.noOrder = false) :
    lexLt (strBytes o (some sa)) (strBytes o (some sb)) ↔
      (if o.descending then lexLt sb sa else lexLt sa sb) := by
  simp only [strBytes, hord, Bool.false_eq_true, if_false]
  cases hd : o.descending
  · rw [descApply_eq_false hd, descApply_eq_false hd]
    unfold lexLt
    rw [lexCmp_cons_same, encChunks_cmp sa sb]
    simp
  · rw [descApply_eq_true hd, descApply_eq_true hd]
    unfold lexLt mapFlip
    simp only [List.map_cons]
    rw [show (List.map flipByte (encChunks sa) = mapFlip (encChunks sa)) from rfl]
    rw [show (List.map flipByte (encChunks sb) = mapFlip (encChunks sb)) from rfl]
    rw [lexCmp_cons_same, encChunks_cmp_flip ha hb, ordSwap_eq_lt]
    have := @lexLt_iff_gt_swap sb sa
    unfold lexLt at this
    simp [this]

theorem intBytes_lt_iff (o : ROpts) {w : Nat} {va vb : Int} (hw : 1 ≤ w)
    (ha1 : -(2 ^ (8 * w - 1) : Int) ≤ va) (ha2 : va < 2 ^ (8 * w - 1))
    (hb1 : -(2 ^ (8 * w - 1) : Int) ≤ vb) (hb2 : vb < 2 ^ (8 * w - 1)) :
    lexLt (intBytes o w (some va)) (intBytes o w (some vb)) ↔
      (if o.descending then vb < va else va < vb) := by
  have hba := intShift_lt hw ha1 ha2
  have hbb := intShift_lt hw hb1 hb2
  show lexLt (1 :: descApply o (beBytes w (intShift w va)))
    (1 :: descApply o (beBytes w (intShift w vb))) ↔ _
  have h := uintBytes_lt_iff o hba hbb
  unfold uintBytes at h
  rw [h, intShift_lt_iff ha1 hb1, intShift_lt_iff hb1 ha1]

theorem floatBytes_lt_iff (o : ROpts) {w fa fb : Nat} (hw : 1 ≤ w)
    (ha : fa < 256 ^ w) (hb : fb < 256 ^ w) :
    lexLt (floatBytes o w (some fa)) (floatBytes o w (some fb)) ↔
      (if o.descending then floatTotalLt w fb fa else floatTotalLt w fa fb) := by
  have hka := floatKey_lt hw ha
  have hkb := floatKey_lt hw hb
  show lexLt (1 :: descApply o (beBytes w (floatKey w fa)))
    (1 :: descApply o (beBytes w (floatKey w fb))) ↔ _
  have h := uintBytes_lt_iff o hka hkb
  unfold uintBytes at h
  rw [h, floatKey_lt_iff hw ha hb, floatKey_lt_iff hw hb ha]

/-- C1: for every supported leaf type and every pair of well-formed
values `a, b` of that type encoded with the same ordered-mode options,
the encoded row bytes of `a` compare lexicographically below the
encoded row bytes of `b` iff `a` compares below `b` under the
requested direction — booleans, all integer widths and signs, both
float widths (bit patterns under the total order, covering `NaN` and
`-0.0`), and strings/binaries of arbitrary shared-prefix shapes. -/
theorem claim_C1 (o : ROpts) (a b : LeafVal) (ha : a.wf) (hb : b.wf)
    (hty : sameTy a b) (hord : o.noOrder = false) :
    lexLt (leafBytes o a) (leafBytes o b) ↔
      (if o.descending then semLt b a else semLt a b) := by
  rcases a with ba | ⟨wa, va⟩ | ⟨wa, va⟩ | ⟨wa, fa⟩ | sa <;>
    rcases b with bb | ⟨wb, vb⟩ | ⟨wb, vb⟩ | ⟨wb, fb⟩ | sb <;>
    try exact hty.elim
  · -- booleans
    rcases ba <;> rcases bb <;> cases hd : o.descending <;>
      simp [leafBytes, boolBytes, semLt, descApply_eq_true,
        descApply_eq_false, hd, mapFlip, flipByte] <;> decide
  · -- unsigned integers
    have hw : wa = wb := hty
    subst hw
    have h := @uintBytes_lt_iff o wa _ _ ha hb
    simpa [leafBytes, semLt] using h
  · -- signed integers
    have hw : wa = wb := hty
    subst hw
    have h := @intBytes_lt_iff o wa _ _ ha.1 ha.2.1 ha.2.2 hb.2.1 hb.2.2
    simpa [leafBytes, semLt] using h
  · -- floats
    have hw : wa = wb := hty
    subst hw
    have h := @floatBytes_lt_iff o wa _ _ ha.1 ha.2 hb.2
    simpa [leafBytes, semLt] using h
  · -- strings / binaries
    have h := strBytes_lt_iff o ha hb hord
    simpa [leafBytes, semLt] using h

/-- Witness for C1 at concrete inputs: two one-byte unsigned values in
a descending ordered column. -/
theorem claim_C1_witness :
    lexLt (leafBytes ⟨true, false, false, false⟩ (.vUInt 1 7))
        (leafBytes ⟨true, false, false, false⟩ (.vUInt 1 3)) ↔
      (if (⟨true, false, false, false⟩ : ROpts).descending
        then semLt (.vUInt 1 3) (.vUInt 1 7)
        else semLt (.vUInt 1 7) (.vUInt 1 3)) :=
  claim_C1 ⟨true, false, false, false⟩ (.vUInt 1 7) (.vUInt 1 3)
    (by norm_num [LeafVal.wf]) (by norm_num [LeafVal.wf]) rfl rfl

theorem fixedSize_guard {dtype : Dtype} {o : ROpts} {dict : Option RowCtx}
    (hg : catGuard o dict = true) : fixedSize dtype o dict = none := by
  unfold fixedSize
  rw [if_pos hg]

theorem fixedSizeFieldsNone_eq {o : ROpts} {fields : List Dtype}
    (h : ∀ f ∈ fields, (fixedSize f o none).isSome = true) :
    fixedSizeFieldsNone fields o =
      some ((fields.map (fun f => (fixedSize f o none).getD 0)).sum) := by
  induction fields with
  | nil => rfl
  | cons f fs ih =>
    obtain ⟨s, hs⟩ := Option.isSome_iff_exists.mp (h f (by simp))
    have := ih (fun g hg => h g (by simp [hg]))
    unfold fixedSizeFieldsNone
    rw [hs, this]
    simp [hs]

/-- C7: `fixed_size` returns a constant per-row width exactly for the
fixed-size types: `some 0` for null, `some 1` for boolean, the
type-specific constant (validity byte plus data bytes) for every
fixed-width numeric, `some (1 + w * s)` for a fixed-size list of width
`w` with fixed-size elements of size `s`, `some (1 + sum)` for a
struct whose every field is fixed-size; and `none` both for an
ordered, non-enum categorical column (which takes the string-based
variable-length path) and for every variable-length or list type. -/
theorem claim_C7 (o : ROpts) :
    fixedSize .dNull o none = some 0 ∧
    fixedSize .dBool o none = some 1 ∧
    (fixedSize .dUInt8 o none = some (encLen 1) ∧
      fixedSize .dUInt16 o none = some (encLen 2) ∧
      fixedSize .dUInt32 o none = some (encLen 4) ∧
      fixedSize .dUInt64 o none = some (encLen 8) ∧
      fixedSize .dInt8 o none = some (encLen 1) ∧
      fixedSize .dInt16 o none = some (encLen 2) ∧
      fixedSize .dInt32 o none = some (encLen 4) ∧
      fixedSize .dInt64 o none = some (encLen 8) ∧
      fixedSize .dInt128 o none = some (encLen 16) ∧
      fixedSize .dFloat32 o none = some (encLen 4) ∧
      fixedSize .dFloat64 o none = some (encLen 8)) ∧
    (∀ (inner : Dtype) (width : Nat) (dict : Option RowCtx) (s : Nat),
      fixedSize inner o dict = some s →
      fixedSize (.dFixedSizeList inner width) o dict = some (1 + width * s)) ∧
    (∀ fields : List Dtype,
      (∀ f ∈ fields, (fixedSize f o none).isSome = true) →
      fixedSize (.dStruct fields) o none =
        some (1 + (fields.map (fun f => (fixedSize f o none).getD 0)).sum)) ∧
    (o.noOrder = false →
      ∀ dtype : Dtype, fixedSize dtype o (some (.catCtx false)) = none) ∧
    (∀ dict : Option RowCtx,
      fixedSize .dUtf8 o dict = none ∧ fixedSize .dLargeUtf8 o dict = none ∧
      fixedSize .dUtf8View o dict = none ∧ fixedSize .dBinary o dict = none ∧
      fixedSize .dLargeBinary o dict = none ∧
      fixedSize .dBinaryView o dict = none ∧
      (∀ inner : Dtype, fixedSize (.dList inner) o dict = none) ∧
      (∀ inner : Dtype, fixedSize (.dLargeList inner) o dict = none)) := by
  refine ⟨rfl, rfl, ⟨rfl, rfl, rfl, rfl, rfl, rfl, rfl, rfl, rfl, rfl, rfl⟩,
    ?_, ?_, ?_, ?_⟩
  · intro inner width dict s h
    by_cases hg : catGuard o dict = true
    · rw [fixedSize_guard hg] at h
      exact absurd h (by simp)
    · unfold fixedSize
      rw [if_neg hg]
      simp [h]
  · intro fields h
    show (match fixedSizeFieldsNone fields o with
      | some sum => some (1 + sum)
      | none => none) = _
    rw [fixedSizeFieldsNone_eq h]
  · intro hord dtype
    apply fixedSize_guard
    simp [catGuard, ROpts.isOrdered, hord]
  · intro dict
    by_cases hg : catGuard o dict = true
    · exact ⟨fixedSize_guard hg, fixedSize_guard hg, fixedSize_guard hg,
        fixedSize_guard hg, fixedSize_guard hg, fixedSize_guard hg,
        fun _ => fixedSize_guard hg, fun _ => fixedSize_guard hg⟩
    · refine ⟨?_, ?_, ?_, ?_, ?_, ?_, fun inner => ?_, fun inner => ?_⟩ <;>
        (unfold fixedSize; rw [if_neg hg])

/-- Witness for C7: the fixed-size-list and struct conjuncts applied
at concrete types. -/
theorem claim_C7_witness :
    fixedSize (.dFixedSizeList .dInt32 3) ⟨false, false, false, false⟩ none =
      some (1 + 3 * encLen 4) ∧
    fixedSize .dBool ⟨false, false, false, false⟩
      (some (.catCtx false)) = none :=
  ⟨(claim_C7 ⟨false, false, false, false⟩).2.2.2.1 .dInt32 3 none (encLen 4) rfl,
    ((claim_C7 ⟨false, false, false, false⟩).2.2.2.2.2.1 rfl) .dBool⟩

theorem fixedSize_unsupported (o : ROpts) (dict : Option RowCtx) (d : Dtype)
    (hd : d ∈ [Dtype.dTimestamp, .dDate32, .dDate64, .dTime32, .dTime64,
      .dDuration, .dInterval, .dDictionary, .dDecimal, .dDecimal32,
      .dDecimal64, .dDecimal256, .dUnion, .dMap, .dExtension]) :
    fixedSize d o dict = none := by
  unfold fixedSize
  fin_cases hd <;> split <;> rfl

mutual

theorem getEncoderOutcome_ne_err (d : Dtype) (o : ROpts)
    (dict : Option RowCtx) : getEncoderOutcome d o dict ≠ .errValue := by
  unfold getEncoderOutcome
  split
  · exact fixedPathOutcome_ne_err _ _ _
  · split
    · simp
    · exact mainOutcome_ne_err _ _ _
termination_by (sizeOf d, 3)

theorem fixedPathOutcome_ne_err (d : Dtype) (o : ROpts)
    (dict : Option RowCtx) : fixedPathOutcome d o dict ≠ .errValue := by
  unfold fixedPathOutcome
  split
  · exact getEncoderOutcome_ne_err _ _ _
  · split
    · exact fieldsOutcome_ne_err _ _
    · exact fieldsOutcomeDicts_ne_err _ _ _
    · simp
  · simp
termination_by (sizeOf d, 2)

theorem mainOutcome_ne_err (d : Dtype) (o : ROpts) (dict : Option RowCtx) :
    mainOutcome d o dict ≠ .errValue := by
  unfold mainOutcome
  split
  · exact getEncoderOutcome_ne_err _ _ _
  · split
    · exact fieldsOutcome_ne_err _ _
    · exact fieldsOutcomeDicts_ne_err _ _ _
    · simp
  · exact getEncoderOutcome_ne_err _ _ _
  · exact getEncoderOutcome_ne_err _ _ _
  · simp
  · simp
  · simp
  · simp
  · simp
  · simp
  · simp
termination_by (sizeOf d, 2)

theorem fieldsOutcome_ne_err (fs : List Dtype) (o : ROpts) :
    fieldsOutcome fs o ≠ .errValue := by
  rcases fs with _ | ⟨f, fs⟩
  · unfold fieldsOutcome
    simp
  · unfold fieldsOutcome
    rcases hg : getEncoderOutcome f o none with _ | _ | _
    · exact fieldsOutcome_ne_err _ _
    · simp
    · exact absurd hg (getEncoderOutcome_ne_err _ _ _)
termination_by (sizeOf fs, 3)

theorem fieldsOutcomeDicts_ne_err (fs : List Dtype)
    (ds : List (Option RowCtx)) (o : ROpts) :
    fieldsOutcomeDicts fs ds o ≠ .errValue := by
  rcases fs with _ | ⟨f, fs⟩
  · unfold fieldsOutcomeDicts
    simp
  · rcases ds with _ | ⟨d, ds⟩
    · unfold fieldsOutcomeDicts
      simp
    · unfold fieldsOutcomeDicts
      rcases hg : getEncoderOutcome f o d with _ | _ | _
      · exact fieldsOutcomeDicts_ne_err _ _ _
      · simp
      · exact absurd hg (getEncoderOutcome_ne_err _ _ _)
termination_by (sizeOf fs, 3)

end

/-- C8: for every column whose physical type is unsupported or
non-normalized (temporal types, plain dictionary-encoded types,
decimals outside the `Int128` physical path, unions, maps, extension
types), building the encoder panics (`unreachable!`/`todo!` class)
rather than returning a recoverable error value, and the encoder never
returns an error result for any input. -/
theorem claim_C8 :
    (∀ (o : ROpts) (dict : Option RowCtx),
      ∀ d ∈ [Dtype.dTimestamp, .dDate32, .dDate64, .dTime32, .dTime64,
        .dDuration, .dInterval, .dDictionary, .dDecimal, .dDecimal32,
        .dDecimal64, .dDecimal256, .dUnion, .dMap, .dExtension],
      getEncoderOutcome d o dict = .panicked) ∧
    (∀ (d : Dtype) (o : ROpts) (dict : Option RowCtx),
      getEncoderOutcome d o dict ≠ .errValue) := by
  constructor
  · intro o dict d hd
    have hf := fixedSize_unsupported o dict d hd
    unfold getEncoderOutcome
    rw [hf]
    fin_cases hd <;> simp [mainOutcome]
  · exact getEncoderOutcome_ne_err

/-- Witness for C8: a timestamp column panics the encoder builder. -/
theorem claim_C8_witness :
    getEncoderOutcome .dTimestamp ⟨false, false, false, false⟩ none =
      .panicked :=
  claim_C8.1 ⟨false, false, false, false⟩ none .dTimestamp (by simp)

theorem gd_map {α β : Type} (f : α → β) (l : List α) (i : Nat) (da : α)
    (db : β) (hi : i < l.length) : (l.map f).getD i db = f (l.getD i da) := by
  induction l generalizing i with
  | nil => simp at hi
  | cons x xs ih =>
    cases i with
    | zero => rfl
    | succ i => exact ih i (by simpa using hi)

theorem gd_zipWith {α β γ : Type} (f : α → β → γ) (l1 : List α) (l2 : List β)
    (i : Nat) (d1 : α) (d2 : β) (d3 : γ) (h1 : i < l1.length)
    (h2 : i < l2.length) :
    (List.zipWith f l1 l2).getD i d3 = f (l1.getD i d1) (l2.getD i d2) := by
  induction l1 generalizing l2 i with
  | nil => simp at h1
  | cons x xs ih =>
    cases l2 with
    | nil => simp at h2
    | cons y ys =>
      cases i with
      | zero => rfl
      | succ i => exact ih ys i (by simpa using h1) (by simpa using h2)

theorem gd_replicate {α : Type} (n i : Nat) (a d : α) (hi : i < n) :
    (List.replicate n a).getD i d = a := by
  induction n generalizing i with
  | zero => simp at hi
  | succ n ih =>
    cases i with
    | zero => rfl
    | succ i => exact ih i (by omega)

theorem gd_range (n i : Nat) (d : Nat) (hi : i < n) :
    (List.range n).getD i d = i := by
  rw [List.getD_eq_getElem?_getD, List.getElem?_eq_getElem (by simpa using hi)]
  simp

theorem validList_length (n : Nat) (v : Option (List Bool))
    (h : ∀ x ∈ v, x.length = n) : (validList n v).length = n := by
  cases v with
  | none => simp [validList]
  | some x => simpa [validList] using h x rfl

theorem gd_zip {α β : Type} (l1 : List α) (l2 : List β) (i : Nat) (d1 : α)
    (d2 : β) (h1 : i < l1.length) (h2 : i < l2.length) :
    (l1.zip l2).getD i (d1, d2) = (l1.getD i d1, l2.getD i d2) := by
  induction l1 generalizing l2 i with
  | nil => simp at h1
  | cons x xs ih =>
    cases l2 with
    | nil => simp at h2
    | cons y ys =>
      cases i with
      | zero => rfl
      | succ i => exact ih ys i (by simpa using h1) (by simpa using h2)

theorem boolBytes_length (o : ROpts) (v : Option Bool) :
    (boolBytes o v).length = 1 := by
  cases v with
  | none => rfl
  | some b => simp [boolBytes, descApply_length]

theorem uintBytes_length (o : ROpts) (w : Nat) (v : Option Nat) :
    (uintBytes o w v).length = 1 + w := by
  cases v with
  | none => simp [uintBytes]; omega
  | some x => simp [uintBytes, descApply_length, beBytes_length]; omega

theorem intBytes_length (o : ROpts) (w : Nat) (v : Option Int) :
    (intBytes o w v).length = 1 + w := by
  cases v with
  | none => simp [intBytes]; omega
  | some x => simp [intBytes, descApply_length, beBytes_length]; omega

theorem floatBytes_length (o : ROpts) (w : Nat) (v : Option Nat) :
    (floatBytes o w v).length = 1 + w := by
  cases v with
  | none => simp [floatBytes]; omega
  | some x => simp [floatBytes, descApply_length, beBytes_length]; omega

theorem listRowWidthsGo_length (cw : List Nat) :
    ∀ (rows : List (Nat × Bool)) (off : Nat),
    (listRowWidthsGo cw off rows).length = rows.length := by
  intro rows
  induction rows with
  | nil => intro off; rfl
  | cons r rows ih =>
    intro off
    rcases r with ⟨len, valid⟩
    simp [listRowWidthsGo, ih]

theorem listRowPatGo_length (cont term sent : Nat) (cb : List (List Nat)) :
    ∀ (rows : List (Nat × Bool)) (off : Nat),
    (listRowPatGo cont term sent cb off rows).length = rows.length := by
  intro rows
  induction rows with
  | nil => intro off; rfl
  | cons r rows ih =>
    intro off
    rcases r with ⟨len, valid⟩
    simp [listRowPatGo, ih]

mutual

theorem colWidths_length (o : ROpts) (arr : Arr) (h : arr.wfShape) :
    (colWidths o arr).length = arr.numRows := by
  cases arr with
  | nullArr n => simp [colWidths, Arr.numRows]
  | boolArr vs => simp [colWidths, Arr.numRows]
  | uintArr w vs => simp [colWidths, Arr.numRows]
  | intArr w vs => simp [colWidths, Arr.numRows]
  | floatArr w vs => simp [colWidths, Arr.numRows]
  | strArr vs => simp [colWidths, Arr.numRows]
  | listArr is64 lens validity child =>
    show (listRowWidthsGo _ 0 (lens.zip (validList lens.length validity))).length = _
    rw [listRowWidthsGo_length]
    simp [Arr.numRows, validList_length lens.length validity h.1]
  | fslArr len width validity child =>
    simp [colWidths, Arr.numRows]
  | structArr len validity children =>
    show (structWidths o (List.replicate len 1) children).length = len
    exact structWidths_length o len (List.replicate len 1) children
      (by simp) h.2
termination_by (sizeOf arr, 1)

theorem structWidths_length (o : ROpts) (n : Nat) (acc : List Nat)
    (cs : List Arr) (hacc : acc.length = n) (h : wfShapeFields n cs) :
    (structWidths o acc cs).length = n := by
  cases cs with
  | nil => exact hacc
  | cons c cs =>
    show (structWidths o (List.zipWith (· + ·) acc (colWidths o.intoNested c)) cs).length = n
    have hc : (colWidths o.intoNested c).length = c.numRows :=
      colWidths_length o.intoNested c h.2.1
    have hn : c.numRows = n := h.1
    have hlen : (List.zipWith (· + ·) acc (colWidths o.intoNested c)).length = n := by
      rw [List.length_zipWith]
      omega
    exact structWidths_length o n _ cs hlen h.2.2
termination_by (sizeOf cs, 1)

end

theorem map_len_const {α : Type} (l : List α) (f : α → List Nat) (c : Nat)
    (h : ∀ x, (f x).length = c) :
    (l.map f).map List.length = List.replicate l.length c := by
  induction l with
  | nil => rfl
  | cons x xs ih => simp [h, ih, List.replicate_succ]

theorem slice_len {α : Type} (l : List α) (off k : Nat)
    (h : off + k ≤ l.length) : ((l.drop off).take k).length = k := by
  rw [List.length_take, List.length_drop]
  omega

theorem slice_map {α β : Type} (f : α → β) (l : List α) (off k : Nat) :
    ((l.map f).drop off).take k = ((l.drop off).take k).map f := by
  rw [← List.map_drop, ← List.map_take]

/-- The length of a valid list row's byte pattern is one token per
element plus the elements' byte counts plus the termination byte. -/
theorem listRowPat_len (cont term : Nat) (cb : List (List Nat)) (off k : Nat)
    (h : off + k ≤ cb.length) :
    (((cb.drop off).take k).flatMap (fun b => cont :: b) ++ [term]).length =
      1 + k + sliceSum (cb.map List.length) off k := by
  rw [List.length_append, List.length_flatMap]
  unfold sliceSum
  rw [slice_map]
  have h1 : ((cb.drop off).take k).map (List.length ∘ fun b => cont :: b) =
      ((cb.drop off).take k).map (fun b => 1 + b.length) := by
    apply List.map_congr_left
    intro b _
    simp [Function.comp]
    omega
  rw [h1]
  have h2 : (((cb.drop off).take k).map (fun b => 1 + b.length)).sum =
      k + (((cb.drop off).take k).map List.length).sum := by
    have := slice_len cb off k h
    generalize (cb.drop off).take k = u at this ⊢
    subst this
    induction u with
    | nil => simp
    | cons b bs ih => simp [ih]; omega
  rw [h2]
  simp
  omega

theorem listPat_widths (cont term sent : Nat) (cb : List (List Nat)) :
    ∀ (rows : List (Nat × Bool)) (off : Nat),
    off + (rows.map Prod.fst).sum ≤ cb.length →
    (listRowPatGo cont term sent cb off rows).map List.length =
      listRowWidthsGo (cb.map List.length) off rows := by
  intro rows
  induction rows with
  | nil => intro off _; rfl
  | cons r rows ih =>
    intro off hb
    rcases r with ⟨len, valid⟩
    simp only [List.map_cons, List.map, Prod.fst, List.sum_cons] at hb
    have hb1 : off + len ≤ cb.length := by omega
    have hb2 : (off + len) + (rows.map Prod.fst).sum ≤ cb.length := by omega
    rcases valid with _ | _ <;>
      simp only [listRowPatGo, listRowWidthsGo, List.map_cons] <;>
      rw [ih (off + len) hb2] <;>
      simp [listRowPat_len cont term cb off len hb1]

theorem map_len_zipWith_append (acc cb : List (List Nat)) :
    (List.zipWith (· ++ ·) acc cb).map List.length =
      List.zipWith (· + ·) (acc.map List.length) (cb.map List.length) := by
  induction acc generalizing cb with
  | nil => simp
  | cons a as ih =>
    cases cb with
    | nil => simp
    | cons b bs => simp [ih]

theorem map_len_zipWith_range {β : Type} (f : Nat → β → List Nat)
    (g : Nat → Nat) (n : Nat) (l2 : List β) (hl : l2.length = n)
    (hf : ∀ a b, (f a b).length = g a) :
    (List.zipWith f (List.range n) l2).map List.length =
      (List.range n).map g := by
  have : ∀ (l1 : List Nat) (l2 : List β), l2.length = l1.length →
      (List.zipWith f l1 l2).map List.length = l1.map g := by
    intro l1
    induction l1 with
    | nil => intro l2 _; simp
    | cons x xs ih =>
      intro l2 h2
      cases l2 with
      | nil => simp at h2
      | cons y ys =>
        simp only [List.zipWith_cons_cons, List.map_cons, hf]
        rw [ih ys (by simpa using h2)]
  exact this (List.range n) l2 (by simpa using hl)

mutual

/-- Pass-1/pass-2 width agreement: the byte count of every row equals
the width computed for it. -/
theorem rowBytes_widths (o : ROpts) (arr : Arr) (h : arr.wfShape) :
    (rowBytesArr o arr).map List.length = colWidths o arr := by
  cases arr with
  | nullArr n => simp [rowBytesArr, colWidths]
  | boolArr vs =>
    exact map_len_const vs (boolBytes o) 1 (boolBytes_length o)
  | uintArr w vs =>
    exact map_len_const vs (uintBytes o w) (1 + w) (uintBytes_length o w)
  | intArr w vs =>
    exact map_len_const vs (intBytes o w) (1 + w) (intBytes_length o w)
  | floatArr w vs =>
    exact map_len_const vs (floatBytes o w) (1 + w) (floatBytes_length o w)
  | strArr vs =>
    show (vs.map (strBytes o)).map List.length = _
    rw [List.map_map]
    apply List.map_congr_left
    intro v _
    simpa [Function.comp] using strBytes_length o v
  | listArr is64 lens validity child =>
    have hcb := rowBytes_widths o.intoNested child h.2.2
    have hlen : (rowBytesArr o.intoNested child).length = child.numRows := by
      have := congrArg List.length hcb
      simpa [colWidths_length o.intoNested child h.2.2] using this
    have hfst : (lens.zip (validList lens.length validity)).map Prod.fst = lens := by
      apply List.map_fst_zip
      rw [validList_length lens.length validity h.1]
    have hb : 0 + ((lens.zip (validList lens.length validity)).map Prod.fst).sum ≤
        (rowBytesArr o.intoNested child).length := by
      rw [hfst, hlen, h.2.1]
      omega
    show (listRowPatGo _ _ _ (rowBytesArr o.intoNested child) 0
      (lens.zip (validList lens.length validity))).map List.length = _
    rw [listPat_widths _ _ _ _ _ 0 hb, hcb]
    rfl
  | fslArr len width validity child =>
    have hcb := rowBytes_widths o.intoNested child h.2.2
    show (List.zipWith _ (List.range len) (validList len validity)).map
      List.length = (List.range len).map _
    rw [map_len_zipWith_range _
      (fun i => 1 + sliceSum (colWidths o.intoNested child) (i * width) width)
      len (validList len validity) (validList_length len validity h.1)]
    intro a b
    simp only [List.length_cons, List.length_flatMap]
    unfold sliceSum
    rw [← hcb, slice_map]
    have hcg : (((rowBytesArr o.intoNested child).drop (a * width)).take width).map
        (List.length ∘ id) =
        (((rowBytesArr o.intoNested child).drop (a * width)).take width).map
          List.length := by
      apply List.map_congr_left
      intro x _
      simp
    rw [hcg]
    omega
  | structArr len validity children =>
    show (structRowBytes o ((validList len validity).map
      (fun v => [validityByte o v])) children).map List.length = _
    rw [structRB_widths o _ children len h.2]
    rw [map_len_const _ _ 1 (fun v => by simp)]
    rw [validList_length len validity h.1]
    rfl
termination_by (sizeOf arr, 1)

theorem structRB_widths (o : ROpts) (acc : List (List Nat)) (cs : List Arr)
    (n : Nat) (h : wfShapeFields n cs) :
    (structRowBytes o acc cs).map List.length =
      structWidths o (acc.map List.length) cs := by
  cases cs with
  | nil => rfl
  | cons c cs =>
    show (structRowBytes o (List.zipWith (· ++ ·) acc
      (rowBytesArr o.intoNested c)) cs).map List.length = _
    rw [structRB_widths o _ cs n h.2.2]
    rw [map_len_zipWith_append, rowBytes_widths o.intoNested c h.2.1]
    rfl
termination_by (sizeOf cs, 1)

end

theorem rowBytesArr_length (o : ROpts) (arr : Arr) (h : arr.wfShape) :
    (rowBytesArr o arr).length = arr.numRows := by
  have := congrArg List.length (rowBytes_widths o arr h)
  simpa [colWidths_length o arr h] using this

theorem lexLt_of_head_lt {a b : Nat} (h : a < b) (x y : List Nat) :
    lexLt (a :: x) (b :: y) := by
  unfold lexLt lexCmp
  rw [cmpNat_lt_iff.mpr h]
  rfl

theorem listRowPatGo_head (cont term sent : Nat) (cb : List (List Nat)) :
    ∀ (rows : List (Nat × Bool)) (off i : Nat), i < rows.length →
    ((rows.getD i (0, true)).2 = false →
      (listRowPatGo cont term sent cb off rows).getD i [] = [sent]) ∧
    ((rows.getD i (0, true)).2 = true →
      ∃ rest, ((listRowPatGo cont term sent cb off rows).getD i [] = cont :: rest ∨
        (listRowPatGo cont term sent cb off rows).getD i [] = term :: rest)) := by
  intro rows
  induction rows with
  | nil => intro off i hi; simp at hi
  | cons r rows ih =>
    intro off i hi
    rcases r with ⟨len, valid⟩
    cases i with
    | zero =>
      constructor
      · intro hv
        simp only [List.getD_cons_zero] at hv ⊢
        simp [listRowPatGo, hv]
      · intro hv
        simp only [List.getD_cons_zero] at hv ⊢
        simp only [listRowPatGo, hv, if_true, List.getD_cons_zero]
        rcases hsl : (cb.drop off).take len with _ | ⟨b, bs⟩
        · exact ⟨[], Or.inr (by simp)⟩
        · exact ⟨b ++ (bs.flatMap (fun v => cont :: v) ++ [term]),
            Or.inl (by simp)⟩
    | succ i =>
      have := ih (off + len) i (by simpa using hi)
      simpa [listRowPatGo] using this

theorem structRowBytes_getD (o : ROpts) (n : Nat) :
    ∀ (cs : List Arr) (acc : List (List Nat)), acc.length = n →
    wfShapeFields n cs → ∀ i, i < n →
    ∃ rest, (structRowBytes o acc cs).getD i [] = acc.getD i [] ++ rest := by
  intro cs
  induction cs with
  | nil =>
    intro acc hacc _ i hi
    exact ⟨[], by simp [structRowBytes]⟩
  | cons c cs ih =>
    intro acc hacc hwf i hi
    have hc : (rowBytesArr o.intoNested c).length = n := by
      rw [rowBytesArr_length o.intoNested c hwf.2.1, hwf.1]
    obtain ⟨rest, hrest⟩ := ih
      (List.zipWith (· ++ ·) acc (rowBytesArr o.intoNested c))
      (by rw [List.length_zipWith, hacc, hc]; simp) hwf.2.2 i hi
    refine ⟨(rowBytesArr o.intoNested c).getD i [] ++ rest, ?_⟩
    show (structRowBytes o _ cs).getD i [] = _
    rw [hrest, gd_zipWith _ _ _ i [] [] [] (by omega) (by omega)]
    simp

theorem rowBytes_valid_head (o : ROpts) (arr : Arr) (j : Nat)
    (h : arr.wfShape) (hord : o.noOrder = false) (hj : j < arr.numRows)
    (hv : arr.isNullAt j = false) :
    ∃ hd rest, (rowBytesArr o arr).getD j [] = hd :: rest ∧ 1 ≤ hd ∧ hd ≤ 254 := by
  cases arr with
  | nullArr n => simp [Arr.isNullAt] at hv
  | boolArr vs =>
    simp only [Arr.isNullAt, Option.isNone_eq_false_iff, Option.isSome_iff_exists] at hv
    obtain ⟨b, hb⟩ := hv
    show ∃ hd rest, (vs.map (boolBytes o)).getD j [] = hd :: rest ∧ _ ∧ _
    rw [gd_map (boolBytes o) vs j none [] hj, hb]
    cases hd : o.descending
    · rcases b with _ | _
      · exact ⟨2, [], by simp [boolBytes, descApply_eq_false hd],
          by omega, by omega⟩
      · exact ⟨3, [], by simp [boolBytes, descApply_eq_false hd],
          by omega, by omega⟩
    · rcases b with _ | _
      · exact ⟨253, [], by simp [boolBytes, descApply_eq_true hd, mapFlip,
          flipByte], by omega, by omega⟩
      · exact ⟨252, [], by simp [boolBytes, descApply_eq_true hd, mapFlip,
          flipByte], by omega, by omega⟩
  | uintArr w vs =>
    simp only [Arr.isNullAt, Option.isNone_eq_false_iff, Option.isSome_iff_exists] at hv
    obtain ⟨b, hb⟩ := hv
    show ∃ hd rest, (vs.map (uintBytes o w)).getD j [] = hd :: rest ∧ _ ∧ _
    rw [gd_map (uintBytes o w) vs j none [] hj, hb]
    exact ⟨1, _, rfl, by omega, by omega⟩
  | intArr w vs =>
    simp only [Arr.isNullAt, Option.isNone_eq_false_iff, Option.isSome_iff_exists] at hv
    obtain ⟨b, hb⟩ := hv
    show ∃ hd rest, (vs.map (intBytes o w)).getD j [] = hd :: rest ∧ _ ∧ _
    rw [gd_map (intBytes o w) vs j none [] hj, hb]
    exact ⟨1, _, rfl, by omega, by omega⟩
  | floatArr w vs =>
    simp only [Arr.isNullAt, Option.isNone_eq_false_iff, Option.isSome_iff_exists] at hv
    obtain ⟨b, hb⟩ := hv
    show ∃ hd rest, (vs.map (floatBytes o w)).getD j [] = hd :: rest ∧ _ ∧ _
    rw [gd_map (floatBytes o w) vs j none [] hj, hb]
    exact ⟨1, _, rfl, by omega, by omega⟩
  | strArr vs =>
    simp only [Arr.isNullAt, Option.isNone_eq_false_iff, Option.isSome_iff_exists] at hv
    obtain ⟨s, hs⟩ := hv
    show ∃ hd rest, (vs.map (strBytes o)).getD j [] = hd :: rest ∧ _ ∧ _
    rw [gd_map (strBytes o) vs j none [] hj, hs]
    cases hd : o.descending
    · exact ⟨2, encChunks s,
        by simp [strBytes, hord, descApply_eq_false hd], by omega, by omega⟩
    · exact ⟨253, mapFlip (encChunks s),
        by simp [strBytes, hord, descApply_eq_true hd, mapFlip, flipByte],
        by omega, by omega⟩
  | listArr is64 lens validity child =>
    have hvl : (validList lens.length validity).getD j true = true := by
      simpa [Arr.isNullAt] using hv
    have hjl : j < lens.length := hj
    have hjv : j < (validList lens.length validity).length := by
      rw [validList_length lens.length validity h.1]
      exact hj
    have hrows := (listRowPatGo_head o.listContinuationToken
      o.listTerminationToken o.listNullSentinel (rowBytesArr o.intoNested child)
      (lens.zip (validList lens.length validity)) 0 j
      (by rw [List.length_zip]; omega)).2
    rw [gd_zip lens (validList lens.length validity) j 0 true hjl hjv] at hrows
    obtain ⟨rest, hrest⟩ := hrows hvl
    show ∃ hd rest, (listRowPatGo _ _ _ _ 0 _).getD j [] = hd :: rest ∧ _ ∧ _
    rcases hrest with hrest | hrest
    · refine ⟨o.listContinuationToken, rest, hrest, ?_, ?_⟩ <;>
        (unfold ROpts.listContinuationToken flipByte; split <;> omega)
    · refine ⟨o.listTerminationToken, rest, hrest, ?_, ?_⟩ <;>
        (unfold ROpts.listTerminationToken flipByte; split <;> omega)
  | fslArr len width validity child =>
    have hvl : (validList len validity).getD j true = true := by
      simpa [Arr.isNullAt] using hv
    have hjv : j < (validList len validity).length := by
      rw [validList_length len validity h.1]
      exact hj
    show ∃ hd rest, (List.zipWith _ (List.range len) (validList len validity)).getD j []
      = hd :: rest ∧ _ ∧ _
    rw [gd_zipWith _ (List.range len) (validList len validity) j 0 true []
      (by simpa using hj) hjv, hvl]
    exact ⟨1, _, rfl, by omega, by omega⟩
  | structArr len validity children =>
    have hvl : (validList len validity).getD j true = true := by
      simpa [Arr.isNullAt] using hv
    have hjv : j < (validList len validity).length := by
      rw [validList_length len validity h.1]
      exact hj
    obtain ⟨rest, hrest⟩ := structRowBytes_getD o len children
      ((validList len validity).map (fun v => [validityByte o v]))
      (by rw [List.length_map, validList_length len validity h.1]) h.2 j hj
    have hrow : (rowBytesArr o (.structArr len validity children)).getD j [] =
        1 :: rest := by
      show (structRowBytes o _ children).getD j [] = _
      rw [hrest, gd_map _ (validList len validity) j true [] hjv, hvl]
      rfl
    exact ⟨1, rest, hrow, by omega, by omega⟩

theorem rowBytes_null_head (o : ROpts) (arr : Arr) (i : Nat)
    (h : arr.wfShape) (hi : i < arr.numRows) (hn : arr.isNullAt i = true)
    (hnonnull : ∃ j, j < arr.numRows ∧ arr.isNullAt j = false) :
    ∃ rest, (rowBytesArr o arr).getD i [] = o.nullSentinel :: rest := by
  cases arr with
  | nullArr n =>
    obtain ⟨j, _, hj⟩ := hnonnull
    simp [Arr.isNullAt] at hj
  | boolArr vs =>
    have hb : vs.getD i none = none := by
      simpa [Arr.isNullAt, Option.isNone_iff_eq_none] using hn
    show ∃ rest, (vs.map (boolBytes o)).getD i [] = _
    rw [gd_map (boolBytes o) vs i none [] hi, hb]
    exact ⟨[], rfl⟩
  | uintArr w vs =>
    have hb : vs.getD i none = none := by
      simpa [Arr.isNullAt, Option.isNone_iff_eq_none] using hn
    show ∃ rest, (vs.map (uintBytes o w)).getD i [] = _
    rw [gd_map (uintBytes o w) vs i none [] hi, hb]
    exact ⟨_, rfl⟩
  | intArr w vs =>
    have hb : vs.getD i none = none := by
      simpa [Arr.isNullAt, Option.isNone_iff_eq_none] using hn
    show ∃ rest, (vs.map (intBytes o w)).getD i [] = _
    rw [gd_map (intBytes o w) vs i none [] hi, hb]
    exact ⟨_, rfl⟩
  | floatArr w vs =>
    have hb : vs.getD i none = none := by
      simpa [Arr.isNullAt, Option.isNone_iff_eq_none] using hn
    show ∃ rest, (vs.map (floatBytes o w)).getD i [] = _
    rw [gd_map (floatBytes o w) vs i none [] hi, hb]
    exact ⟨_, rfl⟩
  | strArr vs =>
    have hb : vs.getD i none = none := by
      simpa [Arr.isNullAt, Option.isNone_iff_eq_none] using hn
    show ∃ rest, (vs.map (strBytes o)).getD i [] = _
    rw [gd_map (strBytes o) vs i none [] hi, hb]
    exact ⟨[], rfl⟩
  | listArr is64 lens validity child =>
    have hvl : (validList lens.length validity).getD i true = false := by
      simpa [Arr.isNullAt] using hn
    have hiv : i < (validList lens.length validity).length := by
      rw [validList_length lens.length validity h.1]
      exact hi
    have hrows := (listRowPatGo_head o.listContinuationToken
      o.listTerminationToken o.listNullSentinel (rowBytesArr o.intoNested child)
      (lens.zip (validList lens.length validity)) 0 i
      (by
        rw [List.length_zip]
        have hil : i < lens.length := hi
        omega)).1
    rw [gd_zip lens (validList lens.length validity) i 0 true hi hiv] at hrows
    exact ⟨[], hrows hvl⟩
  | fslArr len width validity child =>
    have hvl : (validList len validity).getD i true = false := by
      simpa [Arr.isNullAt] using hn
    have hiv : i < (validList len validity).length := by
      rw [validList_length len validity h.1]
      exact hi
    show ∃ rest, (List.zipWith _ (List.range len)
      (validList len validity)).getD i [] = _
    rw [gd_zipWith _ (List.range len) (validList len validity) i 0 true []
      (by simpa using hi) hiv, hvl]
    exact ⟨_, rfl⟩
  | structArr len validity children =>
    have hvl : (validList len validity).getD i true = false := by
      simpa [Arr.isNullAt] using hn
    have hiv : i < (validList len validity).length := by
      rw [validList_length len validity h.1]
      exact hi
    obtain ⟨rest, hrest⟩ := structRowBytes_getD o len children
      ((validList len validity).map (fun v => [validityByte o v]))
      (by rw [List.length_map, validList_length len validity h.1]) h.2 i hi
    refine ⟨rest, ?_⟩
    show (structRowBytes o _ children).getD i [] = _
    rw [hrest, gd_map _ (validList len validity) i true [] hiv, hvl]
    rfl

/-- C4: for every column encoded in ordered mode, the row bytes of a
null row sort byte-wise before the row bytes of any non-null row of
the same column under nulls-first, and after it under nulls-last; the
placement is independent of the ascending/descending direction, which
is universally quantified here via the options. -/
theorem claim_C4 (o : ROpts) (arr : Arr) (i j : Nat) (h : arr.wfShape)
    (hord : o.noOrder = false) (hi : i < arr.numRows) (hj : j < arr.numRows)
    (hnull : arr.isNullAt i = true) (hvalid : arr.isNullAt j = false) :
    if o.nullsLast
    then lexLt ((rowBytesArr o arr).getD j []) ((rowBytesArr o arr).getD i [])
    else lexLt ((rowBytesArr o arr).getD i []) ((rowBytesArr o arr).getD j []) := by
  obtain ⟨hd, restv, hrowv, h1, h254⟩ :=
    rowBytes_valid_head o arr j h hord hj hvalid
  obtain ⟨restn, hrown⟩ :=
    rowBytes_null_head o arr i h hi hnull ⟨j, hj, hvalid⟩
  cases hl : o.nullsLast
  · have hs : o.nullSentinel = 0 := by simp [ROpts.nullSentinel, hl]
    simp only [if_false, Bool.false_eq_true]
    rw [hrown, hrowv, hs]
    exact lexLt_of_head_lt (by omega) _ _
  · have hs : o.nullSentinel = 255 := by simp [ROpts.nullSentinel, hl]
    simp only [if_true]
    rw [hrown, hrowv, hs]
    exact lexLt_of_head_lt (by omega) _ _

/-- Witness for C4: a one-null-one-valid boolean column, nulls-first
with a descending direction. -/
theorem claim_C4_witness :
    if (⟨true, false, false, false⟩ : ROpts).nullsLast
    then lexLt ((rowBytesArr ⟨true, false, false, false⟩
        (.boolArr [none, some false])).getD 1 [])
      ((rowBytesArr ⟨true, false, false, false⟩
        (.boolArr [none, some false])).getD 0 [])
    else lexLt ((rowBytesArr ⟨true, false, false, false⟩
        (.boolArr [none, some false])).getD 0 [])
      ((rowBytesArr ⟨true, false, false, false⟩
        (.boolArr [none, some false])).getD 1 []) :=
  claim_C4 ⟨true, false, false, false⟩ (.boolArr [none, some false]) 0 1
    trivial rfl (by decide) (by decide) rfl rfl

theorem enumFrom_length (bs : List Nat) : ∀ (s : Nat),
    (enumFrom s bs).length = bs.length := by
  induction bs with
  | nil => intro s; rfl
  | cons b bs ih => intro s; simp [enumFrom, ih]

theorem enumFrom_append (b1 b2 : List Nat) : ∀ (s : Nat),
    enumFrom s (b1 ++ b2) = enumFrom s b1 ++ enumFrom (s + b1.length) b2 := by
  induction b1 with
  | nil => intro s; simp [enumFrom]
  | cons a b1 ih =>
    intro s
    have h : s + 1 + b1.length = s + (b1.length + 1) := by omega
    show (s, a) :: enumFrom (s + 1) (b1 ++ b2) =
      ((s, a) :: enumFrom (s + 1) b1) ++ enumFrom (s + (a :: b1).length) b2
    rw [ih (s + 1), List.length_cons, ← h]
    rfl

theorem mem_enumFrom {e : Nat × Nat} : ∀ {bs : List Nat} {s : Nat},
    e ∈ enumFrom s bs → s ≤ e.1 ∧ e.1 < s + bs.length := by
  intro bs
  induction bs with
  | nil => intro s h; simp [enumFrom] at h
  | cons b bs ih =>
    intro s h
    simp only [enumFrom, List.mem_cons] at h
    rcases h with h | h
    · subst h; simp
    · have := ih h
      simp only [List.length_cons]
      omega

theorem map_fst_enumFrom (bs : List Nat) : ∀ (s : Nat),
    (enumFrom s bs).map Prod.fst = List.range' s bs.length := by
  induction bs with
  | nil => intro s; rfl
  | cons b bs ih => intro s; simp [enumFrom, List.range'_succ, ih]

theorem segs_nil_right : ∀ (ofs : List Nat), segs ofs [] = [] := by
  intro ofs; cases ofs <;> rfl

theorem segs_append : ∀ {ofs1 : List Nat} {rb1 : List (List Nat)},
    ofs1.length = rb1.length → ∀ (ofs2 : List Nat) (rb2 : List (List Nat)),
    segs (ofs1 ++ ofs2) (rb1 ++ rb2) = segs ofs1 rb1 ++ segs ofs2 rb2 := by
  intro ofs1
  induction ofs1 with
  | nil =>
    intro rb1 h ofs2 rb2
    cases rb1 with
    | nil => rfl
    | cons b rb1 => simp at h
  | cons s ofs1 ih =>
    intro rb1 h ofs2 rb2
    cases rb1 with
    | nil => simp at h
    | cons b rb1 =>
      simp only [List.cons_append, segs, List.append_assoc, List.append_eq]
      rw [ih (by simpa using h) ofs2 rb2]

theorem perm_exchange {α : Type} (A B C D : List α) :
    ((A ++ B) ++ (C ++ D)).Perm ((A ++ C) ++ (B ++ D)) := by
  have h : (B ++ C).Perm (C ++ B) := List.perm_append_comm
  have h2 := (h.append_right D).append_left A
  have e1 : (A ++ B) ++ (C ++ D) = A ++ ((B ++ C) ++ D) := by
    simp [List.append_assoc]
  have e2 : A ++ ((C ++ B) ++ D) = (A ++ C) ++ (B ++ D) := by
    simp [List.append_assoc]
  rw [e1, ← e2]
  exact h2

theorem foldl_max_init (l : List Nat) : ∀ (a : Nat), a ≤ l.foldl max a := by
  induction l with
  | nil => intro a; exact Nat.le_refl a
  | cons x l ih =>
    intro a
    have := ih (max a x)
    simp only [List.foldl_cons]
    omega

theorem foldl_max_mem {l : List Nat} {x : Nat} (hx : x ∈ l) :
    ∀ (a : Nat), x ≤ l.foldl max a := by
  induction l with
  | nil => simp at hx
  | cons y l ih =>
    intro a
    simp only [List.foldl_cons]
    rcases List.mem_cons.mp hx with h | h
    · subst h
      have := foldl_max_init l (max a x)
      omega
    · exact ih h (max a y)

theorem writeRows_eq : ∀ (ofs : List Nat) (rbs : List (List Nat)),
    writeRows ofs rbs =
      (segs ofs rbs, List.zipWith (fun s b => s + b.length) ofs rbs) := by
  intro ofs
  induction ofs with
  | nil => intro rbs; cases rbs <;> rfl
  | cons s ofs ih =>
    intro rbs
    cases rbs with
    | nil => rfl
    | cons b rbs => simp [writeRows, segs, ih]

theorem validityWrites_eq (o : ROpts) : ∀ (ofs : List Nat) (vs : List Bool),
    validityWrites o ofs vs =
      (segs ofs (vs.map (fun v => [validityByte o v])),
       List.zipWith (fun s b => s + b.length) ofs
         (vs.map (fun v => [validityByte o v]))) := by
  intro ofs
  induction ofs with
  | nil => intro vs; cases vs <;> rfl
  | cons s ofs ih =>
    intro vs
    cases vs with
    | nil => rfl
    | cons v vs => simp [validityWrites, segs, enumFrom, ih]

theorem zipWith_adv_nil : ∀ (ofs : List Nat) (n : Nat), ofs.length = n →
    List.zipWith (fun s (b : List Nat) => s + b.length) ofs
      (List.replicate n []) = ofs := by
  intro ofs
  induction ofs with
  | nil => intro n h; simp
  | cons s ofs ih =>
    intro n h
    cases n with
    | zero => simp at h
    | succ n =>
      have h' : ofs.length = n := by simpa using h
      simp [List.replicate_succ, ih n h']

theorem segs_replicate_nil : ∀ (ofs : List Nat) (n : Nat),
    segs ofs (List.replicate n ([] : List Nat)) = [] := by
  intro ofs
  induction ofs with
  | nil => intro n; cases n <;> rfl
  | cons s ofs ih =>
    intro n
    cases n with
    | zero => rfl
    | succ n => simp [List.replicate_succ, segs, enumFrom, ih n]

theorem encSpec_exact {maskOfs mb : Nat} {ofs : List Nat} {rb : List (List Nat)}
    {res : Option (List (Nat × Nat) × List Nat)}
    (h : res = some (segs ofs rb, List.zipWith (fun s b => s + b.length) ofs rb)) :
    EncSpec maskOfs mb ofs rb res :=
  ⟨segs ofs rb, _, [], h, rfl,
    by simp, by simp⟩

theorem slice_split {α : Type} (l : List α) (off a b : Nat) :
    (l.drop off).take (a + b) = (l.drop off).take a ++ (l.drop (off + a)).take b := by
  rw [List.take_add, List.drop_drop]

theorem listValidRow_parts (cont term : Nat) : ∀ (cbs : List (List Nat)) (s : Nat),
    (listValidRow cont term s (cbs.map List.length)).2.1 =
      s + (cbs.flatMap (fun b => cont :: b) ++ [term]).length ∧
    (listValidRow cont term s (cbs.map List.length)).2.2.length = cbs.length ∧
    ((listValidRow cont term s (cbs.map List.length)).1 ++
        segs (listValidRow cont term s (cbs.map List.length)).2.2 cbs).Perm
      (enumFrom s (cbs.flatMap (fun b => cont :: b) ++ [term])) := by
  intro cbs
  induction cbs with
  | nil =>
    intro s
    refine ⟨by simp [listValidRow], rfl, ?_⟩
    simp [listValidRow, segs, enumFrom]
  | cons b cbs ih =>
    intro s
    obtain ⟨ih1, ih2, ih3⟩ := ih (s + 1 + b.length)
    refine ⟨?_, ?_, ?_⟩
    · show (listValidRow cont term (s + 1 + b.length) (cbs.map List.length)).2.1 = _
      rw [ih1]
      simp only [List.flatMap_cons, List.cons_append, List.append_assoc,
        List.length_append, List.length_cons, List.length_flatMap]
      omega
    · show ((s + 1) ::
          (listValidRow cont term (s + 1 + b.length) (cbs.map List.length)).2.2).length = _
      simp [ih2]
    · have hswap : ((listValidRow cont term (s + 1 + b.length) (cbs.map List.length)).1 ++
          (enumFrom (s + 1) b ++
            segs (listValidRow cont term (s + 1 + b.length) (cbs.map List.length)).2.2 cbs)).Perm
          (enumFrom (s + 1) b ++
            ((listValidRow cont term (s + 1 + b.length) (cbs.map List.length)).1 ++
              segs (listValidRow cont term (s + 1 + b.length) (cbs.map List.length)).2.2 cbs)) := by
        simpa using perm_exchange ([] : List (Nat × Nat))
          (listValidRow cont term (s + 1 + b.length) (cbs.map List.length)).1
          (enumFrom (s + 1) b)
          (segs (listValidRow cont term (s + 1 + b.length) (cbs.map List.length)).2.2 cbs)
      have hpat : (b :: cbs).flatMap (fun x => cont :: x) ++ [term] =
          cont :: (b ++ (cbs.flatMap (fun x => cont :: x) ++ [term])) := by
        simp [List.append_assoc]
      rw [hpat]
      show (((s, cont) ::
          (listValidRow cont term (s + 1 + b.length) (cbs.map List.length)).1) ++
          (enumFrom (s + 1) b ++
            segs (listValidRow cont term (s + 1 + b.length) (cbs.map List.length)).2.2 cbs)).Perm
        ((s, cont) :: enumFrom (s + 1)
          (b ++ (cbs.flatMap (fun x => cont :: x) ++ [term])))
      rw [enumFrom_append]
      exact (hswap.trans (ih3.append_left _)).cons _

theorem listMaskedGo_acc (cw : List Nat) : ∀ (rows : List (Nat × Bool)) (off acc : Nat),
    listMaskedGo cw off acc rows = max acc (listMaskedGo cw off 0 rows) := by
  intro rows
  induction rows with
  | nil => intro off acc; simp [listMaskedGo]
  | cons r rows ih =>
    rcases r with ⟨len, valid⟩
    intro off acc
    cases valid with
    | true =>
      show listMaskedGo cw (off + len) acc rows =
        max acc (listMaskedGo cw (off + len) 0 rows)
      exact ih (off + len) acc
    | false =>
      show listMaskedGo cw (off + len) (max acc (sliceMax cw off len)) rows =
        max acc (listMaskedGo cw (off + len) (max 0 (sliceMax cw off len)) rows)
      rw [ih (off + len) (max acc (sliceMax cw off len)),
        ih (off + len) (max 0 (sliceMax cw off len))]
      omega

theorem segs_replicate_bound {maskOfs mb : Nat} : ∀ {cbs : List (List Nat)} {k : Nat},
    (∀ b ∈ cbs, b.length ≤ mb) →
    ∀ e ∈ segs (List.replicate k maskOfs) cbs, maskOfs ≤ e.1 ∧ e.1 < maskOfs + mb := by
  intro cbs
  induction cbs with
  | nil => intro k hb e he; rw [segs_nil_right] at he; simp at he
  | cons b cbs ih =>
    intro k hb e he
    cases k with
    | zero => simp [segs] at he
    | succ k =>
      rw [List.replicate_succ] at he
      simp only [segs] at he
      rcases List.mem_append.mp he with h | h
      · have h1 := mem_enumFrom h
        have hble := hb b (List.mem_cons_self b cbs)
        exact ⟨h1.1, by omega⟩
      · exact ih (fun x hx => hb x (List.mem_cons_of_mem b hx)) e h

theorem listRows_spec (o : ROpts) (maskOfs mb : Nat) (cb : List (List Nat)) :
    ∀ (rows : List (Nat × Bool)) (off : Nat) (ofs : List Nat),
    ofs.length = rows.length →
    off + (rows.map Prod.fst).sum ≤ cb.length →
    listMaskedGo (cb.map List.length) off 0 rows ≤ mb →
    (listRowsGo o maskOfs (cb.map List.length) off ofs rows).2.1 =
      List.zipWith (fun s b => s + b.length) ofs
        (listRowPatGo o.listContinuationToken o.listTerminationToken
          o.listNullSentinel cb off rows) ∧
    (listRowsGo o maskOfs (cb.map List.length) off ofs rows).2.2.length =
      (rows.map Prod.fst).sum ∧
    ∃ m, ((listRowsGo o maskOfs (cb.map List.length) off ofs rows).1 ++
        segs (listRowsGo o maskOfs (cb.map List.length) off ofs rows).2.2
          ((cb.drop off).take ((rows.map Prod.fst).sum))).Perm
      (segs ofs (listRowPatGo o.listContinuationToken o.listTerminationToken
          o.listNullSentinel cb off rows) ++ m) ∧
      ∀ e ∈ m, maskOfs ≤ e.1 ∧ e.1 < maskOfs + mb := by
  intro rows
  induction rows with
  | nil =>
    intro off ofs hlen hbound hmask
    cases ofs with
    | nil =>
      refine ⟨rfl, rfl, [], ?_, by simp⟩
      simp [listRowsGo, listRowPatGo, segs]
    | cons s ofs => simp at hlen
  | cons r rows ih =>
    rcases r with ⟨len, valid⟩
    intro off ofs hlen hbound hmask
    cases ofs with
    | nil => simp at hlen
    | cons s ofs =>
      have hlen' : ofs.length = rows.length := by simpa using hlen
      have hsum : (((len, valid) :: rows).map Prod.fst).sum =
          len + (rows.map Prod.fst).sum := by simp
      have hbound' : off + len + (rows.map Prod.fst).sum ≤ cb.length := by
        rw [hsum] at hbound; omega
      have hslice : ((cb.map List.length).drop off).take len =
          ((cb.drop off).take len).map List.length := slice_map List.length cb off len
      have hsllen : ((cb.drop off).take len).length = len :=
        slice_len cb off len (by omega)
      cases valid with
      | true =>
        have hG : listMaskedGo (cb.map List.length) (off + len) 0 rows ≤ mb := hmask
        obtain ⟨ihCur, ihLen, m, ihPerm, ihM⟩ := ih (off + len) ofs hlen' hbound' hG
        obtain ⟨p1, p2, p3⟩ := listValidRow_parts o.listContinuationToken
          o.listTerminationToken ((cb.drop off).take len) s
        rw [← hslice] at p1 p2 p3
        have hunf : listRowsGo o maskOfs (cb.map List.length) off (s :: ofs)
            ((len, true) :: rows) =
            ((listValidRow o.listContinuationToken o.listTerminationToken s
                (((cb.map List.length).drop off).take len)).1 ++
              (listRowsGo o maskOfs (cb.map List.length) (off + len) ofs rows).1,
             (listValidRow o.listContinuationToken o.listTerminationToken s
                (((cb.map List.length).drop off).take len)).2.1 ::
              (listRowsGo o maskOfs (cb.map List.length) (off + len) ofs rows).2.1,
             (listValidRow o.listContinuationToken o.listTerminationToken s
                (((cb.map List.length).drop off).take len)).2.2 ++
              (listRowsGo o maskOfs (cb.map List.length) (off + len) ofs rows).2.2) := rfl
        have hpat : listRowPatGo o.listContinuationToken o.listTerminationToken
            o.listNullSentinel cb off ((len, true) :: rows) =
            (((cb.drop off).take len).flatMap
                (fun b => o.listContinuationToken :: b) ++ [o.listTerminationToken]) ::
              listRowPatGo o.listContinuationToken o.listTerminationToken
                o.listNullSentinel cb (off + len) rows := rfl
        rw [hunf, hpat]
        refine ⟨?_, ?_, ?_⟩
        · simp only [List.zipWith_cons_cons]
          rw [p1, ihCur]
        · simp only [List.length_append, p2, hsllen, ihLen, hsum]
        · refine ⟨m, ?_, ihM⟩
          have hsplit : (cb.drop off).take ((((len, true) :: rows).map Prod.fst).sum) =
              (cb.drop off).take len ++
                (cb.drop (off + len)).take ((rows.map Prod.fst).sum) := by
            rw [show ((((len, true) :: rows)).map Prod.fst).sum =
              len + (rows.map Prod.fst).sum from by simp]
            exact slice_split cb off len _
          rw [hsplit, segs_append (by rw [p2, hsllen])]
          have hx := perm_exchange
            (listValidRow o.listContinuationToken o.listTerminationToken s
              (((cb.map List.length).drop off).take len)).1
            (listRowsGo o maskOfs (cb.map List.length) (off + len) ofs rows).1
            (segs (listValidRow o.listContinuationToken o.listTerminationToken s
              (((cb.map List.length).drop off).take len)).2.2 ((cb.drop off).take len))
            (segs (listRowsGo o maskOfs (cb.map List.length) (off + len) ofs rows).2.2
              ((cb.drop (off + len)).take ((rows.map Prod.fst).sum)))
          refine hx.trans ?_
          have hcomb := p3.append ihPerm
          refine hcomb.trans ?_
          simp only [segs, List.append_assoc]
          exact List.Perm.refl _
      | false =>
        have hmask2 : listMaskedGo (cb.map List.length) (off + len)
            (max 0 (sliceMax (cb.map List.length) off len)) rows ≤ mb := hmask
        rw [listMaskedGo_acc] at hmask2
        have hG : listMaskedGo (cb.map List.length) (off + len) 0 rows ≤ mb := by
          omega
        have hsm : sliceMax (cb.map List.length) off len ≤ mb := by
          omega
        obtain ⟨ihCur, ihLen, m, ihPerm, ihM⟩ := ih (off + len) ofs hlen' hbound' hG
        have hunf : listRowsGo o maskOfs (cb.map List.length) off (s :: ofs)
            ((len, false) :: rows) =
            ((s, o.listNullSentinel) ::
              (listRowsGo o maskOfs (cb.map List.length) (off + len) ofs rows).1,
             (s + 1) ::
              (listRowsGo o maskOfs (cb.map List.length) (off + len) ofs rows).2.1,
             List.replicate len maskOfs ++
              (listRowsGo o maskOfs (cb.map List.length) (off + len) ofs rows).2.2) := rfl
        have hpat : listRowPatGo o.listContinuationToken o.listTerminationToken
            o.listNullSentinel cb off ((len, false) :: rows) =
            [o.listNullSentinel] ::
              listRowPatGo o.listContinuationToken o.listTerminationToken
                o.listNullSentinel cb (off + len) rows := rfl
        rw [hunf, hpat]
        have hMb : ∀ e ∈ segs (List.replicate len maskOfs) ((cb.drop off).take len),
            maskOfs ≤ e.1 ∧ e.1 < maskOfs + mb := by
          refine segs_replicate_bound ?_
          intro b hb
          have hmem : b.length ∈ ((cb.drop off).take len).map List.length :=
            List.mem_map_of_mem List.length hb
          rw [← hslice] at hmem
          have := foldl_max_mem hmem 0
          unfold sliceMax at hsm
          omega
        refine ⟨?_, ?_, ?_⟩
        · simp only [List.zipWith_cons_cons, ihCur, List.length_cons,
            List.length_nil]
        · simp only [List.length_append, List.length_replicate, ihLen, hsum]
        · refine ⟨segs (List.replicate len maskOfs) ((cb.drop off).take len) ++ m,
            ?_, ?_⟩
          · have hsplit : (cb.drop off).take ((((len, false) :: rows).map Prod.fst).sum) =
                (cb.drop off).take len ++
                  (cb.drop (off + len)).take ((rows.map Prod.fst).sum) := by
              rw [show ((((len, false) :: rows)).map Prod.fst).sum =
                len + (rows.map Prod.fst).sum from by simp]
              exact slice_split cb off len _
            rw [hsplit, segs_append (by simp [hsllen])]
            have hx : (((s, o.listNullSentinel) ::
                (listRowsGo o maskOfs (cb.map List.length) (off + len) ofs rows).1) ++
                (segs (List.replicate len maskOfs) ((cb.drop off).take len) ++
                  segs (listRowsGo o maskOfs (cb.map List.length) (off + len) ofs rows).2.2
                    ((cb.drop (off + len)).take ((rows.map Prod.fst).sum)))).Perm
                ((s, o.listNullSentinel) ::
                  (segs (List.replicate len maskOfs) ((cb.drop off).take len) ++
                    ((listRowsGo o maskOfs (cb.map List.length) (off + len) ofs rows).1 ++
                      segs (listRowsGo o maskOfs (cb.map List.length) (off + len) ofs
                        rows).2.2
                        ((cb.drop (off + len)).take ((rows.map Prod.fst).sum))))) := by
              refine List.Perm.cons _ ?_
              simpa using perm_exchange ([] : List (Nat × Nat))
                (listRowsGo o maskOfs (cb.map List.length) (off + len) ofs rows).1
                (segs (List.replicate len maskOfs) ((cb.drop off).take len))
                (segs (listRowsGo o maskOfs (cb.map List.length) (off + len) ofs rows).2.2
                  ((cb.drop (off + len)).take ((rows.map Prod.fst).sum)))
            refine hx.trans ?_
            have hy : (segs (List.replicate len maskOfs) ((cb.drop off).take len) ++
                ((listRowsGo o maskOfs (cb.map List.length) (off + len) ofs rows).1 ++
                  segs (listRowsGo o maskOfs (cb.map List.length) (off + len) ofs rows).2.2
                    ((cb.drop (off + len)).take ((rows.map Prod.fst).sum)))).Perm
                (segs (List.replicate len maskOfs) ((cb.drop off).take len) ++
                  (segs ofs (listRowPatGo o.listContinuationToken o.listTerminationToken
                    o.listNullSentinel cb (off + len) rows) ++ m)) :=
              ihPerm.append_left _
            refine (List.Perm.cons _ hy).trans ?_
            have hz := perm_exchange ([] : List (Nat × Nat))
              (segs (List.replicate len maskOfs) ((cb.drop off).take len))
              (segs ofs (listRowPatGo o.listContinuationToken o.listTerminationToken
                o.listNullSentinel cb (off + len) rows))
              m
            simp only [List.nil_append] at hz
            refine (List.Perm.cons _ hz).trans ?_
            simp only [segs, enumFrom, List.cons_append, List.nil_append,
              List.append_assoc]
            exact List.Perm.refl _
          · intro e he
            rcases List.mem_append.mp he with h | h
            · exact hMb e h
            · exact ihM e h

theorem fslRowGo_length : ∀ (ws : List Nat) (s : Nat),
    (fslRowGo s ws).length = ws.length := by
  intro ws
  induction ws with
  | nil => intro s; rfl
  | cons w ws ih => intro s; simp [fslRowGo, ih]

theorem fslRowGo_segs : ∀ (cbs : List (List Nat)) (s : Nat),
    segs (fslRowGo s (cbs.map List.length)) cbs = enumFrom s (cbs.flatMap id) := by
  intro cbs
  induction cbs with
  | nil => intro s; rfl
  | cons b cbs ih =>
    intro s
    show enumFrom s b ++ segs (fslRowGo (s + b.length) (cbs.map List.length)) cbs =
      enumFrom s (b ++ cbs.flatMap id)
    rw [ih, enumFrom_append]

theorem fslRowGo_adv_last : ∀ (cbs : List (List Nat)) (s : Nat), cbs ≠ [] →
    (List.zipWith (fun t (b : List Nat) => t + b.length)
        (fslRowGo s (cbs.map List.length)) cbs).getD (cbs.length - 1) 0 =
      s + (cbs.map List.length).sum := by
  intro cbs
  induction cbs with
  | nil => intro s h; exact absurd rfl h
  | cons b cbs ih =>
    intro s _
    cases cbs with
    | nil => simp [fslRowGo]
    | cons c cbs' =>
      show (List.zipWith (fun t (b : List Nat) => t + b.length)
          ((s : Nat) :: fslRowGo (s + b.length) ((c :: cbs').map List.length))
          (b :: c :: cbs')).getD ((b :: c :: cbs').length - 1) 0 = _
      simp only [List.zipWith_cons_cons, List.length_cons]
      have hlen : (c :: cbs').length - 1 + 1 = cbs'.length + 1 := by simp
      show (List.zipWith (fun t (b : List Nat) => t + b.length)
          (fslRowGo (s + b.length) ((c :: cbs').map List.length))
          (c :: cbs')).getD ((c :: cbs').length - 1) 0 = _
      rw [ih (s + b.length) (by simp)]
      simp only [List.map_cons, List.sum_cons]
      omega

theorem zipWith_adv_singletons (o : ROpts) : ∀ (ofs : List Nat) (vs : List Bool),
    ofs.length = vs.length →
    List.zipWith (fun s (b : List Nat) => s + b.length) ofs
      (vs.map (fun v => [validityByte o v])) = ofs.map (· + 1) := by
  intro ofs
  induction ofs with
  | nil => intro vs h; simp
  | cons s ofs ih =>
    intro vs h
    cases vs with
    | nil => simp at h
    | cons v vs =>
      have h' : ofs.length = vs.length := by simpa using h
      simp [ih vs h']

theorem flat_slice_len (cb : List (List Nat)) (off k : Nat) :
    (((cb.drop off).take k).flatMap id).length = sliceSum (cb.map List.length) off k := by
  rw [List.length_flatMap]
  unfold sliceSum
  rw [slice_map]
  simp [Function.comp]

theorem fslRows_spec (o : ROpts) (width : Nat) (cb : List (List Nat)) (hw : width ≠ 0) :
    ∀ (vs : List Bool) (ofs : List Nat) (i : Nat),
    ofs.length = vs.length →
    i * width + vs.length * width ≤ cb.length →
    (fslOffsetsGo (cb.map List.length) width i (ofs.map (· + 1))).length =
      vs.length * width ∧
    (segs ofs (vs.map (fun v => [validityByte o v])) ++
        segs (fslOffsetsGo (cb.map List.length) width i (ofs.map (· + 1)))
          ((cb.drop (i * width)).take (vs.length * width))).Perm
      (segs ofs (List.zipWith (fun j v => validityByte o v ::
          ((cb.drop (j * width)).take width).flatMap id)
        (List.range' i vs.length) vs)) ∧
    (∀ k, k < vs.length →
      (List.zipWith (fun s (b : List Nat) => s + b.length)
          (fslOffsetsGo (cb.map List.length) width i (ofs.map (· + 1)))
          ((cb.drop (i * width)).take (vs.length * width))).getD
        (k * width + (width - 1)) 0 =
      ofs.getD k 0 + 1 + sliceSum (cb.map List.length) ((i + k) * width) width) := by
  intro vs
  induction vs with
  | nil =>
    intro ofs i hlen hbound
    cases ofs with
    | nil =>
      refine ⟨by simp [fslOffsetsGo], by simp [fslOffsetsGo, segs], ?_⟩
      intro k hk
      simp at hk
    | cons s ofs => simp at hlen
  | cons v vs ih =>
    intro ofs i hlen hbound
    cases ofs with
    | nil => simp at hlen
    | cons s ofs =>
      have hlen' : ofs.length = vs.length := by simpa using hlen
      have hm1 : (i + 1) * width = i * width + width := Nat.succ_mul i width
      have hvs1 : (v :: vs).length * width = width + vs.length * width := by
        rw [List.length_cons, Nat.succ_mul, Nat.add_comm]
      have hbound' : (i + 1) * width + vs.length * width ≤ cb.length := by
        rw [hm1]; rw [hvs1] at hbound; omega
      obtain ⟨ihLen, ihPerm, ihCur⟩ := ih ofs (i + 1) hlen' hbound'
      have hsliceb : i * width + width ≤ cb.length := by
        rw [hvs1] at hbound; omega
      have hslw : ((cb.map List.length).drop (i * width)).take width =
          ((cb.drop (i * width)).take width).map List.length :=
        slice_map List.length cb (i * width) width
      have hsllen : ((cb.drop (i * width)).take width).length = width :=
        slice_len cb (i * width) width hsliceb
      have hblen : (fslRowGo (s + 1)
          (((cb.map List.length).drop (i * width)).take width)).length = width := by
        rw [fslRowGo_length, hslw, List.length_map, hsllen]
      have hunf : fslOffsetsGo (cb.map List.length) width i ((s :: ofs).map (· + 1)) =
          fslRowGo (s + 1) (((cb.map List.length).drop (i * width)).take width) ++
            fslOffsetsGo (cb.map List.length) width (i + 1) (ofs.map (· + 1)) := rfl
      have hsplit : (cb.drop (i * width)).take ((v :: vs).length * width) =
          (cb.drop (i * width)).take width ++
            (cb.drop ((i + 1) * width)).take (vs.length * width) := by
        rw [hvs1, slice_split, hm1]
      refine ⟨?_, ?_, ?_⟩
      · rw [hunf, List.length_append, hblen, ihLen, hvs1]
      · rw [hunf, hsplit, segs_append (by rw [hblen, hsllen])]
        have hbseg : segs (fslRowGo (s + 1)
            (((cb.map List.length).drop (i * width)).take width))
            ((cb.drop (i * width)).take width) =
            enumFrom (s + 1) (((cb.drop (i * width)).take width).flatMap id) := by
          rw [hslw]
          exact fslRowGo_segs ((cb.drop (i * width)).take width) (s + 1)
        rw [hbseg]
        have hrng : List.range' i ((v :: vs).length) = i :: List.range' (i + 1) vs.length := by
          rw [List.length_cons, List.range'_succ]
        rw [hrng]
        show ((((s, validityByte o v) :: segs ofs (vs.map (fun v => [validityByte o v]))) ++
            (enumFrom (s + 1) (((cb.drop (i * width)).take width).flatMap id) ++
              segs (fslOffsetsGo (cb.map List.length) width (i + 1) (ofs.map (· + 1)))
                ((cb.drop ((i + 1) * width)).take (vs.length * width))))).Perm
          ((s, validityByte o v) ::
            (enumFrom (s + 1) (((cb.drop (i * width)).take width).flatMap id) ++
              segs ofs (List.zipWith (fun j v => validityByte o v ::
                  ((cb.drop (j * width)).take width).flatMap id)
                (List.range' (i + 1) vs.length) vs)))
        refine List.Perm.cons _ ?_
        have hx := perm_exchange ([] : List (Nat × Nat))
          (segs ofs (vs.map (fun v => [validityByte o v])))
          (enumFrom (s + 1) (((cb.drop (i * width)).take width).flatMap id))
          (segs (fslOffsetsGo (cb.map List.length) width (i + 1) (ofs.map (· + 1)))
            ((cb.drop ((i + 1) * width)).take (vs.length * width)))
        simp only [List.nil_append] at hx
        exact hx.trans (ihPerm.append_left _)
      · intro k hk
        rw [hunf, hsplit,
          List.zipWith_append _ _ _ _ _ (by rw [hblen, hsllen])]
        cases k with
        | zero =>
          have hidx : 0 * width + (width - 1) = width - 1 := by omega
          rw [hidx]
          have hzl : (List.zipWith (fun s (b : List Nat) => s + b.length)
              (fslRowGo (s + 1) (((cb.map List.length).drop (i * width)).take width))
              ((cb.drop (i * width)).take width)).length = width := by
            rw [List.length_zipWith, hblen, hsllen]
            omega
          rw [List.getD_append _ _ _ _ (by omega)]
          have hne : (cb.drop (i * width)).take width ≠ [] := by
            intro hcon
            rw [hcon] at hsllen
            simp at hsllen
            omega
          have := fslRowGo_adv_last ((cb.drop (i * width)).take width) (s + 1) hne
          rw [hslw]
          rw [hsllen] at this
          rw [this]
          have hss : (((cb.drop (i * width)).take width).map List.length).sum =
              sliceSum (cb.map List.length) (i * width) width := by
            unfold sliceSum
            rw [slice_map]
          rw [hss]
          simp only [List.getD_cons_zero, Nat.add_zero]
        | succ k =>
          have hkv : k < vs.length := by simpa using hk
          have hzl : (List.zipWith (fun s (b : List Nat) => s + b.length)
              (fslRowGo (s + 1) (((cb.map List.length).drop (i * width)).take width))
              ((cb.drop (i * width)).take width)).length = width := by
            rw [List.length_zipWith, hblen, hsllen]
            omega
          have hmk : (k + 1) * width = k * width + width := Nat.succ_mul k width
          have hge : (k + 1) * width + (width - 1) ≥ width := by
            rw [hmk]; omega
          rw [List.getD_append_right _ _ _ _ (by omega)]
          have hidx : (k + 1) * width + (width - 1) -
              (List.zipWith (fun s (b : List Nat) => s + b.length)
                (fslRowGo (s + 1) (((cb.map List.length).drop (i * width)).take width))
                ((cb.drop (i * width)).take width)).length =
              k * width + (width - 1) := by
            rw [hzl, hmk]; omega
          rw [hidx, ihCur k hkv]
          have hi2 : i + 1 + k = i + (k + 1) := by omega
          rw [hi2]
          simp only [List.getD_cons_succ]

theorem zipWith_append_assoc : ∀ (a b c : List (List Nat)),
    List.zipWith (· ++ ·) (List.zipWith (· ++ ·) a b) c =
      List.zipWith (· ++ ·) a (List.zipWith (· ++ ·) b c) := by
  intro a
  induction a with
  | nil => intro b c; simp
  | cons x a ih =>
    intro b c
    cases b with
    | nil => simp
    | cons y b =>
      cases c with
      | nil => simp
      | cons z c => simp [ih, List.append_assoc]

theorem zipWith_rep_nil_left : ∀ (l : List (List Nat)) (n : Nat), l.length ≤ n →
    List.zipWith (· ++ ·) (List.replicate n ([] : List Nat)) l = l := by
  intro l
  induction l with
  | nil => intro n h; simp
  | cons x l ih =>
    intro n h
    cases n with
    | zero => simp at h
    | succ n => simp [List.replicate_succ, ih n (by simpa using h)]

theorem zipWith_rep_nil_right : ∀ (l : List (List Nat)) (n : Nat), l.length ≤ n →
    List.zipWith (· ++ ·) l (List.replicate n ([] : List Nat)) = l := by
  intro l
  induction l with
  | nil => intro n h; simp
  | cons x l ih =>
    intro n h
    cases n with
    | zero => simp at h
    | succ n => simp [List.replicate_succ, ih n (by simpa using h)]

theorem structRowBytes_acc (o : ROpts) : ∀ (cs : List Arr) (n : Nat)
    (a : List (List Nat)), wfShapeFields n cs → a.length = n →
    structRowBytes o a cs =
      List.zipWith (· ++ ·) a (structRowBytes o (List.replicate n []) cs) := by
  intro cs
  induction cs with
  | nil =>
    intro n a h hacc
    show a = List.zipWith (· ++ ·) a (List.replicate n [])
    rw [zipWith_rep_nil_right a n (Nat.le_of_eq hacc)]
  | cons c cs ih =>
    intro n a h hacc
    show structRowBytes o (List.zipWith (· ++ ·) a (rowBytesArr o.intoNested c)) cs = _
    have hrb : (rowBytesArr o.intoNested c).length = n := by
      rw [rowBytesArr_length o.intoNested c h.2.1, h.1]
    have hRHS : structRowBytes o (List.replicate n []) (c :: cs) =
        structRowBytes o (rowBytesArr o.intoNested c) cs := by
      show structRowBytes o (List.zipWith (· ++ ·) (List.replicate n [])
        (rowBytesArr o.intoNested c)) cs = _
      rw [zipWith_rep_nil_left _ n (Nat.le_of_eq hrb)]
    rw [hRHS]
    rw [ih n _ h.2.2 (by rw [List.length_zipWith, hacc, hrb]; omega)]
    rw [ih n (rowBytesArr o.intoNested c) h.2.2 hrb]
    rw [zipWith_append_assoc]

theorem segs_zip_append : ∀ (ofs : List Nat) (rb1 rb2 : List (List Nat)),
    rb1.length = rb2.length →
    (segs ofs (List.zipWith (· ++ ·) rb1 rb2)).Perm
      (segs ofs rb1 ++
        segs (List.zipWith (fun s b => s + b.length) ofs rb1) rb2) := by
  intro ofs
  induction ofs with
  | nil => intro rb1 rb2 h; simp [segs]
  | cons s ofs ih =>
    intro rb1 rb2 h
    cases rb1 with
    | nil =>
      cases rb2 with
      | nil => simp [segs]
      | cons b rb2 => simp at h
    | cons b1 rb1 =>
      cases rb2 with
      | nil => simp at h
      | cons b2 rb2 =>
        have h' : rb1.length = rb2.length := by simpa using h
        show (enumFrom s (b1 ++ b2) ++ segs ofs (List.zipWith (· ++ ·) rb1 rb2)).Perm
          ((enumFrom s b1 ++ segs ofs rb1) ++
            (enumFrom (s + b1.length) b2 ++
              segs (List.zipWith (fun s b => s + b.length) ofs rb1) rb2))
        rw [enumFrom_append]
        have hx := perm_exchange (enumFrom s b1) (enumFrom (s + b1.length) b2)
          (segs ofs rb1)
          (segs (List.zipWith (fun s b => s + b.length) ofs rb1) rb2)
        have h1 := (ih rb1 rb2 h').append_left
          (enumFrom s b1 ++ enumFrom (s + b1.length) b2)
        exact h1.trans hx

theorem zipWith_adv_zip_append : ∀ (ofs : List Nat) (rb1 rb2 : List (List Nat)),
    List.zipWith (fun s (b : List Nat) => s + b.length) ofs
        (List.zipWith (· ++ ·) rb1 rb2) =
      List.zipWith (fun s (b : List Nat) => s + b.length)
        (List.zipWith (fun s (b : List Nat) => s + b.length) ofs rb1) rb2 := by
  intro ofs
  induction ofs with
  | nil => intro rb1 rb2; simp
  | cons s ofs ih =>
    intro rb1 rb2
    cases rb1 with
    | nil => simp
    | cons b1 rb1 =>
      cases rb2 with
      | nil => simp
      | cons b2 rb2 =>
        simp [ih, Nat.add_assoc]

theorem structRowBytes_length (o : ROpts) (n : Nat) (acc : List (List Nat))
    (cs : List Arr) (hacc : acc.length = n) (h : wfShapeFields n cs) :
    (structRowBytes o acc cs).length = n := by
  have h1 := congrArg List.length (structRB_widths o acc cs n h)
  rw [List.length_map] at h1
  rw [h1]
  exact structWidths_length o n _ cs (by rw [List.length_map]; exact hacc) h

theorem colsRowBytes_length (n : Nat) : ∀ (cols : List (Arr × ROpts)),
    colsWf n cols → (colsRowBytes n cols).length = n := by
  intro cols
  induction cols with
  | nil => intro h; simp [colsRowBytes]
  | cons p cols ih =>
    rcases p with ⟨c, o⟩
    intro h
    show (List.zipWith (· ++ ·) (rowBytesArr o c) (colsRowBytes n cols)).length = n
    rw [List.length_zipWith, rowBytesArr_length o c h.2.1, h.1, ih h.2.2.2]
    omega

theorem colsRowBytes_widths (n : Nat) : ∀ (cols : List (Arr × ROpts)),
    colsWf n cols → (colsRowBytes n cols).map List.length = sumWidths n cols := by
  intro cols
  induction cols with
  | nil => intro h; simp [colsRowBytes, sumWidths]
  | cons p cols ih =>
    rcases p with ⟨c, o⟩
    intro h
    show (List.zipWith (· ++ ·) (rowBytesArr o c) (colsRowBytes n cols)).map
        List.length = List.zipWith (· + ·) (colWidths o c) (sumWidths n cols)
    rw [map_len_zipWith_append, rowBytes_widths o c h.2.1, ih h.2.2.2]

theorem ext_getD {α : Type} : ∀ (l1 l2 : List α) (d : α), l1.length = l2.length →
    (∀ i, i < l1.length → l1.getD i d = l2.getD i d) → l1 = l2 := by
  intro l1
  induction l1 with
  | nil =>
    intro l2 d h _
    cases l2 with
    | nil => rfl
    | cons y l2 => simp at h
  | cons x l1 ih =>
    intro l2 d h hg
    cases l2 with
    | nil => simp at h
    | cons y l2 =>
      have h0 : x = y := hg 0 (by simp)
      have hrest : l1 = l2 :=
        ih l2 d (by simpa using h)
          (fun i hi => hg (i + 1) (by simpa using hi))
      rw [h0, hrest]

theorem zipWith_const_snd {α β γ : Type} (g : β → γ) : ∀ (r : List α) (vs : List β),
    r.length = vs.length →
    List.zipWith (fun _ v => g v) r vs = vs.map g := by
  intro r
  induction r with
  | nil =>
    intro vs h
    cases vs with
    | nil => rfl
    | cons v vs => simp at h
  | cons i r ih =>
    intro vs h
    cases vs with
    | nil => simp at h
    | cons v vs => simp [ih vs (by simpa using h)]

mutual

/-- The materializer contract: under well-formed shapes, 64-bit list
offsets, one cursor per row and a masked-out bound at least the
column's masked contribution, `encode_array` succeeds, its write log is
a permutation of the per-row reference segments plus masked-out writes
confined to the scratch region, and it advances every cursor by exactly
its row's byte count. -/
theorem encodeArr_spec (o : ROpts) (maskOfs mb : Nat) (arr : Arr) (ofs : List Nat)
    (h : arr.wfShape) (h64 : arr.all64 = true) (hofs : ofs.length = arr.numRows)
    (hmb : colMasked o arr ≤ mb) :
    EncSpec maskOfs mb ofs (rowBytesArr o arr) (encodeArr o maskOfs arr ofs) := by
  cases arr with
  | nullArr n =>
    refine ⟨[], ofs, [], rfl, ?_, ?_, by simp⟩
    · exact (zipWith_adv_nil ofs n hofs).symm
    · show List.Perm [] (segs ofs (List.replicate n []) ++ [])
      rw [segs_replicate_nil ofs n, List.append_nil]
  | boolArr vs =>
    exact encSpec_exact (congrArg some (writeRows_eq ofs (vs.map (boolBytes o))))
  | uintArr w vs =>
    exact encSpec_exact (congrArg some (writeRows_eq ofs (vs.map (uintBytes o w))))
  | intArr w vs =>
    exact encSpec_exact (congrArg some (writeRows_eq ofs (vs.map (intBytes o w))))
  | floatArr w vs =>
    exact encSpec_exact (congrArg some (writeRows_eq ofs (vs.map (floatBytes o w))))
  | strArr vs =>
    exact encSpec_exact (congrArg some (writeRows_eq ofs (vs.map (strBytes o))))
  | listArr is64 lens validity child =>
    have h64' : (is64 && Arr.all64 child) = true := h64
    rw [Bool.and_eq_true] at h64'
    obtain ⟨h641, h64c⟩ := h64'
    subst h641
    have hvl : (validList lens.length validity).length = lens.length :=
      validList_length lens.length validity h.1
    have hrows_len : ((lens.zip (validList lens.length validity)).map Prod.fst) =
        lens := List.map_fst_zip _ _ (Nat.le_of_eq hvl.symm)
    have hzlen : (lens.zip (validList lens.length validity)).length =
        lens.length := by
      rw [List.length_zip, hvl]; omega
    have hcb : (rowBytesArr o.intoNested child).map List.length =
        colWidths o.intoNested child := rowBytes_widths o.intoNested child h.2.2
    have hcblen : (rowBytesArr o.intoNested child).length = child.numRows :=
      rowBytesArr_length o.intoNested child h.2.2
    have hofs' : ofs.length = (lens.zip (validList lens.length validity)).length := by
      rw [hzlen]; exact hofs
    have hmb' : max (colMasked o.intoNested child)
        (listMaskedGo (colWidths o.intoNested child) 0 0
          (lens.zip (validList lens.length validity))) ≤ mb := hmb
    have hboundS :
        0 + (((lens.zip (validList lens.length validity)).map Prod.fst).sum) ≤
        (rowBytesArr o.intoNested child).length := by
      rw [hrows_len, hcblen, h.2.1]; omega
    have hmaskS : listMaskedGo ((rowBytesArr o.intoNested child).map List.length)
        0 0 (lens.zip (validList lens.length validity)) ≤ mb := by
      rw [hcb]; omega
    obtain ⟨sCur, sLen, m1, sPerm, sM⟩ := listRows_spec o maskOfs mb
      (rowBytesArr o.intoNested child) (lens.zip (validList lens.length validity))
      0 ofs hofs' hboundS hmaskS
    have hnested_len : (listRowsGo o maskOfs
        ((rowBytesArr o.intoNested child).map List.length) 0 ofs
        (lens.zip (validList lens.length validity))).2.2.length =
        child.numRows := by
      rw [sLen, hrows_len, h.2.1]
    obtain ⟨clog, cOfs, mc, hcr, hcOfs, hcPerm, hcM⟩ :=
      encodeArr_spec o.intoNested maskOfs mb child
        (listRowsGo o maskOfs ((rowBytesArr o.intoNested child).map List.length)
          0 ofs (lens.zip (validList lens.length validity))).2.2
        h.2.2 h64c hnested_len (by omega)
    have hres : encodeArr o maskOfs (.listArr true lens validity child) ofs =
        some ((listRowsGo o maskOfs
            ((rowBytesArr o.intoNested child).map List.length) 0 ofs
            (lens.zip (validList lens.length validity))).1 ++ clog,
          (listRowsGo o maskOfs
            ((rowBytesArr o.intoNested child).map List.length) 0 ofs
            (lens.zip (validList lens.length validity))).2.1) := by
      show (match encodeArr o.intoNested maskOfs child
          (listRowsGo o maskOfs (colWidths o.intoNested child) 0 ofs
            (lens.zip (validList lens.length validity))).2.2 with
        | none => (none : Option (List (Nat × Nat) × List Nat))
        | some (clog, _) =>
            some ((listRowsGo o maskOfs (colWidths o.intoNested child) 0 ofs
                (lens.zip (validList lens.length validity))).1 ++ clog,
              (listRowsGo o maskOfs (colWidths o.intoNested child) 0 ofs
                (lens.zip (validList lens.length validity))).2.1)) = _
      rw [← hcb, hcr]
    refine ⟨_, _, m1 ++ mc, hres, ?_, ?_, ?_⟩
    · exact sCur
    · have hfull : ((rowBytesArr o.intoNested child).drop 0).take
          (((lens.zip (validList lens.length validity)).map Prod.fst).sum) =
          rowBytesArr o.intoNested child := by
        rw [List.drop_zero, hrows_len, ← h.2.1, ← hcblen, List.take_length]
      rw [hfull] at sPerm
      refine (hcPerm.append_left _).trans ?_
      rw [← List.append_assoc, ← List.append_assoc]
      exact sPerm.append_right mc
    · intro e he
      rcases List.mem_append.mp he with hm | hm
      · exact sM e hm
      · exact hcM e hm
  | fslArr len width validity child =>
    have h64c : Arr.all64 child = true := h64
    have hvl : (validList len validity).length = len :=
      validList_length len validity h.1
    have hofsl : ofs.length = len := hofs
    have hvrb := validityWrites_eq o ofs (validList len validity)
    have hadv : (validityWrites o ofs (validList len validity)).2 =
        ofs.map (· + 1) := by
      rw [hvrb]
      exact zipWith_adv_singletons o ofs (validList len validity)
        (by rw [hofsl, hvl])
    by_cases hw : width = 0
    · subst hw
      have hrb0 : rowBytesArr o (.fslArr len 0 validity child) =
          (validList len validity).map (fun v => [validityByte o v]) := by
        show List.zipWith (fun i v => validityByte o v ::
            (((rowBytesArr o.intoNested child).drop (i * 0)).take 0).flatMap id)
          (List.range len) (validList len validity) = _
        exact zipWith_const_snd (fun v => [validityByte o v]) (List.range len)
          (validList len validity) (by rw [List.length_range, hvl])
      rw [hrb0]
      refine encSpec_exact ?_
      show some (validityWrites o ofs (validList len validity)) = _
      rw [hvrb]
    · have hcb : (rowBytesArr o.intoNested child).map List.length =
          colWidths o.intoNested child := rowBytes_widths o.intoNested child h.2.2
      have hcblen : (rowBytesArr o.intoNested child).length = child.numRows :=
        rowBytesArr_length o.intoNested child h.2.2
      have hboundF : 0 * width + (validList len validity).length * width ≤
          (rowBytesArr o.intoNested child).length := by
        rw [hvl, hcblen, h.2.1]; omega
      obtain ⟨fLen, fPerm, fCur⟩ := fslRows_spec o width
        (rowBytesArr o.intoNested child) hw (validList len validity) ofs 0
        (by rw [hofsl, hvl]) hboundF
      have hchildlen : (fslOffsetsGo
          ((rowBytesArr o.intoNested child).map List.length) width 0
          (ofs.map (· + 1))).length = child.numRows := by
        rw [fLen, hvl, h.2.1]
      obtain ⟨clog, cOfs, mc, hcr, hcOfs, hcPerm, hcM⟩ :=
        encodeArr_spec o.intoNested maskOfs mb child
          (fslOffsetsGo ((rowBytesArr o.intoNested child).map List.length) width 0
            (ofs.map (· + 1)))
          h.2.2 h64c hchildlen hmb
      have hres : encodeArr o maskOfs (.fslArr len width validity child) ofs =
          some ((validityWrites o ofs (validList len validity)).1 ++ clog,
            fslRestore width cOfs len) := by
        show (if width = 0 then some (validityWrites o ofs (validList len validity))
          else match encodeArr o.intoNested maskOfs child
              (fslOffsetsGo (colWidths o.intoNested child) width 0
                (validityWrites o ofs (validList len validity)).2) with
            | none => none
            | some (clog, childOfs) =>
                some ((validityWrites o ofs (validList len validity)).1 ++ clog,
                  fslRestore width childOfs len)) = _
        rw [if_neg hw, hadv, ← hcb, hcr]
      have hfull : ((rowBytesArr o.intoNested child).drop (0 * width)).take
          ((validList len validity).length * width) =
          rowBytesArr o.intoNested child := by
        rw [Nat.zero_mul, List.drop_zero, hvl, ← h.2.1, ← hcblen, List.take_length]
      rw [hfull] at fPerm fCur
      rw [← hcOfs] at fCur
      have hrbl : (rowBytesArr o (.fslArr len width validity child)).length = len :=
        rowBytesArr_length o (.fslArr len width validity child) h
      refine ⟨_, _, mc, hres, ?_, ?_, ?_⟩
      · refine ext_getD _ _ 0 ?_ ?_
        · rw [show (fslRestore width cOfs len).length = len from by
            simp [fslRestore]]
          rw [List.length_zipWith, hofsl, hrbl]
          omega
        · intro k hk
          have hkl : k < len := by
            simpa [fslRestore] using hk
          have hL : (fslRestore width cOfs len).getD k 0 =
              cOfs.getD ((k + 1) * width - 1) 0 := by
            unfold fslRestore
            rw [gd_map _ _ k 0 0 (by simpa using hkl), gd_range len k 0 hkl]
          have hmul : (k + 1) * width = k * width + width := by ring
          have hw1 : 1 ≤ width := Nat.one_le_iff_ne_zero.mpr hw
          have hidx : (k + 1) * width - 1 = k * width + (width - 1) := by omega
          rw [hL, hidx, fCur k (by rw [hvl]; exact hkl)]
          have hR : (rowBytesArr o (.fslArr len width validity child)).getD k [] =
              validityByte o ((validList len validity).getD k true) ::
                (((rowBytesArr o.intoNested child).drop (k * width)).take
                  width).flatMap id := by
            show (List.zipWith (fun i v => validityByte o v ::
                (((rowBytesArr o.intoNested child).drop (i * width)).take
                  width).flatMap id)
              (List.range len) (validList len validity)).getD k [] = _
            rw [gd_zipWith _ _ _ k 0 true [] (by simpa using hkl)
              (by rw [hvl]; exact hkl), gd_range len k 0 hkl]
          rw [gd_zipWith _ ofs _ k 0 [] 0 (by rw [hofsl]; exact hkl)
              (by rw [hrbl]; exact hkl), hR]
          rw [List.length_cons, flat_slice_len]
          have hzk : (0 + k) * width = k * width := by rw [Nat.zero_add]
          rw [hzk]
          omega
      · have h1 : (validityWrites o ofs (validList len validity)).1 =
            segs ofs ((validList len validity).map (fun v => [validityByte o v])) := by
          rw [hvrb]
        have hrbGo : List.zipWith (fun j v => validityByte o v ::
            (((rowBytesArr o.intoNested child).drop (j * width)).take
              width).flatMap id)
            (List.range' 0 (validList len validity).length)
            (validList len validity) =
            rowBytesArr o (.fslArr len width validity child) := by
          rw [hvl, ← List.range_eq_range']
          rfl
        rw [hrbGo] at fPerm
        rw [h1]
        refine (hcPerm.append_left _).trans ?_
        rw [← List.append_assoc]
        exact fPerm.append_right mc
      · exact fun e he => hcM e he
  | structArr len validity children =>
    have h64f : fieldsAll64 children = true := h64
    have hvl : (validList len validity).length = len :=
      validList_length len validity h.1
    have hofsl : ofs.length = len := hofs
    have hvrb := validityWrites_eq o ofs (validList len validity)
    have hvrbl : ((validList len validity).map
        (fun v => [validityByte o v])).length = len := by
      rw [List.length_map, hvl]
    have hofs2 : (validityWrites o ofs (validList len validity)).2.length = len := by
      rw [hvrb]
      rw [List.length_zipWith, hofsl, hvrbl]
      omega
    obtain ⟨flog, fOfs, mf, hfr, hfOfs, hfPerm, hfM⟩ :=
      encodeFields_spec o maskOfs mb children len
        (validityWrites o ofs (validList len validity)).2 h.2 h64f hofs2 hmb
    have hres : encodeArr o maskOfs (.structArr len validity children) ofs =
        some ((validityWrites o ofs (validList len validity)).1 ++ flog, fOfs) := by
      show (match encodeFields o maskOfs children
          (validityWrites o ofs (validList len validity)).2 with
        | none => (none : Option (List (Nat × Nat) × List Nat))
        | some (clog, ofs2) =>
            some ((validityWrites o ofs (validList len validity)).1 ++ clog,
              ofs2)) = _
      rw [hfr]
    have hacc : rowBytesArr o (.structArr len validity children) =
        List.zipWith (· ++ ·)
          ((validList len validity).map (fun v => [validityByte o v]))
          (structRowBytes o (List.replicate len []) children) := by
      show structRowBytes o
          ((validList len validity).map (fun v => [validityByte o v])) children = _
      exact structRowBytes_acc o children len _ h.2 hvrbl
    have hfieldslen : (structRowBytes o (List.replicate len []) children).length =
        len := structRowBytes_length o len _ children (by simp) h.2
    have hw2 : (validityWrites o ofs (validList len validity)).2 =
        List.zipWith (fun s (b : List Nat) => s + b.length) ofs
          ((validList len validity).map (fun v => [validityByte o v])) := by
      rw [hvrb]
    refine ⟨_, _, mf, hres, ?_, ?_, ?_⟩
    · rw [hacc, zipWith_adv_zip_append, hfOfs, hw2]
    · have h1 : (validityWrites o ofs (validList len validity)).1 =
          segs ofs ((validList len validity).map (fun v => [validityByte o v])) := by
        rw [hvrb]
      rw [hacc, h1]
      refine (hfPerm.append_left _).trans ?_
      rw [← List.append_assoc, hw2]
      exact (segs_zip_append ofs _ _ (by rw [hvrbl, hfieldslen])).symm.append_right mf
    · exact fun e he => hfM e he
termination_by (sizeOf arr, 1)

/-- Struct fields compose sequentially over the shared cursors: the
combined log is the per-row concatenation of the fields' bytes. -/
theorem encodeFields_spec (o : ROpts) (maskOfs mb : Nat) (cs : List Arr) (n : Nat)
    (ofs : List Nat) (h : wfShapeFields n cs) (h64 : fieldsAll64 cs = true)
    (hofs : ofs.length = n) (hmb : fieldsMasked o cs ≤ mb) :
    EncSpec maskOfs mb ofs (structRowBytes o (List.replicate n []) cs)
      (encodeFields o maskOfs cs ofs) := by
  cases cs with
  | nil =>
    refine ⟨[], ofs, [], rfl, ?_, ?_, by simp⟩
    · exact (zipWith_adv_nil ofs n hofs).symm
    · show List.Perm [] (segs ofs (List.replicate n []) ++ [])
      rw [segs_replicate_nil ofs n, List.append_nil]
  | cons c cs =>
    have h64' : (Arr.all64 c && fieldsAll64 cs) = true := h64
    rw [Bool.and_eq_true] at h64'
    obtain ⟨h64c, h64cs⟩ := h64'
    have hmb' : max (colMasked o.intoNested c) (fieldsMasked o cs) ≤ mb := hmb
    obtain ⟨lg1, ofs1, m1, h1r, h1Ofs, h1Perm, h1M⟩ :=
      encodeArr_spec o.intoNested maskOfs mb c ofs h.2.1 h64c
        (by rw [hofs, h.1]) (by omega)
    have hrb1len : (rowBytesArr o.intoNested c).length = n := by
      rw [rowBytesArr_length o.intoNested c h.2.1, h.1]
    have hofs1 : ofs1.length = n := by
      rw [h1Ofs, List.length_zipWith, hofs, hrb1len]
      omega
    obtain ⟨lg2, ofs2, m2, h2r, h2Ofs, h2Perm, h2M⟩ :=
      encodeFields_spec o maskOfs mb cs n ofs1 h.2.2 h64cs hofs1 (by omega)
    have hres : encodeFields o maskOfs (c :: cs) ofs = some (lg1 ++ lg2, ofs2) := by
      show (match encodeArr o.intoNested maskOfs c ofs with
        | none => (none : Option (List (Nat × Nat) × List Nat))
        | some (lg, ofs1) =>
            match encodeFields o maskOfs cs ofs1 with
            | none => none
            | some (lgs, ofs2) => some (lg ++ lgs, ofs2)) = _
      rw [h1r]
      show (match encodeFields o maskOfs cs ofs1 with
        | none => (none : Option (List (Nat × Nat) × List Nat))
        | some (lgs, ofs2) => some (lg1 ++ lgs, ofs2)) = _
      rw [h2r]
    have hrbhead : structRowBytes o (List.replicate n []) (c :: cs) =
        List.zipWith (· ++ ·) (rowBytesArr o.intoNested c)
          (structRowBytes o (List.replicate n []) cs) := by
      show structRowBytes o (List.zipWith (· ++ ·) (List.replicate n [])
        (rowBytesArr o.intoNested c)) cs = _
      rw [zipWith_rep_nil_left _ n (Nat.le_of_eq hrb1len)]
      exact structRowBytes_acc o cs n _ h.2.2 hrb1len
    have hrb2len : (structRowBytes o (List.replicate n []) cs).length = n :=
      structRowBytes_length o n _ cs (by simp) h.2.2
    rw [hrbhead]
    refine ⟨lg1 ++ lg2, ofs2, m1 ++ m2, hres, ?_, ?_, ?_⟩
    · rw [zipWith_adv_zip_append, ← h1Ofs, ← h2Ofs]
    · have hin : (segs ofs (rowBytesArr o.intoNested c) ++
          segs ofs1 (structRowBytes o (List.replicate n []) cs)).Perm
          (segs ofs (List.zipWith (· ++ ·) (rowBytesArr o.intoNested c)
            (structRowBytes o (List.replicate n []) cs))) := by
        rw [h1Ofs]
        exact (segs_zip_append ofs _ _ (by rw [hrb1len, hrb2len])).symm
      exact ((h1Perm.append h2Perm).trans (perm_exchange _ _ _ _)).trans
        (hin.append_right (m1 ++ m2))
    · intro e he
      rcases List.mem_append.mp he with hm | hm
      · exact h1M e hm
      · exact h2M e hm
termination_by (sizeOf cs, 1)

end

theorem encodeColumns_spec (maskOfs mb n : Nat) : ∀ (cols : List (Arr × ROpts))
    (ofs : List Nat), colsWf n cols → ofs.length = n → maskMaxCols cols ≤ mb →
    EncSpec maskOfs mb ofs (colsRowBytes n cols) (encodeColumns maskOfs cols ofs) := by
  intro cols
  induction cols with
  | nil =>
    intro ofs h hofs hmb
    refine ⟨[], ofs, [], rfl, ?_, ?_, by simp⟩
    · exact (zipWith_adv_nil ofs n hofs).symm
    · show List.Perm [] (segs ofs (List.replicate n []) ++ [])
      rw [segs_replicate_nil ofs n, List.append_nil]
  | cons p cols ih =>
    rcases p with ⟨c, o⟩
    intro ofs h hofs hmb
    have hmb' : max (colMasked o c) (maskMaxCols cols) ≤ mb := hmb
    obtain ⟨lg1, ofs1, m1, h1r, h1Ofs, h1Perm, h1M⟩ :=
      encodeArr_spec o maskOfs mb c ofs h.2.1 h.2.2.1 (by rw [hofs, h.1]) (by omega)
    have hrb1len : (rowBytesArr o c).length = n := by
      rw [rowBytesArr_length o c h.2.1, h.1]
    have hofs1 : ofs1.length = n := by
      rw [h1Ofs, List.length_zipWith, hofs, hrb1len]
      omega
    obtain ⟨lg2, ofs2, m2, h2r, h2Ofs, h2Perm, h2M⟩ :=
      ih ofs1 h.2.2.2 hofs1 (by omega)
    have hres : encodeColumns maskOfs ((c, o) :: cols) ofs =
        some (lg1 ++ lg2, ofs2) := by
      show (match encodeArr o maskOfs c ofs with
        | none => (none : Option (List (Nat × Nat) × List Nat))
        | some (lg, ofs1) =>
            match encodeColumns maskOfs cols ofs1 with
            | none => none
            | some (lgs, ofs2) => some (lg ++ lgs, ofs2)) = _
      rw [h1r]
      show (match encodeColumns maskOfs cols ofs1 with
        | none => (none : Option (List (Nat × Nat) × List Nat))
        | some (lgs, ofs2) => some (lg1 ++ lgs, ofs2)) = _
      rw [h2r]
    have hrb2len : (colsRowBytes n cols).length = n :=
      colsRowBytes_length n cols h.2.2.2
    refine ⟨lg1 ++ lg2, ofs2, m1 ++ m2, hres, ?_, ?_, ?_⟩
    · show ofs2 = List.zipWith (fun s b => s + b.length) ofs
        (List.zipWith (· ++ ·) (rowBytesArr o c) (colsRowBytes n cols))
      rw [zipWith_adv_zip_append, ← h1Ofs, ← h2Ofs]
    · show (lg1 ++ lg2).Perm (segs ofs (List.zipWith (· ++ ·) (rowBytesArr o c)
        (colsRowBytes n cols)) ++ (m1 ++ m2))
      have hin : (segs ofs (rowBytesArr o c) ++
          segs ofs1 (colsRowBytes n cols)).Perm
          (segs ofs (List.zipWith (· ++ ·) (rowBytesArr o c)
            (colsRowBytes n cols))) := by
        rw [h1Ofs]
        exact (segs_zip_append ofs _ _ (by rw [hrb1len, hrb2len])).symm
      exact ((h1Perm.append h2Perm).trans (perm_exchange _ _ _ _)).trans
        (hin.append_right (m1 ++ m2))
    · intro e he
      rcases List.mem_append.mp he with hm | hm
      · exact h1M e hm
      · exact h2M e hm

theorem sumWidths_length (n : Nat) : ∀ (cols : List (Arr × ROpts)), colsWf n cols →
    (sumWidths n cols).length = n := by
  intro cols
  induction cols with
  | nil => intro h; simp [sumWidths]
  | cons p cols ih =>
    rcases p with ⟨c, o⟩
    intro h
    show (List.zipWith (· + ·) (colWidths o c) (sumWidths n cols)).length = n
    rw [List.length_zipWith, colWidths_length o c h.2.1, h.1, ih h.2.2.2]
    omega

theorem starts_length : ∀ (ws : List Nat) (s : Nat),
    (starts s ws).length = ws.length := by
  intro ws
  induction ws with
  | nil => intro s; rfl
  | cons w ws ih => intro s; simp [starts, ih]

theorem starts_ends : ∀ (ws : List Nat) (s : Nat),
    s :: List.zipWith (· + ·) (starts s ws) ws = starts s ws ++ [s + ws.sum] := by
  intro ws
  induction ws with
  | nil => intro s; simp [starts]
  | cons w ws ih =>
    intro s
    show s :: (s + w) :: List.zipWith (· + ·) (starts (s + w) ws) ws =
      (s :: starts (s + w) ws) ++ [s + (w + ws.sum)]
    rw [show s + (w + ws.sum) = (s + w) + ws.sum from by omega]
    rw [List.cons_append, ← ih (s + w)]

theorem starts_getD : ∀ (ws : List Nat) (s i : Nat), i < ws.length →
    (starts s ws).getD i 0 = s + (ws.take i).sum := by
  intro ws
  induction ws with
  | nil => intro s i hi; simp at hi
  | cons w ws ih =>
    intro s i hi
    cases i with
    | zero => simp [starts]
    | succ i =>
      show (starts (s + w) ws).getD i 0 = _
      rw [ih (s + w) i (by simpa using hi)]
      rw [List.take_succ_cons, List.sum_cons]
      omega

theorem zipWith_adv_eq_add : ∀ (ofs : List Nat) (rb : List (List Nat)),
    List.zipWith (fun s b => s + b.length) ofs rb =
      List.zipWith (· + ·) ofs (rb.map List.length) := by
  intro ofs
  induction ofs with
  | nil => intro rb; simp
  | cons s ofs ih =>
    intro rb
    cases rb with
    | nil => simp
    | cons b rb => simp [ih]

theorem range'_glue : ∀ (m s n : Nat),
    List.range' s m ++ List.range' (s + m) n = List.range' s (m + n) := by
  intro m
  induction m with
  | zero => intro s n; simp
  | succ m ih =>
    intro s n
    have h1 : s + (m + 1) = (s + 1) + m := by omega
    have h2 : m + 1 + n = (m + n) + 1 := by omega
    rw [h2, List.range'_succ, List.range'_succ, List.cons_append, h1, ih (s + 1) n]

theorem mem_range'_bounds {x : Nat} : ∀ {n s : Nat},
    x ∈ List.range' s n → s ≤ x ∧ x < s + n := by
  intro n
  induction n with
  | zero => intro s h; simp at h
  | succ n ih =>
    intro s h
    rw [List.range'_succ] at h
    rcases List.mem_cons.mp h with h | h
    · subst h; omega
    · have := ih h; omega

theorem mem_range'_of : ∀ (n s x : Nat), s ≤ x → x < s + n →
    x ∈ List.range' s n := by
  intro n
  induction n with
  | zero => intro s x h1 h2; omega
  | succ n ih =>
    intro s x h1 h2
    rw [List.range'_succ]
    by_cases hx : x = s
    · exact hx ▸ List.mem_cons_self _ _
    · exact List.mem_cons_of_mem _ (ih (s + 1) x (by omega) (by omega))

theorem count_range' : ∀ (n s x : Nat),
    (List.range' s n).count x = if s ≤ x ∧ x < s + n then 1 else 0 := by
  intro n
  induction n with
  | zero =>
    intro s x
    rw [if_neg (by omega)]
    rfl
  | succ n ih =>
    intro s x
    rw [List.range'_succ, List.count_cons, ih (s + 1) x]
    simp only [beq_iff_eq]
    split_ifs <;> omega

theorem segs_starts_positions : ∀ (ws : List Nat) (rb : List (List Nat)) (s : Nat),
    rb.map List.length = ws →
    (segs (starts s ws) rb).map Prod.fst = List.range' s ws.sum := by
  intro ws
  induction ws with
  | nil =>
    intro rb s h
    have hrb : rb = [] := by
      cases rb with
      | nil => rfl
      | cons b rb => simp at h
    subst hrb
    simp [starts, segs]
  | cons w ws ih =>
    intro rb s h
    cases rb with
    | nil => simp at h
    | cons b rb =>
      obtain ⟨hb, hrest⟩ : b.length = w ∧ rb.map List.length = ws := by
        simpa using h
      show ((enumFrom s b ++ segs (starts (s + w) ws) rb).map Prod.fst) = _
      rw [List.map_append, map_fst_enumFrom, ih rb (s + w) hrest, hb,
        List.sum_cons, range'_glue]

theorem posCount_perm {l1 l2 : List (Nat × Nat)} (h : l1.Perm l2) (lo hi : Nat) :
    posCount l1 lo hi = posCount l2 lo hi := by
  unfold posCount
  exact (h.filter _).length_eq

theorem posCount_append (l1 l2 : List (Nat × Nat)) (lo hi : Nat) :
    posCount (l1 ++ l2) lo hi = posCount l1 lo hi + posCount l2 lo hi := by
  unfold posCount
  rw [List.filter_append, List.length_append]

theorem posCount_eq_fst (lo hi : Nat) : ∀ (l : List (Nat × Nat)),
    posCount l lo hi =
      ((l.map Prod.fst).filter (fun x => lo ≤ x && x < hi)).length := by
  intro l
  induction l with
  | nil => rfl
  | cons e l ih =>
    unfold posCount at ih ⊢
    simp only [List.map_cons, List.filter_cons]
    by_cases hp : (lo ≤ e.1 && e.1 < hi) = true
    · rw [if_pos hp, if_pos hp]
      simp [ih]
    · rw [if_neg hp, if_neg hp]
      exact ih

theorem range'_filter_window (lo hi total : Nat) (h1 : lo ≤ hi) (h2 : hi ≤ total) :
    ((List.range' 0 total).filter (fun x => lo ≤ x && x < hi)).length = hi - lo := by
  have g1 : List.range' lo (hi - lo) ++ List.range' hi (total - hi) =
      List.range' lo (total - lo) := by
    have hg := range'_glue (hi - lo) lo (total - hi)
    rw [show lo + (hi - lo) = hi from by omega] at hg
    rw [show hi - lo + (total - hi) = total - lo from by omega] at hg
    exact hg
  have g2 : List.range' 0 lo ++ List.range' lo (total - lo) =
      List.range' 0 total := by
    have hg := range'_glue lo 0 (total - lo)
    rw [show (0 : Nat) + lo = lo from by omega] at hg
    rw [show lo + (total - lo) = total from by omega] at hg
    exact hg
  rw [← g2, ← g1, List.filter_append, List.filter_append]
  have f1 : (List.range' 0 lo).filter (fun x => lo ≤ x && x < hi) = [] := by
    rw [List.filter_eq_nil_iff]
    intro x hx
    have := mem_range'_bounds hx
    simp only [Bool.and_eq_true, not_and, decide_eq_true_eq]
    omega
  have f2 : (List.range' lo (hi - lo)).filter (fun x => lo ≤ x && x < hi) =
      List.range' lo (hi - lo) := by
    rw [List.filter_eq_self]
    intro x hx
    have := mem_range'_bounds hx
    simp only [Bool.and_eq_true, decide_eq_true_eq]
    omega
  have f3 : (List.range' hi (total - hi)).filter (fun x => lo ≤ x && x < hi) = [] := by
    rw [List.filter_eq_nil_iff]
    intro x hx
    have := mem_range'_bounds hx
    simp only [Bool.and_eq_true, not_and, decide_eq_true_eq]
    omega
  rw [f1, f2, f3]
  simp [List.length_range']

theorem applyWrites_length : ∀ (log : List (Nat × Nat)) (buf : List Nat),
    (applyWrites buf log).length = buf.length := by
  intro log
  induction log with
  | nil => intro buf; rfl
  | cons e log ih =>
    intro buf
    show (applyWrites (buf.set e.1 e.2) log).length = _
    rw [ih (buf.set e.1 e.2), List.length_set]

theorem convertColumns_spec (n : Nat) (cols : List (Arr × ROpts)) (h : colsWf n cols) :
    ∃ (r : ConvResult) (m : List (Nat × Nat)),
      convertColumns n cols = some r ∧
      r.total = (sumWidths n cols).sum ∧
      r.maskMax = maskMaxCols cols ∧
      r.values = (applyWrites (List.replicate (r.total + r.maskMax) 0) r.log).take
        r.total ∧
      r.offsets = starts 0 (sumWidths n cols) ++ [r.total] ∧
      r.log.Perm (segs (starts 0 (sumWidths n cols)) (colsRowBytes n cols) ++ m) ∧
      (∀ e ∈ m, r.total ≤ e.1 ∧ e.1 < r.total + r.maskMax) := by
  have hwl : (sumWidths n cols).length = n := sumWidths_length n cols h
  have hsl : (starts 0 (sumWidths n cols)).length = n := by
    rw [starts_length, hwl]
  obtain ⟨log, ofsF, m, hr, hOfs, hPerm, hM⟩ :=
    encodeColumns_spec (sumWidths n cols).sum (maskMaxCols cols) n cols
      (starts 0 (sumWidths n cols)) h hsl (Nat.le_refl _)
  have hconv : convertColumns n cols =
      some { values := (applyWrites
              (List.replicate ((sumWidths n cols).sum + maskMaxCols cols) 0)
              log).take (sumWidths n cols).sum
             offsets := 0 :: ofsF
             log := log
             total := (sumWidths n cols).sum
             maskMax := maskMaxCols cols } := by
    show (match encodeColumns (sumWidths n cols).sum cols
        (starts 0 (sumWidths n cols)) with
      | none => (none : Option ConvResult)
      | some (log, ofsFinal) =>
          some { values := (applyWrites
                  (List.replicate ((sumWidths n cols).sum + maskMaxCols cols) 0)
                  log).take (sumWidths n cols).sum
                 offsets := 0 :: ofsFinal
                 log := log
                 total := (sumWidths n cols).sum
                 maskMax := maskMaxCols cols }) = _
    rw [hr]
  refine ⟨_, m, hconv, rfl, rfl, rfl, ?_, hPerm, hM⟩
  show (0 : Nat) :: ofsF = starts 0 (sumWidths n cols) ++ [(sumWidths n cols).sum]
  rw [hOfs, zipWith_adv_eq_add, colsRowBytes_widths n cols h]
  have := starts_ends (sumWidths n cols) 0
  rw [show (0 : Nat) + (sumWidths n cols).sum = (sumWidths n cols).sum from by
    omega] at this
  exact this

theorem take_sum_le_sum (l : List Nat) : ∀ (j : Nat), (l.take j).sum ≤ l.sum := by
  intro j
  conv_rhs => rw [← List.take_append_drop j l]
  rw [List.sum_append]
  omega

theorem take_sum_mono (l : List Nat) (j k : Nat) (hjk : j ≤ k) :
    (l.take j).sum ≤ (l.take k).sum := by
  have h : l.take j = (l.take k).take j := by
    rw [List.take_take, Nat.min_eq_left hjk]
  rw [h]
  exact take_sum_le_sum (l.take k) j

theorem listRowWidthsGo_getD (cw : List Nat) : ∀ (rows : List (Nat × Bool))
    (off i : Nat), i < rows.length →
    (listRowWidthsGo cw off rows).getD i 0 =
      if (rows.getD i (0, true)).2
      then 1 + (rows.getD i (0, true)).1 +
        sliceSum cw (off + ((rows.take i).map Prod.fst).sum)
          (rows.getD i (0, true)).1
      else 1 := by
  intro rows
  induction rows with
  | nil => intro off i hi; simp at hi
  | cons r rows ih =>
    rcases r with ⟨len, valid⟩
    intro off i hi
    cases i with
    | zero =>
      show (if valid then 1 + len + sliceSum cw off len else 1) =
        if valid then 1 + len + sliceSum cw (off + 0) len else 1
      rw [Nat.add_zero]
    | succ i =>
      show (listRowWidthsGo cw (off + len) rows).getD i 0 = _
      rw [ih (off + len) i (by simpa using hi)]
      show _ = if (rows.getD i (0, true)).2
        then 1 + (rows.getD i (0, true)).1 +
          sliceSum cw (off + (len + ((rows.take i).map Prod.fst).sum))
            (rows.getD i (0, true)).1
        else 1
      rw [show off + (len + ((rows.take i).map Prod.fst).sum) =
        off + len + ((rows.take i).map Prod.fst).sum from by omega]

theorem listMaskedGo_ge (cw : List Nat) : ∀ (rows : List (Nat × Bool))
    (off acc i : Nat), i < rows.length → (rows.getD i (0, true)).2 = false →
    sliceMax cw (off + ((rows.take i).map Prod.fst).sum)
      (rows.getD i (0, true)).1 ≤ listMaskedGo cw off acc rows := by
  intro rows
  induction rows with
  | nil => intro off acc i hi; simp at hi
  | cons r rows ih =>
    rcases r with ⟨len, valid⟩
    intro off acc i hi hv
    cases i with
    | zero =>
      have hvf : valid = false := hv
      subst hvf
      show sliceMax cw off len ≤
        listMaskedGo cw (off + len) (max acc (sliceMax cw off len)) rows
      rw [listMaskedGo_acc]
      omega
    | succ i =>
      have hv' : (rows.getD i (0, true)).2 = false := hv
      have hrec := ih (off + len)
        (if valid then acc else max acc (sliceMax cw off len)) i
        (by simpa using hi) hv'
      show sliceMax cw (off + (len + ((rows.take i).map Prod.fst).sum))
        (rows.getD i (0, true)).1 ≤ listMaskedGo cw (off + len)
        (if valid then acc else max acc (sliceMax cw off len)) rows
      rw [show off + (len + ((rows.take i).map Prod.fst).sum) =
        off + len + ((rows.take i).map Prod.fst).sum from by omega]
      exact hrec

theorem map_const_eq {α β : Type} (b : β) : ∀ (l : List α),
    l.map (fun _ => b) = List.replicate l.length b := by
  intro l
  induction l with
  | nil => rfl
  | cons x l ih => simp [List.replicate_succ, ih]

theorem sumWidths_le (n : Nat) : ∀ (cols : List (Arr × ROpts)),
    (sumWidths n cols).length ≤ n := by
  intro cols
  induction cols with
  | nil => simp [sumWidths]
  | cons p cols ih =>
    rcases p with ⟨c, o⟩
    show (List.zipWith (· + ·) (colWidths o c) (sumWidths n cols)).length ≤ n
    rw [List.length_zipWith]
    omega

theorem zipWith_zero_add : ∀ (l : List Nat) (n : Nat), l.length ≤ n →
    List.zipWith (· + ·) (List.replicate n 0) l = l := by
  intro l
  induction l with
  | nil => intro n h; simp
  | cons x l ih =>
    intro n h
    cases n with
    | zero => simp at h
    | succ n => simp [List.replicate_succ, ih n (by simpa using h)]

theorem sumWidths_null_insert (n : Nat) (o' : ROpts)
    (cols1 cols2 : List (Arr × ROpts)) :
    sumWidths n (cols1 ++ (Arr.nullArr n, o') :: cols2) =
      sumWidths n (cols1 ++ cols2) := by
  induction cols1 with
  | nil =>
    show List.zipWith (· + ·) (List.replicate n 0) (sumWidths n cols2) =
      sumWidths n cols2
    exact zipWith_zero_add _ n (sumWidths_le n cols2)
  | cons p cols1 ih =>
    rcases p with ⟨c, o⟩
    show List.zipWith (· + ·) (colWidths o c)
        (sumWidths n (cols1 ++ (Arr.nullArr n, o') :: cols2)) = _
    rw [ih]
    rfl

theorem maskMaxCols_null_insert (n : Nat) (o' : ROpts)
    (cols1 cols2 : List (Arr × ROpts)) :
    maskMaxCols (cols1 ++ (Arr.nullArr n, o') :: cols2) =
      maskMaxCols (cols1 ++ cols2) := by
  induction cols1 with
  | nil =>
    show max (colMasked o' (.nullArr n)) (maskMaxCols cols2) = maskMaxCols cols2
    show max 0 (maskMaxCols cols2) = maskMaxCols cols2
    omega
  | cons p cols1 ih =>
    rcases p with ⟨c, o⟩
    show max (colMasked o c)
        (maskMaxCols (cols1 ++ (Arr.nullArr n, o') :: cols2)) = _
    rw [ih]
    rfl

theorem encodeColumns_null_insert (n : Nat) (o' : ROpts) (maskOfs : Nat) :
    ∀ (cols1 cols2 : List (Arr × ROpts)) (ofs : List Nat),
    encodeColumns maskOfs (cols1 ++ (Arr.nullArr n, o') :: cols2) ofs =
      encodeColumns maskOfs (cols1 ++ cols2) ofs := by
  intro cols1
  induction cols1 with
  | nil =>
    intro cols2 ofs
    show (match encodeColumns maskOfs cols2 ofs with
      | none => (none : Option (List (Nat × Nat) × List Nat))
      | some (lgs, ofs2) => some ([] ++ lgs, ofs2)) =
      encodeColumns maskOfs cols2 ofs
    cases encodeColumns maskOfs cols2 ofs with
    | none => rfl
    | some q =>
      rcases q with ⟨lgs, ofs2⟩
      simp
  | cons p cols1 ih =>
    intro cols2 ofs
    rcases p with ⟨c, o⟩
    show (match encodeArr o maskOfs c ofs with
      | none => (none : Option (List (Nat × Nat) × List Nat))
      | some (lg, ofs1) =>
          match encodeColumns maskOfs (cols1 ++ (Arr.nullArr n, o') :: cols2)
            ofs1 with
          | none => none
          | some (lgs, ofs2) => some (lg ++ lgs, ofs2)) =
      (match encodeArr o maskOfs c ofs with
      | none => (none : Option (List (Nat × Nat) × List Nat))
      | some (lg, ofs1) =>
          match encodeColumns maskOfs (cols1 ++ cols2) ofs1 with
          | none => none
          | some (lgs, ofs2) => some (lg ++ lgs, ofs2))
    cases encodeArr o maskOfs c ofs with
    | none => rfl
    | some q =>
      rcases q with ⟨lg, ofs1⟩
      show (match encodeColumns maskOfs (cols1 ++ (Arr.nullArr n, o') :: cols2)
          ofs1 with
        | none => (none : Option (List (Nat × Nat) × List Nat))
        | some (lgs, ofs2) => some (lg ++ lgs, ofs2)) = _
      rw [ih cols2 ofs1]

/-- C2: for every well-formed input whose materialization completes,
the pass writes every byte position in `[0, total_num_bytes)` exactly
once (the multiset of logged positions counts each such position once),
never writes at or beyond `total_num_bytes + masked_out_max_length`,
and the returned buffer is truncated to exactly `total_num_bytes`, so
no byte redirected to the masked-out scratch region appears in the
final output. -/
theorem claim_C2 (n : Nat) (cols : List (Arr × ROpts)) (r : ConvResult)
    (h : colsWf n cols) (hr : convertColumns n cols = some r) :
    r.values.length = r.total ∧
    (∀ e ∈ r.log, e.1 < r.total + r.maskMax) ∧
    (∀ p, p < r.total → (r.log.map Prod.fst).count p = 1) := by
  obtain ⟨r', m, hconv, hTot, hMM, hVals, hOffs, hPerm, hM⟩ :=
    convertColumns_spec n cols h
  rw [hconv] at hr
  injection hr with hr
  subst hr
  refine ⟨?_, ?_, ?_⟩
  · rw [hVals, List.length_take, applyWrites_length, List.length_replicate]
    omega
  · intro e he
    have hmem := hPerm.mem_iff.mp he
    rcases List.mem_append.mp hmem with hs | hm2
    · have hfst : e.1 ∈ (segs (starts 0 (sumWidths n cols))
          (colsRowBytes n cols)).map Prod.fst :=
        List.mem_map_of_mem Prod.fst hs
      rw [segs_starts_positions _ _ 0 (colsRowBytes_widths n cols h)] at hfst
      have := mem_range'_bounds hfst
      omega
    · have := hM e hm2
      omega
  · intro p hp
    rw [(hPerm.map Prod.fst).count_eq p, List.map_append, List.count_append,
      segs_starts_positions _ _ 0 (colsRowBytes_widths n cols h), count_range']
    rw [if_pos (by omega)]
    have hzero : (m.map Prod.fst).count p = 0 := by
      rw [List.count_eq_zero]
      intro hmem
      obtain ⟨e, hem, hfst⟩ := List.mem_map.mp hmem
      have := hM e hem
      omega
    omega

/-- Witness for C2: a two-row boolean column. -/
theorem claim_C2_witness :
    ∃ r : ConvResult,
      convertColumns 2 [(Arr.boolArr [some true, none],
        ⟨false, false, false, false⟩)] = some r ∧
      r.values.length = r.total ∧
      (∀ e ∈ r.log, e.1 < r.total + r.maskMax) ∧
      (∀ p, p < r.total → (r.log.map Prod.fst).count p = 1) := by
  obtain ⟨r, hr⟩ : ∃ r, convertColumns 2 [(Arr.boolArr [some true, none],
      ⟨false, false, false, false⟩)] = some r := ⟨_, rfl⟩
  exact ⟨r, hr, claim_C2 2 [(Arr.boolArr [some true, none],
    ⟨false, false, false, false⟩)] r ⟨rfl, trivial, rfl, trivial⟩ hr⟩

/-- C3: for every well-formed input of `n` rows whose materialization
completes, the returned offsets sequence has length `n + 1`, begins
with `0`, each difference `offsets[i+1] - offsets[i]` equals the number
of bytes the pass actually wrote into row `i`'s range across all
columns, and the last offset equals the length of the returned byte
buffer. -/
theorem claim_C3 (n : Nat) (cols : List (Arr × ROpts)) (r : ConvResult)
    (h : colsWf n cols) (hr : convertColumns n cols = some r) :
    r.offsets.length = n + 1 ∧
    r.offsets.getD 0 0 = 0 ∧
    (∀ i, i < n → r.offsets.getD (i + 1) 0 - r.offsets.getD i 0 =
      posCount r.log (r.offsets.getD i 0) (r.offsets.getD (i + 1) 0)) ∧
    r.offsets.getD n 0 = r.values.length := by
  obtain ⟨r', m, hconv, hTot, hMM, hVals, hOffs, hPerm, hM⟩ :=
    convertColumns_spec n cols h
  rw [hconv] at hr
  injection hr with hr
  subst hr
  have hwl : (sumWidths n cols).length = n := sumWidths_length n cols h
  have hsl : (starts 0 (sumWidths n cols)).length = n := by
    rw [starts_length, hwl]
  have hgd : ∀ j, j ≤ n →
      r'.offsets.getD j 0 = ((sumWidths n cols).take j).sum := by
    intro j hj
    rw [hOffs]
    by_cases hjn : j < n
    · rw [List.getD_append _ _ _ _ (by rw [hsl]; exact hjn),
        starts_getD (sumWidths n cols) 0 j (by rw [hwl]; exact hjn),
        Nat.zero_add]
    · have hj' : j = n := by omega
      subst hj'
      rw [List.getD_append_right _ _ _ _ (Nat.le_of_eq hsl), hsl, Nat.sub_self,
        List.take_of_length_le (Nat.le_of_eq hwl), hTot]
      rfl
  have hvlen : r'.values.length = r'.total := by
    rw [hVals, List.length_take, applyWrites_length, List.length_replicate]
    omega
  refine ⟨?_, ?_, ?_, ?_⟩
  · rw [hOffs, List.length_append, hsl]
    rfl
  · rw [hgd 0 (by omega)]
    rfl
  · intro i hi
    rw [hgd i (by omega), hgd (i + 1) (by omega)]
    have hlohi : ((sumWidths n cols).take i).sum ≤
        ((sumWidths n cols).take (i + 1)).sum :=
      take_sum_mono (sumWidths n cols) i (i + 1) (by omega)
    have hhiT : ((sumWidths n cols).take (i + 1)).sum ≤ (sumWidths n cols).sum :=
      take_sum_le_sum (sumWidths n cols) (i + 1)
    rw [posCount_perm hPerm, posCount_append]
    have hseg : posCount (segs (starts 0 (sumWidths n cols)) (colsRowBytes n cols))
        (((sumWidths n cols).take i).sum) (((sumWidths n cols).take (i + 1)).sum) =
        ((sumWidths n cols).take (i + 1)).sum -
          ((sumWidths n cols).take i).sum := by
      rw [posCount_eq_fst,
        segs_starts_positions _ _ 0 (colsRowBytes_widths n cols h),
        range'_filter_window _ _ _ hlohi hhiT]
    have hmz : posCount m (((sumWidths n cols).take i).sum)
        (((sumWidths n cols).take (i + 1)).sum) = 0 := by
      unfold posCount
      rw [List.length_eq_zero, List.filter_eq_nil_iff]
      intro e he
      have := hM e he
      simp only [Bool.and_eq_true, not_and, decide_eq_true_eq]
      intro
      omega
    rw [hseg, hmz]
    omega
  · rw [hgd n (by omega), List.take_of_length_le (Nat.le_of_eq hwl), hvlen, hTot]

/-- Witness for C3: a two-row boolean column. -/
theorem claim_C3_witness :
    ∃ r : ConvResult,
      convertColumns 2 [(Arr.boolArr [none, some false],
        ⟨true, true, false, false⟩)] = some r ∧
      r.offsets.length = 2 + 1 ∧
      r.offsets.getD 0 0 = 0 ∧
      (∀ i, i < 2 → r.offsets.getD (i + 1) 0 - r.offsets.getD i 0 =
        posCount r.log (r.offsets.getD i 0) (r.offsets.getD (i + 1) 0)) ∧
      r.offsets.getD 2 0 = r.values.length := by
  obtain ⟨r, hr⟩ : ∃ r, convertColumns 2 [(Arr.boolArr [none, some false],
      ⟨true, true, false, false⟩)] = some r := ⟨_, rfl⟩
  exact ⟨r, hr, claim_C3 2 [(Arr.boolArr [none, some false],
    ⟨true, true, false, false⟩)] r ⟨rfl, trivial, rfl, trivial⟩ hr⟩

/-- C5 counterexample: the claim covers 32-bit-offset list columns, but
the list branch of `encode_array` downcasts the stored array to
`ListArray<i64>` and `unwrap`s, so a 32-bit-offset list column panics
during materialization (modelled as `none`) instead of being written in
the claimed pattern. -/
theorem claim_C5_counterexample :
    convertColumns 1 [(Arr.listArr false [1] none (.boolArr [some true]),
      ⟨false, false, false, false⟩)] = none := rfl

/-- C5 (amended to 64-bit-offset lists): the materializer writes each
valid list row as one continuation token before each element followed
by that element's child encoding and one termination token after the
last element, each null row as a single null-sentinel byte, and every
child write belonging to a null row's masked-out elements is redirected
into the masked-out scratch region `[maskOfs, maskOfs + mb)`. -/
theorem claim_C5 (o : ROpts) (lens : List Nat) (validity : Option (List Bool))
    (child : Arr) (maskOfs mb : Nat) (ofs : List Nat)
    (h : (Arr.listArr true lens validity child).wfShape)
    (h64 : child.all64 = true) (hofs : ofs.length = lens.length)
    (hmb : colMasked o (.listArr true lens validity child) ≤ mb) :
    EncSpec maskOfs mb ofs
      (listRowPatGo o.listContinuationToken o.listTerminationToken
        o.listNullSentinel (rowBytesArr o.intoNested child) 0
        (lens.zip (validList lens.length validity)))
      (encodeArr o maskOfs (.listArr true lens validity child) ofs) := by
  have h64' : (Arr.listArr true lens validity child).all64 = true := by
    show (true && child.all64) = true
    simpa using h64
  exact encodeArr_spec o maskOfs mb (.listArr true lens validity child) ofs h
    h64' hofs hmb

/-- Witness for C5: a one-row 64-bit list of one boolean. -/
theorem claim_C5_witness :
    EncSpec 3 0 [0]
      (listRowPatGo
        (ROpts.listContinuationToken ⟨false, false, false, false⟩)
        (ROpts.listTerminationToken ⟨false, false, false, false⟩)
        (ROpts.listNullSentinel ⟨false, false, false, false⟩)
        (rowBytesArr (ROpts.intoNested ⟨false, false, false, false⟩)
          (.boolArr [some true])) 0
        ([1].zip (validList 1 none)))
      (encodeArr ⟨false, false, false, false⟩ 3
        (.listArr true [1] none (.boolArr [some true])) [0]) :=
  claim_C5 ⟨false, false, false, false⟩ [1] none (.boolArr [some true]) 3 0 [0]
    ⟨by simp, rfl, trivial⟩ rfl rfl (by decide)

/-- C6: during width computation for a list column, every valid row
with `k` elements contributes exactly `1 + k +` (the sum of its
elements' child widths) bytes, every null row contributes exactly `1`
byte, and the measured widths of a null row's masked-out elements are
folded (as their maximum) into the running masked-out-max scalar
instead of the row's width. -/
theorem claim_C6 (o : ROpts) (is64 : Bool) (lens : List Nat)
    (validity : Option (List Bool)) (child : Arr)
    (hv : ∀ v ∈ validity, v.length = lens.length) :
    (∀ i, i < lens.length →
      (colWidths o (.listArr is64 lens validity child)).getD i 0 =
        if (validList lens.length validity).getD i true
        then 1 + lens.getD i 0 +
          sliceSum (colWidths o.intoNested child) ((lens.take i).sum)
            (lens.getD i 0)
        else 1) ∧
    (∀ i, i < lens.length →
      (validList lens.length validity).getD i true = false →
      sliceMax (colWidths o.intoNested child) ((lens.take i).sum)
        (lens.getD i 0) ≤
        colMasked o (.listArr is64 lens validity child)) := by
  have hvl : (validList lens.length validity).length = lens.length :=
    validList_length lens.length validity hv
  have hzl : (lens.zip (validList lens.length validity)).length = lens.length := by
    rw [List.length_zip, hvl]
    omega
  have hgd : ∀ i, i < lens.length →
      (lens.zip (validList lens.length validity)).getD i (0, true) =
        (lens.getD i 0, (validList lens.length validity).getD i true) :=
    fun i hi => gd_zip lens _ i 0 true hi (by rw [hvl]; exact hi)
  have htake : ∀ i, (((lens.zip (validList lens.length validity)).take i).map
      Prod.fst) = lens.take i := by
    intro i
    rw [List.map_take, List.map_fst_zip _ _ (Nat.le_of_eq hvl.symm)]
  constructor
  · intro i hi
    show (listRowWidthsGo (colWidths o.intoNested child) 0
      (lens.zip (validList lens.length validity))).getD i 0 = _
    rw [listRowWidthsGo_getD _ _ 0 i (by rw [hzl]; exact hi), hgd i hi, htake i,
      Nat.zero_add]
  · intro i hi hnull
    show sliceMax (colWidths o.intoNested child) ((lens.take i).sum)
      (lens.getD i 0) ≤
      max (colMasked o.intoNested child)
        (listMaskedGo (colWidths o.intoNested child) 0 0
          (lens.zip (validList lens.length validity)))
    have hge := listMaskedGo_ge (colWidths o.intoNested child)
      (lens.zip (validList lens.length validity)) 0 0 i
      (by rw [hzl]; exact hi) (by rw [hgd i hi]; exact hnull)
    rw [hgd i hi, htake i, Nat.zero_add] at hge
    dsimp only at hge
    omega

/-- Witness for C6: a two-row list column (one valid row of length 1,
one null row of length 2) over a three-row boolean child. -/
theorem claim_C6_witness :
    (∀ i, i < ([1, 2] : List Nat).length →
      (colWidths ⟨false, false, false, false⟩
          (.listArr true [1, 2] (some [true, false])
            (.boolArr [some true, none, some false]))).getD i 0 =
        if (validList ([1, 2] : List Nat).length (some [true, false])).getD i true
        then 1 + ([1, 2] : List Nat).getD i 0 +
          sliceSum (colWidths (ROpts.intoNested ⟨false, false, false, false⟩)
              (.boolArr [some true, none, some false]))
            ((([1, 2] : List Nat).take i).sum) (([1, 2] : List Nat).getD i 0)
        else 1) ∧
    (∀ i, i < ([1, 2] : List Nat).length →
      (validList ([1, 2] : List Nat).length (some [true, false])).getD i true =
        false →
      sliceMax (colWidths (ROpts.intoNested ⟨false, false, false, false⟩)
          (.boolArr [some true, none, some false]))
        ((([1, 2] : List Nat).take i).sum) (([1, 2] : List Nat).getD i 0) ≤
        colMasked ⟨false, false, false, false⟩
          (.listArr true [1, 2] (some [true, false])
            (.boolArr [some true, none, some false]))) :=
  claim_C6 ⟨false, false, false, false⟩ true [1, 2] (some [true, false])
    (.boolArr [some true, none, some false])
    (by intro v hv; simp only [Option.mem_def, Option.some.injEq] at hv;
        subst hv; rfl)

/-- C9: a null-typed column contributes zero bytes to every row's
width, the materializer writes no bytes for it and leaves the cursors
untouched, and inserting such a column anywhere into the encoded
column set leaves the whole output (buffer, offsets, write log) of
`convert_columns` unchanged. -/
theorem claim_C9 (n : Nat) (o' : ROpts) (cols1 cols2 : List (Arr × ROpts))
    (maskOfs : Nat) (ofs : List Nat) :
    colWidths o' (.nullArr n) = List.replicate n 0 ∧
    encodeArr o' maskOfs (.nullArr n) ofs = some ([], ofs) ∧
    convertColumns n (cols1 ++ (Arr.nullArr n, o') :: cols2) =
      convertColumns n (cols1 ++ cols2) := by
  refine ⟨rfl, rfl, ?_⟩
  show (match encodeColumns (sumWidths n (cols1 ++ (Arr.nullArr n, o') :: cols2)).sum
      (cols1 ++ (Arr.nullArr n, o') :: cols2)
      (starts 0 (sumWidths n (cols1 ++ (Arr.nullArr n, o') :: cols2))) with
    | none => (none : Option ConvResult)
    | some (log, ofsFinal) =>
        some { values := (applyWrites (List.replicate
                ((sumWidths n (cols1 ++ (Arr.nullArr n, o') :: cols2)).sum +
                  maskMaxCols (cols1 ++ (Arr.nullArr n, o') :: cols2)) 0)
                log).take (sumWidths n (cols1 ++ (Arr.nullArr n, o') :: cols2)).sum
               offsets := 0 :: ofsFinal
               log := log
               total := (sumWidths n (cols1 ++ (Arr.nullArr n, o') :: cols2)).sum
               maskMax := maskMaxCols (cols1 ++ (Arr.nullArr n, o') :: cols2) }) =
    (match encodeColumns (sumWidths n (cols1 ++ cols2)).sum (cols1 ++ cols2)
      (starts 0 (sumWidths n (cols1 ++ cols2))) with
    | none => (none : Option ConvResult)
    | some (log, ofsFinal) =>
        some { values := (applyWrites (List.replicate
                ((sumWidths n (cols1 ++ cols2)).sum +
                  maskMaxCols (cols1 ++ cols2)) 0)
                log).take (sumWidths n (cols1 ++ cols2)).sum
               offsets := 0 :: ofsFinal
               log := log
               total := (sumWidths n (cols1 ++ cols2)).sum
               maskMax := maskMaxCols (cols1 ++ cols2) })
  rw [sumWidths_null_insert n o' cols1 cols2,
    maskMaxCols_null_insert n o' cols1 cols2,
    encodeColumns_null_insert n o' _ cols1 cols2]

/-- C10: a fixed-size-list column of element width zero encodes each
row as exactly one byte (`1` when valid, the null sentinel when not),
its per-row width is `1`, the materializer writes exactly those bytes
and advances each cursor by one, and the result is independent of the
child column entirely — the child encoder is never invoked. -/
theorem claim_C10 (o : ROpts) (len : Nat) (validity : Option (List Bool))
    (child : Arr) (maskOfs : Nat) (ofs : List Nat)
    (hv : ∀ v ∈ validity, v.length = len) :
    rowBytesArr o (.fslArr len 0 validity child) =
      (validList len validity).map (fun v => [validityByte o v]) ∧
    colWidths o (.fslArr len 0 validity child) = List.replicate len 1 ∧
    encodeArr o maskOfs (.fslArr len 0 validity child) ofs =
      some (segs ofs ((validList len validity).map (fun v => [validityByte o v])),
        List.zipWith (fun s b => s + b.length) ofs
          ((validList len validity).map (fun v => [validityByte o v]))) ∧
    (∀ child', encodeArr o maskOfs (.fslArr len 0 validity child') ofs =
      encodeArr o maskOfs (.fslArr len 0 validity child) ofs) := by
  refine ⟨?_, ?_, ?_, ?_⟩
  · show List.zipWith (fun i v => validityByte o v ::
        (((rowBytesArr o.intoNested child).drop (i * 0)).take 0).flatMap id)
      (List.range len) (validList len validity) = _
    exact zipWith_const_snd (fun v => [validityByte o v]) (List.range len)
      (validList len validity)
      (by rw [List.length_range, validList_length len validity hv])
  · show (List.range len).map (fun i => 1 +
        sliceSum (colWidths o.intoNested child) (i * 0) 0) = _
    exact (map_const_eq 1 (List.range len)).trans (by rw [List.length_range])
  · show some (validityWrites o ofs (validList len validity)) = _
    rw [validityWrites_eq]
  · intro child'
    rfl

/-- Witness for C10: a two-row width-0 fixed-size list over an empty
boolean child. -/
theorem claim_C10_witness :
    encodeArr ⟨false, false, false, false⟩ 7
        (.fslArr 2 0 (some [true, false]) (.boolArr [])) [0, 1] =
      some (segs [0, 1] ((validList 2 (some [true, false])).map
          (fun v => [validityByte ⟨false, false, false, false⟩ v])),
        List.zipWith (fun s b => s + b.length) [0, 1]
          ((validList 2 (some [true, false])).map
            (fun v => [validityByte ⟨false, false, false, false⟩ v]))) :=
  (claim_C10 ⟨false, false, false, false⟩ 2 (some [true, false]) (.boolArr [])
    7 [0, 1]
    (by intro v hv; simp only [Option.mem_def, Option.some.injEq] at hv;
        subst hv; rfl)).2.2.1
